import Mathlib

/-!
# Saturday: vocabulary repository, tokenizer and query evaluator

A shallow embedding of `internal/repository/sequenceRepos.go`,
`internal/repository/documentRepos.go` and `internal/app/index/searchIndex.go`.

* The badger key-value store is a list of key/value pairs kept in key order.
  `db.Update` runs its function on a transaction that starts from the store
  and commits it only when the function returns no error and the commit
  succeeds; `db.View` runs its function on a read-only transaction.
* In the vocabulary repository `txn.Get` finds a key, reports
  `ErrKeyNotFound`, or fails with another error; `txn.Set` refuses a key of
  more than 65000 bytes and whatever else the engine refuses (a transaction
  over its size limit, a value over the value log file size). What the engine
  refuses beyond the key size depends on its options and is the parameter
  `Badger` of the model. The database is open.
* Go strings are Lean strings; Go `int` is a 64-bit two's complement integer,
  held in an `Int` and reduced with `wrap64` after an addition.
* `strconv.Atoi`, `strconv.Itoa` and the `%d` verb are modelled on their
  documented behaviour (optional sign, decimal digits, range check).
* A `float64` is a rational number, an infinity or NaN (`Float64`): finite
  arithmetic is exact (no rounding, no overflow, zero has no sign), the
  infinities and NaN follow IEEE 754, and comparisons with NaN are false.
* `rank[id]` of the map of accumulators is a pointer: dereferencing it for an
  id that is no key panics, and `Search` then has no result (`none`).
* `math.Log`, the JSON decoder, the `unicode` tables, the stemmer, the stop word
  list, the postings repository, `Document.GetFullSize`, the semantic scorer
  and `sort.Slice` are parameters of the model.
* A Go map that is ranged over is a list in the order of that enumeration.
* Locks and logging are left out.
-/

namespace Saturday

/-! ## Keys (documentRepos.go, constants) -/

def WordKeyPrefix : String := "word:"

def IdKeyPrefix : String := "id:"

def DocumentKeyPrefix : String := "doc:"

/-- The key `max_id` that holds the highest id handed out. -/
def maxIdKey : String := "max_id"

/-! ## The key-value store -/

/-- A badger database: key/value pairs, in key order. -/
abbrev Store := List (String × String)

/-- Result of `txn.Get`: `none` stands for `badger.ErrKeyNotFound`. -/
def Store.get : Store → String → Option String
  | [], _ => none
  | (k, v) :: rest, key => if k = key then some v else Store.get rest key

/-- Effect of `txn.Set`: replace the value of `key`, or insert it in key order. -/
def Store.set : Store → String → String → Store
  | [], key, val => [(key, val)]
  | (k, v) :: rest, key, val =>
    if key.data < k.data then (key, val) :: (k, v) :: rest
    else if key = k then (key, val) :: rest
    else (k, v) :: Store.set rest key val

/-- Errors of the repository: a value that `strconv.Atoi` rejects, a record
that does not decode, the failure of an outside service, a key that badger
refuses for its size, and any other error badger reports. -/
inductive Err where
  | atoi (s : String)
  | decode (bytes : String)
  | service (msg : String)
  | keySize (key : String)
  | badger (msg : String)
  deriving DecidableEq, Repr

deriving instance DecidableEq for Except

/-- What the storage engine does beyond holding keys and values; it depends on
the options and the state of the disk. -/
structure Badger where
  /-- The error, if any, with which `txn.Get` or `item.ValueCopy` fails on a
  key for a reason other than a missing key. -/
  readError : String → Option String
  /-- The error, if any, with which `txn.Set` refuses an entry of admissible
  key size, given the entries already written in the transaction
  (`ErrTxnTooBig`, a value over the value log file size). -/
  writeError : List (String × String) → String → String → Option String
  /-- The error, if any, with which the commit of these writes fails. -/
  commitError : List (String × String) → Option String

/-- The engine reports the error `msg` for some read, write or commit. -/
def Badger.Reports (bd : Badger) (msg : String) : Prop :=
  (∃ key, bd.readError key = some msg) ∨
    (∃ pending key val, bd.writeError pending key val = some msg) ∨
    ∃ pending, bd.commitError pending = some msg

/-- The engine that reports no error of its own. -/
def quietBadger : Badger where
  readError := fun _ => none
  writeError := fun _ _ _ => none
  commitError := fun _ => none

/-- The constant `maxKeySize` of badger's `txn.modify`. -/
def maxKeySize : Nat := 65000

/-- Length in bytes of the UTF-8 form of a string, Go's `len`. -/
def byteLen (s : String) : Nat := (s.data.map Char.utf8Size).sum

/-- A transaction: the store as the transaction sees it, and the entries it
has written so far. -/
structure Txn where
  store : Store
  pending : List (String × String)

/-- Model of `txn.Get` followed by `item.ValueCopy`: `.ok none` stands for
`badger.ErrKeyNotFound`, `.error` for any other error. -/
def Txn.get (bd : Badger) (txn : Txn) (key : String) : Except Err (Option String) :=
  match bd.readError key with
  | some msg => .error (.badger msg)
  | none => .ok (txn.store.get key)

/-- Model of `txn.Set`: a key over `maxKeySize` bytes is refused, then the
engine may refuse the entry; otherwise the entry is written. -/
def Txn.set (bd : Badger) (txn : Txn) (key val : String) : Except Err Txn :=
  if byteLen key > maxKeySize then .error (.keySize key)
  else
    match bd.writeError txn.pending key val with
    | some msg => .error (.badger msg)
    | none => .ok ⟨txn.store.set key val, txn.pending ++ [(key, val)]⟩

/-- Model of `db.Update(fn)`: `fn` works on a transaction that starts from the
database; its writes reach the database only if `fn` returns no error and the
commit succeeds, otherwise the transaction is discarded. -/
def Update {α : Type} (bd : Badger) (db : Store) (fn : Txn → Except Err (Txn × α)) :
    Store × Except Err α :=
  match fn ⟨db, []⟩ with
  | .ok (txn, a) =>
    match bd.commitError txn.pending with
    | some msg => (db, .error (.badger msg))
    | none => (txn.store, .ok a)
  | .error e => (db, .error e)

/-- Model of `db.View(fn)`: a read-only transaction. -/
def View {α : Type} (db : Store) (fn : Txn → Except Err α) : Except Err α :=
  fn ⟨db, []⟩

/-! ## Go `int`, `strconv.Atoi`, `strconv.Itoa` -/

/-- Two's complement reduction of an integer to 64 bits. -/
def wrap64 (x : Int) : Int := (x + 2 ^ 63) % 2 ^ 64 - 2 ^ 63

/-- Value of an ASCII decimal digit. -/
def digitVal (c : Char) : Option Nat :=
  if 48 ≤ c.toNat ∧ c.toNat ≤ 57 then some (c.toNat - 48) else none

/-- Value of a run of decimal digits, `none` if some character is no digit. -/
def parseDigits (cs : List Char) : Option Nat :=
  cs.foldl (fun acc c => acc.bind fun n => (digitVal c).map fun d => n * 10 + d) (some 0)

/-- Model of `strconv.Atoi`: an optional sign, at least one decimal digit, and
a value that fits 64 bits. -/
def Atoi (s : String) : Option Int :=
  match s.data with
  | [] => none
  | c :: cs =>
    if c = '-' then
      if cs = [] then none
      else (parseDigits cs).bind fun n => if n ≤ 2 ^ 63 then some (-(n : Int)) else none
    else if c = '+' then
      if cs = [] then none
      else (parseDigits cs).bind fun n => if n < 2 ^ 63 then some (n : Int) else none
    else (parseDigits (c :: cs)).bind fun n => if n < 2 ^ 63 then some (n : Int) else none

/-- Decimal digits of `n`, most significant first (`fuel` bounds the length). -/
def decDigits : Nat → Nat → List Char
  | 0, _ => []
  | fuel + 1, n =>
    if n < 10 then [Char.ofNat (48 + n)]
    else decDigits fuel (n / 10) ++ [Char.ofNat (48 + n % 10)]

/-- Decimal representation of a natural number. -/
def natToDec (n : Nat) : List Char := decDigits (n + 1) n

/-- Model of `strconv.Itoa` and of the `%d` verb. -/
def Itoa (n : Int) : String :=
  if n < 0 then String.mk ('-' :: natToDec n.natAbs) else String.mk (natToDec n.toNat)

/-! ## sequenceRepos.go -/

/-- The read of `max_id` inside `TransferOrSaveToSequence`: a missing key
leaves `maxId` at its zero value. -/
def readMaxId (bd : Badger) (txn : Txn) : Except Err Int :=
  match txn.get bd maxIdKey with
  | .error e => .error e
  | .ok none => .ok 0
  | .ok (some maxIdBytes) =>
    match Atoi maxIdBytes with
    | none => .error (.atoi maxIdBytes)
    | some maxId => .ok maxId

/-- The loop of `TransferOrSaveToSequence` over `words`, inside the transaction. -/
def transferLoop (bd : Badger) (canSave : Bool) :
    Txn → List String → List Int → Except Err (Txn × List Int)
  | txn, [], ids => .ok (txn, ids)
  | txn, word :: rest, ids =>
    let key := WordKeyPrefix ++ word
    match txn.get bd key with
    | .error e => .error e
    | .ok (some idBytes) =>
      match Atoi idBytes with
      | none => .error (.atoi idBytes)
      | some id => transferLoop bd canSave txn rest (ids ++ [id])
    | .ok none =>
      if canSave then
        match readMaxId bd txn with
        | .error e => .error e
        | .ok maxId =>
          let newId := wrap64 (maxId + 1)
          let idKey := IdKeyPrefix ++ Itoa newId
          match txn.set bd idKey word with
          | .error e => .error e
          | .ok txn1 =>
            match txn1.set bd key (Itoa newId) with
            | .error e => .error e
            | .ok txn2 =>
              match txn2.set bd maxIdKey (Itoa newId) with
              | .error e => .error e
              | .ok txn3 => transferLoop bd canSave txn3 rest (ids ++ [newId])
      else transferLoop bd canSave txn rest (ids ++ [0])

/-- `TransferOrSaveToSequence(words, canSave)`: the database after the call
and the returned ids or error. -/
def TransferOrSaveToSequence (bd : Badger) (db : Store) (words : List String) (canSave : Bool) :
    Store × Except Err (List Int) :=
  Update bd db fun txn => transferLoop bd canSave txn words []

/-- The loop of `SequenceToWords`. -/
def sequenceLoop (bd : Badger) (txn : Txn) : List Int → List String → Except Err (List String)
  | [], words => .ok words
  | id :: rest, words =>
    let key := IdKeyPrefix ++ Itoa id
    match txn.get bd key with
    | .error e => .error e
    | .ok (some wordBytes) => sequenceLoop bd txn rest (words ++ [wordBytes])
    | .ok none => sequenceLoop bd txn rest (words ++ [""])

/-- `SequenceToWords(ids)`. -/
def SequenceToWords (bd : Badger) (db : Store) (ids : List Int) : Except Err (List String) :=
  View db fun txn => sequenceLoop bd txn ids []

/-- `GetLastId()`. -/
def GetLastId (bd : Badger) (db : Store) : Except Err Int :=
  View db fun txn =>
    match txn.get bd maxIdKey with
    | .error e => .error e
    | .ok none => .ok 0
    | .ok (some maxIdBytes) =>
      match Atoi maxIdBytes with
      | none => .error (.atoi maxIdBytes)
      | some maxId => .ok maxId

/-- A Go `map[int]string`, as an association list read with `vocabGet`. -/
abbrev Vocab := List (Int × String)

/-- Read of `vocab[k]`. -/
def vocabGet : Vocab → Int → Option String
  | [], _ => none
  | (k, w) :: rest, key => if k = key then some w else vocabGet rest key

/-- The iterator loop of `GetCurrentVocab` over the entries whose key starts
with `id:`, in key order; `vocab[k] = word` puts the new binding in front. -/
def vocabLoop (bd : Badger) : List (String × String) → Vocab → Except Err Vocab
  | [], vocab => .ok vocab
  | (key, word) :: rest, vocab =>
    match bd.readError key with
    | some msg => .error (.badger msg)
    | none =>
      let trimmed := String.mk (key.data.drop IdKeyPrefix.length)
      match Atoi trimmed with
      | none => .error (.atoi trimmed)
      | some k => vocabLoop bd rest ((k, word) :: vocab)

/-- `GetCurrentVocab()`. -/
def GetCurrentVocab (bd : Badger) (db : Store) : Except Err Vocab :=
  View db fun txn =>
    vocabLoop bd (txn.store.filter fun kv => IdKeyPrefix.data.isPrefixOf kv.1.data) []


/-! ## The vocabulary contract, in the words of the specification -/

/-- One term of `intern(terms, allow_create)`: a term with a `word:` entry gets
its stored id and the store stays as it is; a term without one gets `0` when
nothing may be created; otherwise it gets the successor of the current
`max_id` (a missing `max_id` counting as 0, the sum taken in 64 bits), and the
store then holds both directions and the new `max_id`, other keys untouched. -/
def InternStep (canSave : Bool) (s : Store) (term : String) (id : Int) (s' : Store) : Prop :=
  match s.get (WordKeyPrefix ++ term) with
  | some v => Atoi v = some id ∧ s' = s
  | none =>
    if canSave then
      ∃ maxId : Int,
        (match s.get maxIdKey with
          | none => maxId = 0
          | some b => Atoi b = some maxId) ∧
        id = wrap64 (maxId + 1) ∧
        s'.get (WordKeyPrefix ++ term) = some (Itoa id) ∧
        s'.get (IdKeyPrefix ++ Itoa id) = some term ∧
        s'.get maxIdKey = some (Itoa id) ∧
        ∀ k, k ≠ WordKeyPrefix ++ term → k ≠ IdKeyPrefix ++ Itoa id → k ≠ maxIdKey →
          s'.get k = s.get k
    else id = 0 ∧ s' = s

/-- The terms of a batch handled one after the other, each on the store the
previous one left: one id per term, in input order. -/
inductive InternRun (canSave : Bool) : Store → List String → List Int → Store → Prop
  | nil (s : Store) : InternRun canSave s [] [] s
  | cons {s s1 s' : Store} {t : String} {ts : List String} {id : Int} {ids : List Int} :
      InternStep canSave s t id s1 → InternRun canSave s1 ts ids s' →
      InternRun canSave s (t :: ts) (id :: ids) s'

/-- Every stored `word:` id and the `max_id` value is a decimal 64-bit integer. -/
def VocabParses (s : Store) : Prop :=
  (∀ w v, s.get (WordKeyPrefix ++ w) = some v → (Atoi v).isSome = true) ∧
  (∀ v, s.get maxIdKey = some v → (Atoi v).isSome = true)

/-! ## Reachable stores and the vocabulary they represent -/

/-- Term `t` has been given id `n`: the store holds `word:<t>` with the decimal
form of `n`. -/
def Assigned (db : Store) (t : String) (n : Int) : Prop :=
  ∃ v, db.get (WordKeyPrefix ++ t) = some v ∧ Atoi v = some n

/-- Stores reached from the empty store by calls of `TransferOrSaveToSequence`;
the index counts the terms passed so far to the calls that may create ids. -/
inductive Reaches (bd : Badger) : Nat → Store → Prop
  | empty : Reaches bd 0 []
  | call {k : Nat} {db : Store} (words : List String) (canSave : Bool) :
      Reaches bd k db →
      Reaches bd (k + if canSave then words.length else 0)
        (TransferOrSaveToSequence bd db words canSave).1

/-- The store `db` represents the vocabulary `vs`: the term at position `i` of
`vs` has id `i + 1`, and the store holds nothing but the `word:`, `id:` and
`max_id` entries of these terms. -/
structure Rep (vs : List String) (db : Store) : Prop where
  nodup : vs.Nodup
  bound : vs.length < 2 ^ 63
  sorted : (db.map Prod.fst).Pairwise (· < ·)
  word : ∀ w, db.get (WordKeyPrefix ++ w) =
    if w ∈ vs then some (Itoa ((vs.indexOf w : Int) + 1)) else none
  ident : ∀ i (h : i < vs.length), db.get (IdKeyPrefix ++ Itoa ((i : Int) + 1)) = some vs[i]
  maxId : db.get maxIdKey = if vs = [] then none else some (Itoa (vs.length : Int))
  shape : ∀ kv ∈ db, kv.1 = maxIdKey ∨ (∃ w, kv.1 = WordKeyPrefix ++ w) ∨
    ∃ i, i < vs.length ∧ kv.1 = IdKeyPrefix ++ Itoa ((i : Int) + 1)

/-! ## searchIndex.go: the tokenizer -/

/-- What `TokenizeAndStem` takes from outside the repository: the `unicode`
tables and the injected stemmer and stop word list. -/
structure TextEnv where
  /-- `unicode.ToLower`, which `strings.ToLower` applies to every code point. -/
  toLower : Char → Char
  /-- `unicode.IsLetter`. -/
  isLetter : Char → Bool
  /-- `unicode.IsNumber`. -/
  isNumber : Char → Bool
  /-- `idx.stemmer.Stem`. -/
  Stem : String → String
  /-- `idx.stopWords.IsStopWord`. -/
  IsStopWord : String → Bool

/-- `strings.ToLower`. -/
def ToLower (env : TextEnv) (text : String) : String :=
  String.mk (text.data.map env.toLower)

/-- The `for _, r := range text` loop of `TokenizeAndStem`; the state is
`tokens` and the contents of the builder `currentToken`. -/
def tokenizeLoop (env : TextEnv) :
    List Char → List String → List Char → List String × List Char
  | [], tokens, currentToken => (tokens, currentToken)
  | r :: rest, tokens, currentToken =>
    if env.isLetter r || env.isNumber r then
      tokenizeLoop env rest tokens (currentToken ++ [r])
    else if currentToken.length > 0 then
      let token := String.mk currentToken
      if !env.IsStopWord token then
        let stemmed := env.Stem token
        tokenizeLoop env rest (tokens ++ [stemmed]) []
      else tokenizeLoop env rest tokens []
    else tokenizeLoop env rest tokens currentToken

/-- The statements after the loop of `TokenizeAndStem`: a token still in the
builder at the end of the input is emitted as well. -/
def flushToken (env : TextEnv) (tokens : List String) (currentToken : List Char) : List String :=
  if currentToken.length > 0 then
    let token := String.mk currentToken
    if !env.IsStopWord token then
      let stemmed := env.Stem token
      tokens ++ [stemmed]
    else tokens
  else tokens

/-- `TokenizeAndStem(text)`. -/
def TokenizeAndStem (env : TextEnv) (text : String) : List String :=
  let text := ToLower env text
  let state := tokenizeLoop env text.data [] []
  flushToken env state.1 state.2

/-- The maximal runs of letters and numbers of a text: the pieces between
separators, without the empty ones. -/
def alnumRuns (env : TextEnv) (cs : List Char) : List (List Char) :=
  (cs.splitOnP fun c => !(env.isLetter c || env.isNumber c)).filter fun run => run ≠ []

/-- Reference tokenizer in the words of the specification: lowercase, split
into maximal runs of letters or numbers, drop the stop words, stem the rest. -/
def tokenizeReference (env : TextEnv) (text : String) : List String :=
  (((alnumRuns env (ToLower env text).data).map String.mk).filter
    fun token => !env.IsStopWord token).map env.Stem

/-! ## searchIndex.go: the query evaluator -/

/-- A `uuid.UUID`, as the number its 16 bytes spell. -/
abbrev UUID := Nat

/-- The fields of `model.Document` that `bytesToDocument` fills. -/
structure Document where
  Id : UUID
  URL : String
  Description : String
  WordCount : Int
  PartOfFullSize : ℚ
  Vec : List (List ℚ)
  deriving DecidableEq

/-- A `float64`: a number, an infinity, or NaN. Finite arithmetic is exact and
zero has no sign. -/
inductive Float64 where
  | num (q : ℚ)
  | posInf
  | negInf
  | nan
  deriving DecidableEq

/-- The conversion `float64(n)` and the numeric constants. -/
instance (n : Nat) : OfNat Float64 n := ⟨.num n⟩

/-- The decimal constants. -/
instance : OfScientific Float64 := ⟨fun m s e => .num (OfScientific.ofScientific m s e)⟩

/-- The sum of two `float64`: opposite infinities give NaN. -/
def Float64.add : Float64 → Float64 → Float64
  | .nan, _ => .nan
  | _, .nan => .nan
  | .num a, .num b => .num (a + b)
  | .posInf, .negInf => .nan
  | .negInf, .posInf => .nan
  | .posInf, _ => .posInf
  | _, .posInf => .posInf
  | .negInf, _ => .negInf
  | _, .negInf => .negInf

/-- The opposite of a `float64`. -/
def Float64.neg : Float64 → Float64
  | .num a => .num (-a)
  | .posInf => .negInf
  | .negInf => .posInf
  | .nan => .nan

/-- The sign an infinite product or quotient takes from a finite factor. -/
def Float64.signed (positive : Bool) : Float64 := if positive then .posInf else .negInf

/-- The product of two `float64`: zero times an infinity is NaN. -/
def Float64.mul : Float64 → Float64 → Float64
  | .nan, _ => .nan
  | _, .nan => .nan
  | .num a, .num b => .num (a * b)
  | .num a, .posInf => if a = 0 then .nan else Float64.signed (decide (0 < a))
  | .num a, .negInf => if a = 0 then .nan else Float64.signed (decide (a < 0))
  | .posInf, .num b => if b = 0 then .nan else Float64.signed (decide (0 < b))
  | .negInf, .num b => if b = 0 then .nan else Float64.signed (decide (b < 0))
  | .posInf, .posInf => .posInf
  | .posInf, .negInf => .negInf
  | .negInf, .posInf => .negInf
  | .negInf, .negInf => .posInf

/-- The quotient of two `float64`: zero by zero and infinity by infinity are
NaN, another number by zero is an infinity. -/
def Float64.div : Float64 → Float64 → Float64
  | .nan, _ => .nan
  | _, .nan => .nan
  | .num a, .num b =>
    if b = 0 then (if a = 0 then .nan else Float64.signed (decide (0 < a))) else .num (a / b)
  | .num _, .posInf => .num 0
  | .num _, .negInf => .num 0
  | .posInf, .num b => Float64.signed (decide (0 ≤ b))
  | .negInf, .num b => Float64.signed (decide (b < 0))
  | .posInf, .posInf => .nan
  | .posInf, .negInf => .nan
  | .negInf, .posInf => .nan
  | .negInf, .negInf => .nan

instance : Add Float64 := ⟨Float64.add⟩

instance : Sub Float64 := ⟨fun a b => Float64.add a (Float64.neg b)⟩

instance : Mul Float64 := ⟨Float64.mul⟩

instance : Div Float64 := ⟨Float64.div⟩

/-- The comparison `a > b` of two `float64`: false when either is NaN. -/
def Float64.gt : Float64 → Float64 → Bool
  | .nan, _ => false
  | _, .nan => false
  | .num a, .num b => decide (a > b)
  | .posInf, .posInf => false
  | .posInf, _ => true
  | _, .posInf => false
  | .negInf, _ => false
  | _, .negInf => true

/-- The comparison `a == b` of two `float64`: false when either is NaN. -/
def Float64.eq : Float64 → Float64 → Bool
  | .num a, .num b => decide (a = b)
  | .posInf, .posInf => true
  | .negInf, .negInf => true
  | _, _ => false

/-- The accumulator `requestRanking`; `{}` is its zero value. -/
structure requestRanking where
  includesWords : Int := 0
  relation : Float64 := 0
  tf_idf : Float64 := 0
  bm25 : Float64 := 0
  deriving DecidableEq

/-- The map `rank` of `Search`, from ids to pointers: its keys, and the
accumulator each key points to (`val` is read only at keys, through `deref`
and `modify`). -/
structure RankMap where
  keys : List UUID
  val : UUID → requestRanking

/-- `make(map[uuid.UUID]*requestRanking)`. -/
def RankMap.empty : RankMap := ⟨[], fun _ => {}⟩

/-- `if _, ok := rank[docID]; !ok { rank[docID] = &requestRanking{} }`. -/
def RankMap.add (rank : RankMap) (docID : UUID) : RankMap :=
  if docID ∈ rank.keys then rank
  else ⟨rank.keys ++ [docID], fun id => if id = docID then {} else rank.val id⟩

/-- An update through the pointer `rank[docID]` in the loops that range over a
posting of `index`, whose ids the first loop of `Search` has made keys. -/
def RankMap.modify (rank : RankMap) (docID : UUID) (f : requestRanking → requestRanking) :
    RankMap :=
  ⟨rank.keys, fun id => if id = docID then f (rank.val id) else rank.val id⟩

/-- The pointer `rank[id]` read: `none` is the nil pointer of an id that is no
key, which Go panics on when a field is accessed. -/
def RankMap.deref (rank : RankMap) (id : UUID) : Option requestRanking :=
  if id ∈ rank.keys then some (rank.val id) else none

/-- A write through the pointer `rank[id]`: `none` is the panic on the nil
pointer of an id that is no key. -/
def RankMap.update (rank : RankMap) (id : UUID) (f : requestRanking → requestRanking) :
    Option RankMap :=
  if id ∈ rank.keys then some (rank.modify id f) else none

/-- A posting `map[uuid.UUID]int`, in the order a `range` enumerates it. -/
abbrev Posting := List (UUID × Int)

/-- The map `index` of `Search`; a missing word reads as the nil map. -/
abbrev Index := String → Posting

/-- What `Search` takes from outside `src/`. -/
structure SearchEnv where
  /-- The unicode tables, stemmer and stop words of the tokenizer. -/
  text : TextEnv
  /-- The badger database. -/
  db : Store
  /-- The errors the storage engine reports. -/
  badger : Badger
  /-- `uuid.UUID.String`. -/
  uuidString : UUID → String
  /-- The decoding done by `bytesToDocument` (`json.Unmarshal`, `uuid.Parse`);
  `none` is a decoding error. -/
  bytesToDocument : String → Option Document
  /-- `Document.GetFullSize`. -/
  GetFullSize : Document → ℚ
  /-- `indexRepos.GetDocumentsByWord`. -/
  GetDocumentsByWord : String → Except Err Posting
  /-- `math.Log`. -/
  log : Float64 → Float64
  /-- `handleBinaryScore(words, docs)`, which is not among the sources: for
  each element `rel` of the slice it returns, `rel.Score` and the document
  `rel.Doc` points to, which is taken to be one of the documents passed in and
  is given by its position in `docs`. -/
  handleBinaryScore :
    List String → (docs : List Document) → Except Err (List (Fin docs.length × ℚ))
  /-- `sort.Slice` with the given `less`. -/
  sortSlice : (Document → Document → Bool) → List Document → List Document

/-- `createDocumentKey`. -/
def createDocumentKey (env : SearchEnv) (docID : UUID) : String :=
  DocumentKeyPrefix ++ env.uuidString docID

/-- `GetDocumentByID`; `none` is the error return. -/
def GetDocumentByID (env : SearchEnv) (docID : UUID) : Option Document :=
  match View env.db fun txn => txn.get env.badger (createDocumentKey env docID) with
  | .error _ => none
  | .ok none => none
  | .ok (some docBytes) => env.bytesToDocument docBytes

/-- The iterator loop of `GetAllDocuments`. -/
def allDocumentsLoop (env : SearchEnv) :
    List (String × String) → List Document → Except Err (List Document)
  | [], documents => .ok documents
  | (key, docBytes) :: rest, documents =>
    match env.badger.readError key with
    | some msg => .error (.badger msg)
    | none =>
      match env.bytesToDocument docBytes with
      | none => .error (.decode docBytes)
      | some doc => allDocumentsLoop env rest (documents ++ [doc])

/-- `GetAllDocuments`. -/
def GetAllDocuments (env : SearchEnv) : Except Err (List Document) :=
  View env.db fun txn =>
    allDocumentsLoop env
      (txn.store.filter fun kv => DocumentKeyPrefix.data.isPrefixOf kv.1.data) []

/-- `GetDocumentsCount`. -/
def GetDocumentsCount (env : SearchEnv) : Except Err Int :=
  View env.db fun txn =>
    .ok ((txn.store.filter fun kv => DocumentKeyPrefix.data.isPrefixOf kv.1.data).length : Int)

/-- The conversion `int(x)` of a `float64`: truncation towards zero. -/
def floatToInt (x : ℚ) : Int := if 0 ≤ x then ⌊x⌋ else ⌈x⌉

/-- `updateAVGLen`: the new value of `idx.AvgLen`. The quotient of the two
`float64` is NaN when there is no document (`wordCount` is 0 then). -/
def updateAVGLen (env : SearchEnv) (AvgLen : Float64) : Float64 :=
  match GetAllDocuments env with
  | .error _ => AvgLen
  | .ok docs =>
    let wordCount : Int :=
      docs.foldl (fun wordCount doc => wrap64 (wordCount + floatToInt (env.GetFullSize doc))) 0
    Float64.num (wordCount : ℚ) / Float64.num (docs.length : ℚ)

/-- `culcBM25`, over any type of numbers: a `float64` in `Search`, an ordered
field for exact arithmetic. -/
def culcBM25 {K : Type} [Add K] [Sub K] [Mul K] [Div K] [OfNat K 1] [OfScientific K]
    (GetFullSize : Document → K) (idf tf : K) (doc : Document) (avgLen : K) : K :=
  let k1 : K := 1.2
  let b : K := 0.75
  idf * (tf * (k1 + 1)) / (tf + k1 * (1 - b + b * GetFullSize doc / avgLen))

/-- The first loop of `Search`: fetch the posting of every word and give every
document in it an accumulator. -/
def candidateLoop (env : SearchEnv) : List String → Index × RankMap → Except Err (Index × RankMap)
  | [], state => .ok state
  | word :: rest, (index, rank) =>
    match env.GetDocumentsByWord word with
    | .error e => .error e
    | .ok mp =>
      candidateLoop env rest
        (fun w => if w = word then mp else index w, mp.foldl (fun rank p => rank.add p.1) rank)

/-- `fetchDocuments`. -/
def fetchDocuments (words : List String) (rank : RankMap) (index : Index) : RankMap :=
  words.foldl (fun rank word =>
    (index word).foldl (fun rank p =>
      rank.modify p.1 fun r => { r with includesWords := r.includesWords + 1 }) rank) rank

/-- The variables the scoring loop of `Search` updates. -/
structure ScoreState where
  rank : RankMap
  alreadyIncluded : List UUID
  result : List Document

/-- The body of the inner loop `for docID, freq := range index[word]`. -/
def scoreDoc (env : SearchEnv) (AvgLen idf : Float64) (state : ScoreState) (p : UUID × Int) :
    ScoreState :=
  match GetDocumentByID env p.1 with
  | none => state
  | some doc =>
    let fullSize : Document → Float64 := fun doc => .num (env.GetFullSize doc)
    let rank := state.rank.modify p.1 fun r =>
      { r with
        tf_idf := r.tf_idf + Float64.num (p.2 : ℚ) / fullSize doc * (idf - 1.0),
        bm25 := r.bm25 + culcBM25 fullSize idf (Float64.num (p.2 : ℚ)) doc AvgLen }
    if p.1 ∈ state.alreadyIncluded then { state with rank := rank }
    else ⟨rank, state.alreadyIncluded ++ [p.1], state.result ++ [doc]⟩

/-- The scoring loop of `Search` over `words`; `none` is the `return nil` on an
error of `GetDocumentsCount`. -/
def scoreLoop (env : SearchEnv) (AvgLen : Float64) (index : Index) :
    List String → ScoreState → Option ScoreState
  | [], state => some state
  | word :: rest, state =>
    match GetDocumentsCount env with
    | .error _ => none
    | .ok lenght =>
      let idf :=
        env.log (Float64.num (lenght : ℚ) / Float64.num ((index word).length : ℚ)) + 1.0
      scoreLoop env AvgLen index rest ((index word).foldl (scoreDoc env AvgLen idf) state)

/-- The loop `for _, rel := range predicted`, where `rel.Doc` points to a
document of `result`; `none` is the panic of `rank[rel.Doc.Id].relation` on a
nil pointer. -/
def applyScores (rank : RankMap) (result : List Document) :
    List (Fin result.length × ℚ) → Option RankMap
  | [] => some rank
  | rel :: rest =>
    match rank.update (result.get rel.1).Id fun r => { r with relation := .num rel.2 } with
    | none => none
    | some rank => applyScores rank result rest

/-- The comparison the `less` of `Search` makes between two accumulators. -/
def rankingLess (a b : requestRanking) : Bool :=
  decide (a.includesWords > b.includesWords) || a.relation.gt b.relation ||
    a.relation.eq b.relation && decide (a.includesWords = b.includesWords) &&
      (a.bm25.gt b.bm25 || a.tf_idf.gt b.tf_idf)

/-- The `less` function `Search` passes to `sort.Slice`, for documents whose
ids are keys of `rank`; on another document Go panics (see `lessPanics`). -/
def searchLess (rank : RankMap) (a b : Document) : Bool :=
  match rank.deref a.Id, rank.deref b.Id with
  | some ra, some rb => rankingLess ra rb
  | _, _ => false

/-- The panic of `sort.Slice(result, less)`: it calls `less` at least once on
every element of a slice of two or more elements, and `less` reads a field
through `rank[doc.Id]`. -/
def lessPanics (rank : RankMap) (result : List Document) : Bool :=
  decide (2 ≤ result.length) && result.any fun doc => (rank.deref doc.Id).isNone

/-- The start of `Search`, `if idx.AvgLen == 0 { idx.updateAVGLen() }`, the
only place where `Search` writes `idx.AvgLen`: the value of the field after
the call. NaN is not equal to 0. -/
def avgLenAfterSearch (env : SearchEnv) (AvgLen : Float64) : Float64 :=
  if AvgLen = .num 0 then updateAVGLen env AvgLen else AvgLen

/-- The average length `Search` scores with: the field after that start. -/
def refreshAvgLen (env : SearchEnv) (AvgLen : Float64) : Float64 :=
  avgLenAfterSearch env AvgLen

/-- `Search` from `rank := make(...)` up to the end of the scoring loop: the
accumulators and the slice `result`; `none` is one of the `return nil`. -/
def gatherResult (env : SearchEnv) (AvgLen : Float64) (words : List String) :
    Option ScoreState :=
  match candidateLoop env words (fun _ => [], RankMap.empty) with
  | .error _ => none
  | .ok (index, rank) =>
    let rank := fetchDocuments words rank index
    if rank.keys.length = 0 then none
    else scoreLoop env AvgLen index words ⟨rank, [], []⟩

/-- `Search(query)` for an evaluator whose cached `AvgLen` is the value given:
`some` of the slice it returns (the nil slice is the empty list), or `none`
when it panics on a nil accumulator. -/
def Search (env : SearchEnv) (AvgLen : Float64) (query : String) : Option (List Document) :=
  let AvgLen := refreshAvgLen env AvgLen
  let words := TokenizeAndStem env.text query
  match gatherResult env AvgLen words with
  | none => some []
  | some state =>
    let result := state.result
    let lenght := result.length
    if lenght = 0 then some []
    else
      let cap := min lenght 50
      match env.handleBinaryScore words result with
      | .error _ => some []
      | .ok predicted =>
        match applyScores state.rank result predicted with
        | none => none
        | some rank =>
          if lessPanics rank result then none
          else some ((env.sortSlice (searchLess rank) result).take cap)

/-- The inner loop of Go's insertion sort: move `x` down from the end of the
sorted part, given back to front, while `less` puts it before its neighbour. -/
def insertBackwards {α : Type} (less : α → α → Bool) (x : α) : List α → List α
  | [] => [x]
  | y :: ys => if less x y then y :: insertBackwards less x ys else x :: y :: ys

/-- `insertionSortLessFunc`, which `sort.Slice` runs on slices of at most 12
elements. -/
def insertionSortLessFunc {α : Type} (less : α → α → Bool) (data : List α) : List α :=
  (data.foldl (fun sortedRev x => insertBackwards less x sortedRev) []).reverse

/-! ## The claims about `Search`, in the words of the specification -/

/-- The lexicographic order of the specification: descending `includes_words`,
then descending `relation`, then descending `bm25`, then descending `tf_idf`,
then `tieBreak` (for the specification: the smaller document id). The scores
are compared as Go compares `float64`. -/
def lexBefore (a b : requestRanking) (tieBreak : Prop) : Prop :=
  a.includesWords > b.includesWords ∨
    (a.includesWords = b.includesWords ∧
      (a.relation.gt b.relation = true ∨
        (a.relation.eq b.relation = true ∧
          (a.bm25.gt b.bm25 = true ∨
            (a.bm25.eq b.bm25 = true ∧
              (a.tf_idf.gt b.tf_idf = true ∨ (a.tf_idf.eq b.tf_idf = true ∧ tieBreak)))))))

/-- Two signals of one pair disagree: `b` has more query words but `a` the
higher `relation`, or, at equal `includes_words` and `relation`, `b` has the
higher `bm25` but `a` the higher `tf_idf`. -/
def signalsConflict (a b : requestRanking) : Prop :=
  (a.includesWords < b.includesWords ∧ a.relation.gt b.relation = true) ∨
    (a.includesWords = b.includesWords ∧ a.relation.eq b.relation = true ∧
      b.bm25.gt a.bm25 = true ∧ a.tf_idf.gt b.tf_idf = true)

/-- Enumerations of one posting map: both reads fail, or both return the same
entries, possibly in another order. -/
def sameMap : Except Err Posting → Except Err Posting → Prop
  | .ok mp, .ok mp' => mp.Perm mp'
  | .error _, .error _ => True
  | _, _ => False

/-- Two outcomes of `Search` with the same documents: both calls return, one
list a reordering of the other, or both panic. -/
def sameDocuments : Option (List Document) → Option (List Document) → Prop
  | some docs, some docs' => docs.Perm docs'
  | none, none => True
  | _, _ => False

/-- The ids that occur in the posting of some query term, without repetition. -/
def candidateIds (env : SearchEnv) (query : String) : List UUID :=
  ((TokenizeAndStem env.text query).flatMap fun word =>
    match env.GetDocumentsByWord word with
    | .ok mp => mp.map Prod.fst
    | .error _ => []).dedup

/-- The number of distinct candidate documents that can be loaded. -/
def loadableCandidates (env : SearchEnv) (query : String) : Nat :=
  ((candidateIds env query).filter fun docID => (GetDocumentByID env docID).isSome).length

/-! ## An example corpus -/

/-- ASCII letters and digits, the identity stemmer, the stop word `the`. -/
def exampleText : TextEnv where
  toLower := Char.toLower
  isLetter := Char.isAlpha
  isNumber := Char.isDigit
  Stem := fun token => token
  IsStopWord := fun token => token == "the"

/-- A document of ten words with the given id. -/
def exampleDocument (id : UUID) : Document :=
  ⟨id, "http://a.test/", "", 10, 1, []⟩

/-- Three stored documents `1`, `2`, `3`; the term `t` has the posting `post`;
the scorer gives every document the score 0, or fails; slices are sorted by
insertion sort, as `sort.Slice` does up to 12 elements. -/
def exampleEnv (post : Posting) (scorerFails : Bool) : SearchEnv where
  text := exampleText
  db := [("doc:1", "1"), ("doc:2", "2"), ("doc:3", "3")]
  badger := quietBadger
  uuidString := fun id => String.mk (natToDec id)
  bytesToDocument := fun docBytes => (Atoi docBytes).map fun n => exampleDocument n.toNat
  GetFullSize := fun doc => (doc.WordCount : ℚ) * doc.PartOfFullSize
  GetDocumentsByWord := fun word => if word = "t" then .ok post else .ok []
  log := fun _ => 0
  handleBinaryScore := fun _ docs =>
    if scorerFails then .error (.service "unavailable")
    else .ok ((List.finRange docs.length).map fun i => (i, 0))
  sortSlice := insertionSortLessFunc

/-! ## The tokenizer round trip and the average length, in the words of the specification -/

/-- `tokenize_join` of the specification: the tokens joined with single spaces. -/
def tokenizeJoin : List String → String
  | [] => ""
  | [token] => token
  | token :: next :: rest => token ++ " " ++ tokenizeJoin (next :: rest)

/-- ASCII letters and digits, no stop word, and a stemmer that strips one final
`s` from a token. -/
def pluralText : TextEnv where
  toLower := Char.toLower
  isLetter := Char.isAlpha
  isNumber := Char.isDigit
  Stem := fun token =>
    if token.data.getLast? = some 's' then String.mk token.data.dropLast else token
  IsStopWord := fun _ => false

/-- Modelled from the spec: `Document.GetFullSize` is not among the sources;
the specification gives `full_size = word_count × part_of_full_size`. -/
def specFullSize (doc : Document) : ℚ :=
  (doc.WordCount : ℚ) * doc.PartOfFullSize

/-- The mean of the full sizes of a collection of documents. -/
def meanFullSize (GetFullSize : Document → ℚ) (docs : List Document) : ℚ :=
  (docs.map GetFullSize).sum / (docs.length : ℚ)

/-- A document of three words of which half were retained: full size 3/2. -/
def halfDocument (id : UUID) : Document :=
  ⟨id, "http://a.test/", "", 3, 1 / 2, []⟩

/-- The store `db`, whose record `doc:<n>` decodes to `halfDocument n`. -/
def collectionEnv (db : Store) : SearchEnv where
  text := exampleText
  db := db
  badger := quietBadger
  uuidString := fun id => String.mk (natToDec id)
  bytesToDocument := fun docBytes => (Atoi docBytes).map fun n => halfDocument n.toNat
  GetFullSize := specFullSize
  GetDocumentsByWord := fun _ => .ok []
  log := fun _ => 0
  handleBinaryScore := fun _ docs => .ok ((List.finRange docs.length).map fun i => (i, 0))
  sortSlice := insertionSortLessFunc

theorem Store.get_set_self (s : Store) (k v : String) : (s.set k v).get k = some v := by
  induction s with
  | nil => simp [Store.set, Store.get]
  | cons p rest ih =>
    obtain ⟨k', v'⟩ := p
    simp only [Store.set]
    split_ifs with h1 h2
    · simp [Store.get]
    · simp [Store.get]
    · simp only [Store.get]
      rw [if_neg (Ne.symm h2)]
      exact ih

theorem Store.get_set_of_ne (s : Store) (k v key : String) (h : k ≠ key) :
    (s.set k v).get key = s.get key := by
  induction s with
  | nil => simp [Store.set, Store.get, h]
  | cons p rest ih =>
    obtain ⟨k', v'⟩ := p
    simp only [Store.set]
    split_ifs with h1 h2
    · simp [Store.get, h]
    · subst h2
      simp [Store.get, h]
    · simp only [Store.get]
      rw [ih]

theorem key_append_cancel (p a b : String) (h : p ++ a = p ++ b) : a = b := by
  have := congrArg String.data h
  simp only [String.data_append] at this
  exact String.ext (List.append_cancel_left this)

theorem word_ne_id (a b : String) : WordKeyPrefix ++ a ≠ IdKeyPrefix ++ b := by
  intro h
  have := congrArg String.data h
  simp [WordKeyPrefix, IdKeyPrefix] at this

theorem word_ne_max (a : String) : WordKeyPrefix ++ a ≠ maxIdKey := by
  intro h
  have := congrArg String.data h
  simp [WordKeyPrefix, maxIdKey] at this

theorem id_ne_max (a : String) : IdKeyPrefix ++ a ≠ maxIdKey := by
  intro h
  have := congrArg String.data h
  simp [IdKeyPrefix, maxIdKey] at this

theorem digitVal_ofNat (d : Nat) (h : d < 10) : digitVal (Char.ofNat (48 + d)) = some d := by
  interval_cases d <;> decide

theorem parseDigits_snoc (cs : List Char) (c : Char) :
    parseDigits (cs ++ [c]) =
      (parseDigits cs).bind fun n => (digitVal c).map fun d => n * 10 + d := by
  simp [parseDigits, List.foldl_append]

theorem parseDigits_decDigits (fuel n : Nat) (h : n < fuel) :
    parseDigits (decDigits fuel n) = some n := by
  induction fuel generalizing n with
  | zero => omega
  | succ fuel ih =>
    unfold decDigits
    split_ifs with h10
    · have := digitVal_ofNat n h10
      simp [parseDigits, this]
    · rw [parseDigits_snoc, ih (n / 10) (by omega), digitVal_ofNat _ (Nat.mod_lt _ (by norm_num))]
      simp
      omega

theorem decDigits_ne_nil (fuel n : Nat) (h : n < fuel) : decDigits fuel n ≠ [] := by
  cases fuel with
  | zero => omega
  | succ fuel =>
    unfold decDigits
    split_ifs <;> simp

theorem decDigits_isDigit (fuel n : Nat) :
    ∀ c ∈ decDigits fuel n, (digitVal c).isSome = true := by
  induction fuel generalizing n with
  | zero => simp [decDigits]
  | succ fuel ih =>
    unfold decDigits
    split_ifs with h10
    · intro c hc
      simp only [List.mem_singleton] at hc
      subst hc
      simp [digitVal_ofNat n h10]
    · intro c hc
      rcases List.mem_append.mp hc with hc | hc
      · exact ih _ c hc
      · simp only [List.mem_singleton] at hc
        subst hc
        simp [digitVal_ofNat _ (Nat.mod_lt n (by norm_num : 0 < 10))]

theorem Atoi_natToDec (n : Nat) (h : n < 2 ^ 63) : Atoi (String.mk (natToDec n)) = some (n : Int) := by
  have hne := decDigits_ne_nil (n + 1) n (by omega)
  have hd := decDigits_isDigit (n + 1) n
  have hp := parseDigits_decDigits (n + 1) n (by omega)
  unfold Atoi natToDec
  cases hcs : decDigits (n + 1) n with
  | nil => exact absurd hcs hne
  | cons c cs =>
    have hc : (digitVal c).isSome = true := hd c (by simp [hcs])
    have h1 : c ≠ '-' := by rintro rfl; revert hc; decide
    have h2 : c ≠ '+' := by rintro rfl; revert hc; decide
    simp only [h1, h2, if_false]
    rw [← hcs, hp]
    have h' : n < 9223372036854775808 := by norm_num at h; exact h
    simp [h']

theorem Atoi_Itoa (n : Int) (h1 : -2 ^ 63 ≤ n) (h2 : n < 2 ^ 63) : Atoi (Itoa n) = some n := by
  unfold Itoa
  split_ifs with hneg
  · have hne := decDigits_ne_nil (n.natAbs + 1) n.natAbs (by omega)
    have hp := parseDigits_decDigits (n.natAbs + 1) n.natAbs (by omega)
    have hle : n.natAbs ≤ 2 ^ 63 := by omega
    unfold Atoi
    simp only [natToDec, if_true, hne, if_false, hp]
    have hle' : n.natAbs ≤ 9223372036854775808 := by norm_num at hle; exact hle
    simp [hle']
    rw [abs_of_neg hneg]
    ring
  · have := Atoi_natToDec n.toNat (by omega)
    rw [this]
    congr 1
    omega

theorem wrap64_range (x : Int) : -2 ^ 63 ≤ wrap64 x ∧ wrap64 x < 2 ^ 63 := by
  unfold wrap64
  constructor <;> omega

theorem wrap64_of_range (x : Int) (h1 : -2 ^ 63 ≤ x) (h2 : x < 2 ^ 63) : wrap64 x = x := by
  unfold wrap64
  omega

theorem Atoi_range (s : String) (n : Int) (h : Atoi s = some n) : -2 ^ 63 ≤ n ∧ n < 2 ^ 63 := by
  unfold Atoi at h
  split at h
  · simp at h
  · split_ifs at h with h1 h2 h3 h4
    all_goals
      simp only [Option.bind_eq_some] at h
      obtain ⟨m, -, hm⟩ := h
      split_ifs at hm with hr
      simp only [Option.some.injEq] at hm
      omega

theorem InternRun.length_eq {canSave : Bool} {s s' : Store} {ts : List String} {ids : List Int}
    (h : InternRun canSave s ts ids s') : ids.length = ts.length := by
  induction h with
  | nil => rfl
  | cons _ _ ih => simp [ih]

/-! ## Reads and writes of a transaction -/

theorem Txn.get_of_quiet (bd : Badger) (txn : Txn) (key : String)
    (h : bd.readError key = none) : txn.get bd key = .ok (txn.store.get key) := by
  simp only [Txn.get, h]

theorem Txn.get_ok (bd : Badger) (txn : Txn) (key : String) (r : Option String)
    (h : txn.get bd key = .ok r) : r = txn.store.get key ∧ bd.readError key = none := by
  unfold Txn.get at h
  cases hr : bd.readError key with
  | some m => simp [hr] at h
  | none =>
    simp only [hr, Except.ok.injEq] at h
    exact ⟨h.symm, rfl⟩

theorem Txn.get_error (bd : Badger) (txn : Txn) (key : String) (e : Err)
    (h : txn.get bd key = .error e) : ∃ m, e = .badger m ∧ bd.readError key = some m := by
  unfold Txn.get at h
  cases hr : bd.readError key with
  | some m =>
    simp only [hr, Except.error.injEq] at h
    exact ⟨m, h.symm, rfl⟩
  | none => simp [hr] at h

theorem Txn.set_ok (bd : Badger) (txn : Txn) (key val : String) (txn' : Txn)
    (h : txn.set bd key val = .ok txn') :
    txn'.store = txn.store.set key val ∧ byteLen key ≤ maxKeySize := by
  unfold Txn.set at h
  split_ifs at h with hsize
  cases hw : bd.writeError txn.pending key val with
  | some m => simp [hw] at h
  | none =>
    simp only [hw, Except.ok.injEq] at h
    subst h
    exact ⟨rfl, by omega⟩

theorem Txn.set_error (bd : Badger) (txn : Txn) (key val : String) (e : Err)
    (h : txn.set bd key val = .error e) :
    (e = .keySize key ∧ maxKeySize < byteLen key) ∨
      ∃ m, e = .badger m ∧ bd.writeError txn.pending key val = some m := by
  unfold Txn.set at h
  split_ifs at h with hsize
  · simp only [Except.error.injEq] at h
    exact Or.inl ⟨h.symm, hsize⟩
  · cases hw : bd.writeError txn.pending key val with
    | some m =>
      simp only [hw, Except.error.injEq] at h
      exact Or.inr ⟨m, h.symm, rfl⟩
    | none => simp [hw] at h

/-! ## Size of the keys the repository writes -/

theorem byteLen_le (s : String) : byteLen s ≤ 4 * s.data.length := by
  unfold byteLen
  induction s.data with
  | nil => simp
  | cons c cs ih =>
    have := Char.utf8Size_le_four c
    simp only [List.map_cons, List.sum_cons, List.length_cons]
    omega

theorem decDigits_length (fuel : Nat) :
    ∀ (n k : Nat), 1 ≤ k → n < 10 ^ k → (decDigits fuel n).length ≤ k := by
  induction fuel with
  | zero => intro n k _ _; simp [decDigits]
  | succ fuel ih =>
    intro n k hk hn
    unfold decDigits
    split_ifs with h10
    · simpa using hk
    · have hk2 : 2 ≤ k := by
        by_contra hlt
        have : k = 1 := by omega
        subst this
        omega
      have hdiv : n / 10 < 10 ^ (k - 1) := by
        rw [Nat.div_lt_iff_lt_mul (by norm_num)]
        calc n < 10 ^ k := hn
          _ = 10 ^ (k - 1 + 1) := by congr 1; omega
          _ = 10 ^ (k - 1) * 10 := pow_succ 10 (k - 1)
      have := ih (n / 10) (k - 1) (by omega) hdiv
      simp only [List.length_append, List.length_singleton]
      omega

theorem Itoa_length (n : Int) (h1 : -2 ^ 63 ≤ n) (h2 : n < 2 ^ 63) :
    (Itoa n).data.length ≤ 20 := by
  unfold Itoa
  split_ifs with hneg
  · have hb : n.natAbs < 10 ^ 19 := by norm_num; omega
    have := decDigits_length (n.natAbs + 1) n.natAbs 19 (by norm_num) hb
    simp only [natToDec, List.length_cons]
    omega
  · have hb : n.toNat < 10 ^ 19 := by norm_num; omega
    have := decDigits_length (n.toNat + 1) n.toNat 19 (by norm_num) hb
    simp only [natToDec]
    omega

theorem byteLen_idKey (x : Int) : byteLen (IdKeyPrefix ++ Itoa (wrap64 x)) ≤ maxKeySize := by
  have h1 := byteLen_le (IdKeyPrefix ++ Itoa (wrap64 x))
  have h2 := Itoa_length (wrap64 x) (wrap64_range x).1 (wrap64_range x).2
  have h3 : (IdKeyPrefix ++ Itoa (wrap64 x)).data.length = 3 + (Itoa (wrap64 x)).data.length := by
    rw [String.data_append, List.length_append]
    simp only [IdKeyPrefix, List.length_cons, List.length_nil]
  unfold maxKeySize
  omega

theorem byteLen_maxIdKey : byteLen maxIdKey ≤ maxKeySize := by
  have h1 := byteLen_le maxIdKey
  have h2 : maxIdKey.data.length = 6 := rfl
  unfold maxKeySize
  omega

/-! ## One round of the loop of `TransferOrSaveToSequence` -/

theorem readMaxId_ok (bd : Badger) (txn : Txn) (m : Int) (h : readMaxId bd txn = .ok m) :
    match txn.store.get maxIdKey with
    | none => m = 0
    | some b => Atoi b = some m := by
  unfold readMaxId at h
  cases hg : txn.get bd maxIdKey with
  | error e => simp [hg] at h
  | ok r =>
    obtain ⟨hr, -⟩ := Txn.get_ok bd txn maxIdKey r hg
    subst hr
    simp only [hg] at h
    cases hs : txn.store.get maxIdKey with
    | none => simp [hs] at h; exact h.symm
    | some b =>
      simp only [hs] at h ⊢
      cases ha : Atoi b with
      | none => simp [ha] at h
      | some x => simp [ha] at h; simp [h]

theorem transferLoop_cons_found (bd : Badger) (canSave : Bool) (txn : Txn) (w : String)
    (rest : List String) (acc : List Int) (v : String) (id : Int)
    (hr : bd.readError (WordKeyPrefix ++ w) = none)
    (hg : txn.store.get (WordKeyPrefix ++ w) = some v) (ha : Atoi v = some id) :
    transferLoop bd canSave txn (w :: rest) acc =
      transferLoop bd canSave txn rest (acc ++ [id]) := by
  rw [transferLoop]
  simp only [Txn.get_of_quiet bd txn _ hr, hg, ha]

theorem transferLoop_cons_skip (bd : Badger) (txn : Txn) (w : String) (rest : List String)
    (acc : List Int) (hr : bd.readError (WordKeyPrefix ++ w) = none)
    (hg : txn.store.get (WordKeyPrefix ++ w) = none) :
    transferLoop bd false txn (w :: rest) acc = transferLoop bd false txn rest (acc ++ [0]) := by
  rw [transferLoop]
  simp [Txn.get_of_quiet bd txn _ hr, hg]

/-- What a round of the loop did when the loop returned no error. -/
theorem transferLoop_cons_ok (bd : Badger) (canSave : Bool) (txn : Txn) (w : String)
    (rest : List String) (acc : List Int) (txn' : Txn) (out : List Int)
    (h : transferLoop bd canSave txn (w :: rest) acc = .ok (txn', out)) :
    (∃ v id, txn.store.get (WordKeyPrefix ++ w) = some v ∧ Atoi v = some id ∧
        transferLoop bd canSave txn rest (acc ++ [id]) = .ok (txn', out)) ∨
      (txn.store.get (WordKeyPrefix ++ w) = none ∧ canSave = false ∧
        transferLoop bd canSave txn rest (acc ++ [0]) = .ok (txn', out)) ∨
      (txn.store.get (WordKeyPrefix ++ w) = none ∧ canSave = true ∧
        ∃ m txn3, readMaxId bd txn = .ok m ∧
          byteLen (WordKeyPrefix ++ w) ≤ maxKeySize ∧
          txn3.store = ((txn.store.set (IdKeyPrefix ++ Itoa (wrap64 (m + 1))) w).set
            (WordKeyPrefix ++ w) (Itoa (wrap64 (m + 1)))).set maxIdKey (Itoa (wrap64 (m + 1))) ∧
          transferLoop bd canSave txn3 rest (acc ++ [wrap64 (m + 1)]) = .ok (txn', out)) := by
  rw [transferLoop] at h
  cases hg : txn.get bd (WordKeyPrefix ++ w) with
  | error e => simp [hg] at h
  | ok r =>
    obtain ⟨hr, -⟩ := Txn.get_ok bd txn _ r hg
    simp only [hg] at h
    cases r with
    | some idBytes =>
      simp only at h
      cases ha : Atoi idBytes with
      | none => simp [ha] at h
      | some id =>
        simp only [ha] at h
        exact Or.inl ⟨idBytes, id, hr.symm, ha, h⟩
    | none =>
      simp only at h
      cases canSave with
      | false =>
        simp only [Bool.false_eq_true, if_false] at h
        exact Or.inr (Or.inl ⟨hr.symm, rfl, h⟩)
      | true =>
        simp only [if_true] at h
        cases hm : readMaxId bd txn with
        | error e => simp [hm] at h
        | ok m =>
          simp only [hm] at h
          cases h1 : txn.set bd (IdKeyPrefix ++ Itoa (wrap64 (m + 1))) w with
          | error e => simp [h1] at h
          | ok txn1 =>
            simp only [h1] at h
            cases h2 : txn1.set bd (WordKeyPrefix ++ w) (Itoa (wrap64 (m + 1))) with
            | error e => simp [h2] at h
            | ok txn2 =>
              simp only [h2] at h
              cases h3 : txn2.set bd maxIdKey (Itoa (wrap64 (m + 1))) with
              | error e => simp [h3] at h
              | ok txn3 =>
                simp only [h3] at h
                refine Or.inr (Or.inr ⟨hr.symm, rfl, m, txn3, rfl, ?_, ?_, h⟩)
                · exact (Txn.set_ok bd _ _ _ _ h2).2
                · rw [(Txn.set_ok bd _ _ _ _ h3).1, (Txn.set_ok bd _ _ _ _ h2).1,
                    (Txn.set_ok bd _ _ _ _ h1).1]

theorem transferLoop_run (bd : Badger) (canSave : Bool) (words : List String) :
    ∀ (txn : Txn) (acc : List Int) (txn' : Txn) (out : List Int),
      transferLoop bd canSave txn words acc = .ok (txn', out) →
      ∃ ids, out = acc ++ ids ∧ InternRun canSave txn.store words ids txn'.store := by
  induction words with
  | nil =>
    intro txn acc txn' out h
    simp only [transferLoop, Except.ok.injEq, Prod.mk.injEq] at h
    obtain ⟨rfl, rfl⟩ := h
    exact ⟨[], by simp, InternRun.nil _⟩
  | cons word rest ih =>
    intro txn acc txn' out h
    rcases transferLoop_cons_ok bd canSave txn word rest acc txn' out h with
      ⟨v, id, hg, ha, hl⟩ | ⟨hg, hc, hl⟩ | ⟨hg, hc, m, txn3, hm, -, hst, hl⟩
    · obtain ⟨ids, hout, hrun⟩ := ih _ _ _ _ hl
      refine ⟨id :: ids, by simp [hout], InternRun.cons ?_ hrun⟩
      simp [InternStep, hg, ha]
    · obtain ⟨ids, hout, hrun⟩ := ih _ _ _ _ hl
      refine ⟨0 :: ids, by simp [hout], InternRun.cons ?_ hrun⟩
      simp [InternStep, hg, hc]
    · obtain ⟨ids, hout, hrun⟩ := ih _ _ _ _ hl
      refine ⟨wrap64 (m + 1) :: ids, by simp [hout], InternRun.cons ?_ hrun⟩
      simp only [InternStep, hg, hc, if_true]
      refine ⟨m, readMaxId_ok bd txn m hm, rfl, ?_, ?_, ?_, ?_⟩
      · rw [hst, Store.get_set_of_ne _ _ _ _ (Ne.symm (word_ne_max _)), Store.get_set_self]
      · rw [hst, Store.get_set_of_ne _ _ _ _ (Ne.symm (id_ne_max _)),
          Store.get_set_of_ne _ _ _ _ (word_ne_id _ _), Store.get_set_self]
      · rw [hst, Store.get_set_self]
      · intro k h1 h2 h3
        rw [hst, Store.get_set_of_ne _ _ _ _ (Ne.symm h3),
          Store.get_set_of_ne _ _ _ _ (Ne.symm h1), Store.get_set_of_ne _ _ _ _ (Ne.symm h2)]

theorem Atoi_Itoa_wrap (x : Int) : Atoi (Itoa (wrap64 x)) = some (wrap64 x) :=
  Atoi_Itoa _ (wrap64_range x).1 (wrap64_range x).2

theorem VocabParses_alloc (txn : Store) (word : String) (newId : Int)
    (hr : Atoi (Itoa newId) = some newId) (h : VocabParses txn) :
    VocabParses (((txn.set (IdKeyPrefix ++ Itoa newId) word).set (WordKeyPrefix ++ word)
      (Itoa newId)).set maxIdKey (Itoa newId)) := by
  constructor
  · intro w v hv
    rw [Store.get_set_of_ne _ _ _ _ (Ne.symm (word_ne_max _))] at hv
    by_cases hw : WordKeyPrefix ++ word = WordKeyPrefix ++ w
    · rw [hw, Store.get_set_self] at hv
      simp only [Option.some.injEq] at hv
      subst hv
      simp [hr]
    · rw [Store.get_set_of_ne _ _ _ _ hw,
        Store.get_set_of_ne _ _ _ _ (Ne.symm (word_ne_id _ _))] at hv
      exact h.1 w v hv
  · intro v hv
    rw [Store.get_set_self] at hv
    simp only [Option.some.injEq] at hv
    subst hv
    simp [hr]

theorem readMaxId_error (bd : Badger) (txn : Txn) (e : Err) (hp : VocabParses txn.store)
    (h : readMaxId bd txn = .error e) : ∃ m, e = .badger m ∧ bd.Reports m := by
  unfold readMaxId at h
  cases hg : txn.get bd maxIdKey with
  | error e' =>
    simp only [hg, Except.error.injEq] at h
    obtain ⟨m, hm, hr⟩ := Txn.get_error bd txn _ e' hg
    exact ⟨m, by rw [← h, hm], Or.inl ⟨_, hr⟩⟩
  | ok r =>
    obtain ⟨hr, -⟩ := Txn.get_ok bd txn maxIdKey r hg
    subst hr
    simp only [hg] at h
    cases hs : txn.store.get maxIdKey with
    | none => simp [hs] at h
    | some b =>
      obtain ⟨x, hx⟩ := Option.isSome_iff_exists.mp (hp.2 b hs)
      simp [hs, hx] at h

/-- On a store whose ids are well formed the loop fails only with an error of
the engine: the size of a `word:` key of the batch, or an error the engine
reports. -/
theorem transferLoop_error (bd : Badger) (canSave : Bool) (words : List String) :
    ∀ (txn : Txn) (acc : List Int) (e : Err), VocabParses txn.store →
      transferLoop bd canSave txn words acc = .error e →
      (∃ w ∈ words, maxKeySize < byteLen (WordKeyPrefix ++ w) ∧
          e = .keySize (WordKeyPrefix ++ w)) ∨
        ∃ m, e = .badger m ∧ bd.Reports m := by
  induction words with
  | nil => intro txn acc e _ h; simp [transferLoop] at h
  | cons word rest ih =>
    intro txn acc e hp h
    have hrest : ∀ (txn1 : Txn) (acc1 : List Int), VocabParses txn1.store →
        transferLoop bd canSave txn1 rest acc1 = .error e →
        (∃ w ∈ word :: rest, maxKeySize < byteLen (WordKeyPrefix ++ w) ∧
            e = .keySize (WordKeyPrefix ++ w)) ∨
          ∃ m, e = .badger m ∧ bd.Reports m := by
      intro txn1 acc1 hp1 h1
      rcases ih txn1 acc1 e hp1 h1 with ⟨w, hw, hsz⟩ | hb
      · exact Or.inl ⟨w, List.mem_cons_of_mem _ hw, hsz⟩
      · exact Or.inr hb
    have hwrite : ∀ (t : Txn) (key val : String), byteLen key ≤ maxKeySize →
        t.set bd key val = .error e → ∃ m, e = .badger m ∧ bd.Reports m := by
      intro t key val hsz hs
      rcases Txn.set_error bd t key val e hs with ⟨-, hbig⟩ | ⟨m, hm, hw⟩
      · omega
      · exact ⟨m, hm, Or.inr (Or.inl ⟨_, _, _, hw⟩)⟩
    rw [transferLoop] at h
    cases hg : txn.get bd (WordKeyPrefix ++ word) with
    | error e' =>
      simp only [hg, Except.error.injEq] at h
      obtain ⟨m, hm, hr⟩ := Txn.get_error bd txn _ e' hg
      exact Or.inr ⟨m, by rw [← h, hm], Or.inl ⟨_, hr⟩⟩
    | ok r =>
      obtain ⟨hr, -⟩ := Txn.get_ok bd txn _ r hg
      simp only [hg] at h
      cases r with
      | some idBytes =>
        obtain ⟨id, hid⟩ := Option.isSome_iff_exists.mp (hp.1 word idBytes hr.symm)
        simp only [hid] at h
        exact hrest _ _ hp h
      | none =>
        simp only at h
        cases canSave with
        | false =>
          simp only [Bool.false_eq_true, if_false] at h
          exact hrest _ _ hp h
        | true =>
          simp only [if_true] at h
          cases hm : readMaxId bd txn with
          | error e' =>
            simp only [hm, Except.error.injEq] at h
            subst h
            exact Or.inr (readMaxId_error bd txn e' hp hm)
          | ok m =>
            simp only [hm] at h
            cases h1 : txn.set bd (IdKeyPrefix ++ Itoa (wrap64 (m + 1))) word with
            | error e' =>
              simp only [h1, Except.error.injEq] at h
              subst h
              exact Or.inr (hwrite _ _ _ (byteLen_idKey _) h1)
            | ok txn1 =>
              simp only [h1] at h
              cases h2 : txn1.set bd (WordKeyPrefix ++ word) (Itoa (wrap64 (m + 1))) with
              | error e' =>
                simp only [h2, Except.error.injEq] at h
                subst h
                rcases Txn.set_error bd _ _ _ _ h2 with ⟨he, hbig⟩ | ⟨mm, hmm, hw⟩
                · exact Or.inl ⟨word, List.mem_cons_self _ _, hbig, he⟩
                · exact Or.inr ⟨mm, hmm, Or.inr (Or.inl ⟨_, _, _, hw⟩)⟩
              | ok txn2 =>
                simp only [h2] at h
                cases h3 : txn2.set bd maxIdKey (Itoa (wrap64 (m + 1))) with
                | error e' =>
                  simp only [h3, Except.error.injEq] at h
                  subst h
                  exact Or.inr (hwrite _ _ _ byteLen_maxIdKey h3)
                | ok txn3 =>
                  simp only [h3] at h
                  refine hrest txn3 _ ?_ h
                  rw [(Txn.set_ok bd _ _ _ _ h3).1, (Txn.set_ok bd _ _ _ _ h2).1,
                    (Txn.set_ok bd _ _ _ _ h1).1]
                  exact VocabParses_alloc txn.store word _ (Atoi_Itoa_wrap _) hp

/-- The loop fails with an `Atoi` error only on a store that holds an id that
is no decimal 64-bit integer. -/
theorem transferLoop_atoi (bd : Badger) (canSave : Bool) (words : List String)
    (txn : Txn) (acc : List Int) (s : String)
    (h : transferLoop bd canSave txn words acc = .error (.atoi s)) : ¬ VocabParses txn.store := by
  intro hp
  rcases transferLoop_error bd canSave words txn acc _ hp h with ⟨w, -, -, he⟩ | ⟨m, he, -⟩
  · exact Err.noConfusion he
  · exact Err.noConfusion he

/-! ## C1, C7: the contract of `TransferOrSaveToSequence` -/

theorem transferOrSave_of_loop_ok (bd : Badger) (db : Store) (words : List String)
    (canSave : Bool) (txn' : Txn) (ids : List Int)
    (h : transferLoop bd canSave ⟨db, []⟩ words [] = .ok (txn', ids))
    (hc : bd.commitError txn'.pending = none) :
    TransferOrSaveToSequence bd db words canSave = (txn'.store, .ok ids) := by
  simp only [TransferOrSaveToSequence, Update, h, hc]

theorem transferOrSave_of_commit_error (bd : Badger) (db : Store) (words : List String)
    (canSave : Bool) (txn' : Txn) (ids : List Int) (msg : String)
    (h : transferLoop bd canSave ⟨db, []⟩ words [] = .ok (txn', ids))
    (hc : bd.commitError txn'.pending = some msg) :
    TransferOrSaveToSequence bd db words canSave = (db, .error (.badger msg)) := by
  simp only [TransferOrSaveToSequence, Update, h, hc]

theorem transferOrSave_of_loop_error (bd : Badger) (db : Store) (words : List String)
    (canSave : Bool) (e : Err) (h : transferLoop bd canSave ⟨db, []⟩ words [] = .error e) :
    TransferOrSaveToSequence bd db words canSave = (db, .error e) := by
  simp only [TransferOrSaveToSequence, Update, h]

/-- A call that returns ids ran its loop to the end and committed it. -/
theorem transferOrSave_ok_inv (bd : Badger) (db : Store) (words : List String) (canSave : Bool)
    (db' : Store) (ids : List Int)
    (h : TransferOrSaveToSequence bd db words canSave = (db', .ok ids)) :
    ∃ txn', transferLoop bd canSave ⟨db, []⟩ words [] = .ok (txn', ids) ∧ txn'.store = db' := by
  cases hl : transferLoop bd canSave ⟨db, []⟩ words [] with
  | error e =>
    rw [transferOrSave_of_loop_error bd db words canSave e hl] at h
    simp at h
  | ok r =>
    obtain ⟨txn', out⟩ := r
    cases hc : bd.commitError txn'.pending with
    | some msg =>
      rw [transferOrSave_of_commit_error bd db words canSave txn' out msg hl hc] at h
      simp at h
    | none =>
      rw [transferOrSave_of_loop_ok bd db words canSave txn' out hl hc] at h
      simp only [Prod.mk.injEq, Except.ok.injEq] at h
      exact ⟨txn', by rw [h.2], h.1⟩

theorem quietBadger_reports (msg : String) : ¬ quietBadger.Reports msg := by
  rintro (⟨key, h⟩ | ⟨pending, key, val, h⟩ | ⟨pending, h⟩) <;> exact Option.noConfusion h

theorem VocabParses_empty : VocabParses [] :=
  ⟨fun _ _ h => by simp [Store.get] at h, fun _ h => by simp [Store.get] at h⟩

/-- A call either leaves the store as it was, or returns ids. -/
theorem transferOrSave_cases (bd : Badger) (db : Store) (words : List String) (canSave : Bool) :
    (∃ e, TransferOrSaveToSequence bd db words canSave = (db, .error e)) ∨
      ∃ db' ids, TransferOrSaveToSequence bd db words canSave = (db', .ok ids) := by
  cases hl : transferLoop bd canSave ⟨db, []⟩ words [] with
  | error e => exact Or.inl ⟨e, transferOrSave_of_loop_error bd db words canSave e hl⟩
  | ok r =>
    obtain ⟨txn', out⟩ := r
    cases hc : bd.commitError txn'.pending with
    | some msg =>
      exact Or.inl ⟨_, transferOrSave_of_commit_error bd db words canSave txn' out msg hl hc⟩
    | none =>
      exact Or.inr ⟨_, _, transferOrSave_of_loop_ok bd db words canSave txn' out hl hc⟩

/-- On a store whose ids are well formed, a call that fails was refused by the
engine: the `word:` key of a term of the batch is too long, or the engine
reported the error. -/
theorem transferOrSave_error_cause (bd : Badger) (db : Store) (words : List String)
    (canSave : Bool) (e : Err) (hp : VocabParses db)
    (h : TransferOrSaveToSequence bd db words canSave = (db, .error e)) :
    (∃ w ∈ words, maxKeySize < byteLen (WordKeyPrefix ++ w) ∧
        e = .keySize (WordKeyPrefix ++ w)) ∨
      ∃ msg, e = .badger msg ∧ bd.Reports msg := by
  cases hl : transferLoop bd canSave ⟨db, []⟩ words [] with
  | error e' =>
    rw [transferOrSave_of_loop_error bd db words canSave e' hl] at h
    simp only [Prod.mk.injEq, Except.error.injEq, true_and] at h
    subst h
    exact transferLoop_error bd canSave words ⟨db, []⟩ [] e' hp hl
  | ok r =>
    obtain ⟨txn', out⟩ := r
    cases hc : bd.commitError txn'.pending with
    | some msg =>
      rw [transferOrSave_of_commit_error bd db words canSave txn' out msg hl hc] at h
      simp only [Prod.mk.injEq, Except.error.injEq, true_and] at h
      exact Or.inr ⟨msg, h.symm, Or.inr (Or.inr ⟨_, hc⟩)⟩
    | none =>
      rw [transferOrSave_of_loop_ok bd db words canSave txn' out hl hc] at h
      simp at h

/-- C1 (as stated, refuted): with a stored id that is no decimal integer the
call returns an error and no ids, so it does not return one id per term for
every store state; and with `max_id` at the largest `int` the new id is the
smallest `int`, not `max_id + 1`. -/
theorem transferOrSave_not_total :
    TransferOrSaveToSequence quietBadger [("word:a", "x")] ["a"] false =
        ([("word:a", "x")], .error (.atoi "x")) ∧
      (TransferOrSaveToSequence quietBadger [("max_id", "9223372036854775807")] ["a"] true).2 =
        .ok [-9223372036854775808] := by
  decide

/-- C1 (amended): for every store state, engine and term list the call either
fails and leaves the store as it was, which happens only when a stored `word:`
id or the `max_id` value is no decimal 64-bit integer, when the `word:` key of
a term of the batch is longer than 65000 bytes, or when the engine reports an
error for a read, a write or the commit; or it returns one id per term in input
order, where each term is handled as `InternStep` says: an existing entry gives
its stored id, a missing one gives 0 without `canSave`, and with `canSave` the
successor of the current `max_id` (64-bit sum), stored in both directions
together with the new `max_id`. -/
theorem transferOrSave_contract (bd : Badger) (db : Store) (words : List String)
    (canSave : Bool) :
    (∃ db' ids, TransferOrSaveToSequence bd db words canSave = (db', .ok ids) ∧
        ids.length = words.length ∧ InternRun canSave db words ids db') ∨
      (∃ e, TransferOrSaveToSequence bd db words canSave = (db, .error e) ∧
        (¬ VocabParses db ∨
          (∃ w ∈ words, maxKeySize < byteLen (WordKeyPrefix ++ w) ∧
            e = .keySize (WordKeyPrefix ++ w)) ∨
          ∃ msg, e = .badger msg ∧ bd.Reports msg)) := by
  cases h : transferLoop bd canSave ⟨db, []⟩ words [] with
  | ok r =>
    obtain ⟨txn', ids⟩ := r
    obtain ⟨ids', hids, hrun⟩ := transferLoop_run bd canSave words ⟨db, []⟩ [] txn' ids h
    simp only [List.nil_append] at hids
    subst hids
    cases hc : bd.commitError txn'.pending with
    | none =>
      exact Or.inl ⟨txn'.store, ids,
        transferOrSave_of_loop_ok bd db words canSave txn' ids h hc, hrun.length_eq, hrun⟩
    | some msg =>
      exact Or.inr ⟨_, transferOrSave_of_commit_error bd db words canSave txn' ids msg h hc,
        Or.inr (Or.inr ⟨msg, rfl, Or.inr (Or.inr ⟨_, hc⟩)⟩)⟩
  | error e =>
    refine Or.inr ⟨e, transferOrSave_of_loop_error bd db words canSave e h, ?_⟩
    by_cases hp : VocabParses db
    · exact Or.inr (transferLoop_error bd canSave words ⟨db, []⟩ [] e hp h)
    · exact Or.inl hp

/-- C7: if `TransferOrSaveToSequence` returns an error, the store after the
call is the store before it and no ids are returned, whatever the batch had
already written inside the transaction. -/
theorem transferOrSave_atomic (bd : Badger) (db : Store) (words : List String) (canSave : Bool)
    (e : Err) (h : (TransferOrSaveToSequence bd db words canSave).2 = .error e) :
    TransferOrSaveToSequence bd db words canSave = (db, .error e) := by
  rcases transferOrSave_cases bd db words canSave with ⟨e', he⟩ | ⟨db', ids, hok⟩
  · rw [he] at h ⊢
    simp only [Except.error.injEq] at h
    rw [h]
  · rw [hok] at h
    exact Except.noConfusion h

/-- C7 at a batch whose first term is given a new id inside the transaction
before the second term meets a malformed stored id: the store is unchanged. -/
theorem transferOrSave_atomic_witness :
    (TransferOrSaveToSequence quietBadger [("word:b", "x")] ["a", "b"] true).2 =
        .error (.atoi "x") ∧
      TransferOrSaveToSequence quietBadger [("word:b", "x")] ["a", "b"] true =
        ([("word:b", "x")], .error (.atoi "x")) :=
  ⟨by decide,
    transferOrSave_atomic quietBadger [("word:b", "x")] ["a", "b"] true (.atoi "x") (by decide)⟩

/-! ## Stores reached from the empty store -/

theorem Store.mem_set (s : Store) (k v : String) (kv : String × String)
    (h : kv ∈ s.set k v) : kv ∈ s ∨ kv = (k, v) := by
  induction s with
  | nil => simp [Store.set] at h; exact Or.inr h
  | cons p rest ih =>
    obtain ⟨k', v'⟩ := p
    simp only [Store.set] at h
    split_ifs at h with h1 h2
    · rcases List.mem_cons.mp h with h | h
      · exact Or.inr h
      · exact Or.inl h
    · rcases List.mem_cons.mp h with h | h
      · exact Or.inr h
      · exact Or.inl (List.mem_cons_of_mem _ h)
    · rcases List.mem_cons.mp h with h | h
      · exact Or.inl (h ▸ List.mem_cons_self _ _)
      · rcases ih h with h | h
        · exact Or.inl (List.mem_cons_of_mem _ h)
        · exact Or.inr h

theorem Store.sorted_set (s : Store) (k v : String)
    (h : (s.map Prod.fst).Pairwise (· < ·)) : ((s.set k v).map Prod.fst).Pairwise (· < ·) := by
  induction s with
  | nil => simp [Store.set]
  | cons p rest ih =>
    obtain ⟨k', v'⟩ := p
    simp only [List.map_cons, List.pairwise_cons] at h
    obtain ⟨hhead, htail⟩ := h
    simp only [Store.set]
    split_ifs with h1 h2
    · have hlt : k < k' := String.lt_iff_toList_lt.mpr h1
      simp only [List.map_cons, List.pairwise_cons]
      refine ⟨?_, hhead, htail⟩
      intro a ha
      rcases List.mem_cons.mp ha with ha | ha
      · exact ha ▸ hlt
      · exact lt_trans hlt (hhead a ha)
    · subst h2
      simp only [List.map_cons, List.pairwise_cons]
      exact ⟨hhead, htail⟩
    · have hlt : k' < k := by
        rcases lt_trichotomy k k' with h | h | h
        · exact absurd (String.lt_iff_toList_lt.mp h) h1
        · exact absurd h h2
        · exact h
      simp only [List.map_cons, List.pairwise_cons]
      refine ⟨?_, ih htail⟩
      intro a ha
      obtain ⟨kv, hkv, rfl⟩ := List.mem_map.mp ha
      rcases Store.mem_set rest k v kv hkv with hm | hm
      · exact hhead _ (List.mem_map.mpr ⟨kv, hm, rfl⟩)
      · rw [hm]; exact hlt

theorem Store.get_of_mem (s : Store) (h : (s.map Prod.fst).Pairwise (· < ·))
    (k v : String) (hm : (k, v) ∈ s) : s.get k = some v := by
  induction s with
  | nil => simp at hm
  | cons p rest ih =>
    obtain ⟨k', v'⟩ := p
    simp only [List.map_cons, List.pairwise_cons] at h
    rcases List.mem_cons.mp hm with hm | hm
    · simp only [Prod.mk.injEq] at hm
      obtain ⟨rfl, rfl⟩ := hm
      simp [Store.get]
    · have hlt : k' < k := h.1 k (List.mem_map.mpr ⟨(k, v), hm, rfl⟩)
      simp only [Store.get, if_neg (ne_of_lt hlt)]
      exact ih h.2 hm

theorem Store.mem_of_get (s : Store) (k v : String) (h : s.get k = some v) : (k, v) ∈ s := by
  induction s with
  | nil => simp [Store.get] at h
  | cons p rest ih =>
    obtain ⟨k', v'⟩ := p
    simp only [Store.get] at h
    split_ifs at h with h1
    · simp only [Option.some.injEq] at h
      subst h1; subst h
      exact List.mem_cons_self _ _
    · exact List.mem_cons_of_mem _ (ih h)

theorem Itoa_injective (a b : Int) (ha1 : -2 ^ 63 ≤ a) (ha2 : a < 2 ^ 63)
    (hb1 : -2 ^ 63 ≤ b) (hb2 : b < 2 ^ 63) (h : Itoa a = Itoa b) : a = b := by
  have h1 := Atoi_Itoa a ha1 ha2
  have h2 := Atoi_Itoa b hb1 hb2
  rw [h, h2] at h1
  exact (Option.some.inj h1).symm

theorem Rep.empty : Rep [] [] where
  nodup := List.nodup_nil
  bound := by simp
  sorted := by simp
  word := by intro w; simp [Store.get]
  ident := by intro i h; simp at h
  maxId := by simp [Store.get]
  shape := by intro kv h; simp at h


theorem Rep.readMaxId {vs : List String} {bd : Badger} {txn : Txn} (h : Rep vs txn.store)
    (m : Int) (hm : readMaxId bd txn = .ok m) : m = (vs.length : Int) := by
  have hok := readMaxId_ok bd txn m hm
  rw [h.maxId] at hok
  by_cases hvs : vs = []
  · simp only [hvs, if_true] at hok
    simp [hvs, hok]
  · have hb := h.bound
    have := Atoi_Itoa (vs.length : Int) (by omega) (by exact_mod_cast hb)
    simp only [hvs, if_false, this, Option.some.injEq] at hok
    exact hok.symm

theorem Rep.word_of_mem {vs : List String} {txn : Store} (h : Rep vs txn) (w : String)
    (hw : w ∈ vs) :
    txn.get (WordKeyPrefix ++ w) = some (Itoa ((vs.indexOf w : Int) + 1)) ∧
      Atoi (Itoa ((vs.indexOf w : Int) + 1)) = some ((vs.indexOf w : Int) + 1) := by
  have hlt : vs.indexOf w < vs.length := List.indexOf_lt_length.mpr hw
  have hb := h.bound
  refine ⟨by rw [h.word w, if_pos hw], Atoi_Itoa _ (by omega) (by omega)⟩

theorem Rep.parses {vs : List String} {db : Store} (h : Rep vs db) : VocabParses db := by
  have hb := h.bound
  constructor
  · intro w v hv
    rw [h.word w] at hv
    by_cases hw : w ∈ vs
    · rw [if_pos hw] at hv
      simp only [Option.some.injEq] at hv
      subst hv
      rw [(h.word_of_mem w hw).2]
      rfl
    · rw [if_neg hw] at hv
      exact Option.noConfusion hv
  · intro v hv
    rw [h.maxId] at hv
    by_cases hvs : vs = []
    · rw [if_pos hvs] at hv
      exact Option.noConfusion hv
    · rw [if_neg hvs] at hv
      simp only [Option.some.injEq] at hv
      subst hv
      rw [Atoi_Itoa (vs.length : Int) (by omega) (by exact_mod_cast hb)]
      rfl

theorem Rep.alloc {vs : List String} {txn : Store} (h : Rep vs txn) (w : String)
    (hw : w ∉ vs) (hb : vs.length + 1 < 2 ^ 63) :
    Rep (vs ++ [w])
      (((txn.set (IdKeyPrefix ++ Itoa ((vs.length : Int) + 1)) w).set (WordKeyPrefix ++ w)
        (Itoa ((vs.length : Int) + 1))).set maxIdKey (Itoa ((vs.length : Int) + 1))) where
  nodup := by
    rw [List.nodup_append]
    refine ⟨h.nodup, List.nodup_singleton w, ?_⟩
    intro a ha hb
    simp only [List.mem_singleton] at hb
    exact hw (hb ▸ ha)
  bound := by simpa using hb
  sorted := Store.sorted_set _ _ _ (Store.sorted_set _ _ _ (Store.sorted_set _ _ _ h.sorted))
  word := by
    intro w'
    rw [Store.get_set_of_ne _ _ _ _ (Ne.symm (word_ne_max _))]
    by_cases hww : w' = w
    · subst hww
      rw [Store.get_set_self, List.indexOf_append_of_not_mem hw]
      simp
    · have hne : WordKeyPrefix ++ w ≠ WordKeyPrefix ++ w' :=
        fun hk => hww (key_append_cancel _ _ _ hk).symm
      rw [Store.get_set_of_ne _ _ _ _ hne,
        Store.get_set_of_ne _ _ _ _ (Ne.symm (word_ne_id _ _)), h.word w']
      by_cases hmem : w' ∈ vs
      · simp [hmem, List.indexOf_append_of_mem hmem]
      · simp [hmem, hww]
  ident := by
    intro i hi
    rw [Store.get_set_of_ne _ _ _ _ (Ne.symm (id_ne_max _)),
      Store.get_set_of_ne _ _ _ _ (word_ne_id _ _)]
    simp only [List.length_append, List.length_singleton] at hi
    by_cases hil : i = vs.length
    · subst hil
      rw [Store.get_set_self]
      simp
    · have hlt : i < vs.length := by omega
      have hne : IdKeyPrefix ++ Itoa ((vs.length : Int) + 1) ≠
          IdKeyPrefix ++ Itoa ((i : Int) + 1) := by
        intro hk
        have := Itoa_injective _ _ (by omega) (by exact_mod_cast hb) (by omega)
          (by have := h.bound; omega) (key_append_cancel _ _ _ hk)
        omega
      rw [Store.get_set_of_ne _ _ _ _ hne, h.ident i hlt, List.getElem_append_left hlt]
  maxId := by
    rw [Store.get_set_self]
    simp
  shape := by
    intro kv hkv
    rcases Store.mem_set _ _ _ _ hkv with hkv | hkv
    · rcases Store.mem_set _ _ _ _ hkv with hkv | hkv
      · rcases Store.mem_set _ _ _ _ hkv with hkv | hkv
        · rcases h.shape kv hkv with h1 | h1 | ⟨i, hi, h1⟩
          · exact Or.inl h1
          · exact Or.inr (Or.inl h1)
          · exact Or.inr (Or.inr ⟨i, by simp; omega, h1⟩)
        · exact Or.inr (Or.inr ⟨vs.length, by simp, by rw [hkv]⟩)
      · exact Or.inr (Or.inl ⟨w, by rw [hkv]⟩)
    · exact Or.inl (by rw [hkv])

theorem Rep.loop (bd : Badger) (canSave : Bool) (words : List String) :
    ∀ (vs : List String) (txn : Txn) (acc : List Int) (txn' : Txn) (out : List Int),
      Rep vs txn.store → (canSave = true → vs.length + words.length < 2 ^ 63) →
      transferLoop bd canSave txn words acc = .ok (txn', out) →
      ∃ (ext : List String) (ids : List Int),
        out = acc ++ ids ∧
        Rep (vs ++ ext) txn'.store ∧ (∀ t ∈ ext, t ∈ words) ∧ ext.length ≤ words.length ∧
        (∀ n ∈ ids, n ≤ ((vs ++ ext).length : Int)) ∧
        (canSave = true →
          ids = words.map (fun w => ((vs ++ ext).indexOf w : Int) + 1) ∧
            ∀ w ∈ words, w ∈ vs ++ ext) ∧
        (canSave = false → ext = []) := by
  induction words with
  | nil =>
    intro vs txn acc txn' out h _ hl
    simp only [transferLoop, Except.ok.injEq, Prod.mk.injEq] at hl
    obtain ⟨rfl, rfl⟩ := hl
    exact ⟨[], [], by simp, by simpa using h, by simp, by simp, by simp, by simp, by simp⟩
  | cons w rest ih =>
    intro vs txn acc txn' out h hb hl
    simp only [List.length_cons] at hb
    rcases transferLoop_cons_ok bd canSave txn w rest acc txn' out hl with
      ⟨v, id, hg, ha, hl⟩ | ⟨hg, hc, hl⟩ | ⟨hg, hc, m, txn3, hm, -, hst, hl⟩
    · have hw : w ∈ vs := by
        by_contra hw
        rw [h.word w, if_neg hw] at hg
        exact Option.noConfusion hg
      obtain ⟨hg', ha'⟩ := h.word_of_mem w hw
      rw [hg'] at hg
      simp only [Option.some.injEq] at hg
      subst hg
      rw [ha'] at ha
      simp only [Option.some.injEq] at ha
      subst ha
      obtain ⟨ext, ids, hout, hrep, hext, hlen, hids, hsave, hno⟩ :=
        ih vs txn _ txn' out h (fun hc => by have := hb hc; omega) hl
      have hlt : vs.indexOf w < vs.length := List.indexOf_lt_length.mpr hw
      refine ⟨ext, ((vs.indexOf w : Int) + 1) :: ids, by simp [hout], hrep, ?_, ?_, ?_, ?_, hno⟩
      · intro t ht; exact List.mem_cons_of_mem _ (hext t ht)
      · simp only [List.length_cons]; omega
      · intro n hn
        rcases List.mem_cons.mp hn with hn | hn
        · subst hn
          simp only [List.length_append]
          push_cast
          omega
        · exact hids n hn
      · intro hc
        obtain ⟨h1, h2⟩ := hsave hc
        refine ⟨?_, ?_⟩
        · simp only [List.map_cons, List.indexOf_append_of_mem hw]
          rw [← h1]
        · intro x hx
          rcases List.mem_cons.mp hx with hx | hx
          · subst hx; exact List.mem_append_left _ hw
          · exact h2 x hx
    · subst hc
      obtain ⟨ext, ids, hout, hrep, hext, hlen, hids, hsave, hno⟩ :=
        ih vs txn _ txn' out h (fun hc => absurd hc (by decide)) hl
      refine ⟨ext, 0 :: ids, by simp [hout], hrep, ?_, ?_, ?_, ?_, hno⟩
      · intro t ht; exact List.mem_cons_of_mem _ (hext t ht)
      · simp only [List.length_cons]; omega
      · intro n hn
        rcases List.mem_cons.mp hn with hn | hn
        · subst hn; exact Int.natCast_nonneg _
        · exact hids n hn
      · intro hc; exact absurd hc (by decide)
    · subst hc
      have hw : w ∉ vs := by
        intro hw
        rw [(h.word_of_mem w hw).1] at hg
        exact Option.noConfusion hg
      have hb := hb rfl
      have hmv := h.readMaxId m hm
      subst hmv
      have hwrap : wrap64 ((vs.length : Int) + 1) = (vs.length : Int) + 1 :=
        wrap64_of_range _ (by omega) (by omega)
      rw [hwrap] at hst hl
      have hrep1 : Rep (vs ++ [w]) txn3.store := by
        rw [hst]
        exact h.alloc w hw (by omega)
      obtain ⟨ext, ids, hout, hrep, hext, hlen, hids, hsave, hno⟩ :=
        ih (vs ++ [w]) txn3 _ txn' out hrep1
          (fun _ => by simp only [List.length_append, List.length_singleton]; omega) hl
      have happ : (vs ++ [w]) ++ ext = vs ++ w :: ext := by simp
      rw [happ] at hrep hids hsave
      refine ⟨w :: ext, ((vs.length : Int) + 1) :: ids, by simp [hout], hrep, ?_, ?_, ?_, ?_, ?_⟩
      · intro t ht
        rcases List.mem_cons.mp ht with ht | ht
        · subst ht; exact List.mem_cons_self _ _
        · exact List.mem_cons_of_mem _ (hext t ht)
      · simp only [List.length_cons]; omega
      · intro n hn
        rcases List.mem_cons.mp hn with hn | hn
        · subst hn
          simp only [List.length_append, List.length_cons]
          push_cast
          omega
        · exact hids n hn
      · intro _
        obtain ⟨h1, h2⟩ := hsave rfl
        refine ⟨?_, ?_⟩
        · simp only [List.map_cons, List.indexOf_append_of_not_mem hw, List.indexOf_cons_self]
          rw [← h1]
          simp
        · intro x hx
          rcases List.mem_cons.mp hx with hx | hx
          · subst hx; simp
          · exact h2 x hx
      · intro hc; exact absurd hc (by decide)

theorem Reaches.rep {bd : Badger} {k : Nat} {db : Store} (h : Reaches bd k db) :
    k < 2 ^ 63 → ∃ vs, Rep vs db ∧ vs.length ≤ k := by
  induction h with
  | empty => intro _; exact ⟨[], Rep.empty, le_refl _⟩
  | @call k db words canSave _ ih =>
    intro hk
    obtain ⟨vs, hrep, hlen⟩ := ih (by omega)
    rcases transferOrSave_cases bd db words canSave with ⟨e, he⟩ | ⟨db', ids, hok⟩
    · rw [he]
      exact ⟨vs, hrep, by omega⟩
    · obtain ⟨txn', hloop, hst⟩ := transferOrSave_ok_inv bd db words canSave db' ids hok
      obtain ⟨ext, ids', -, hrep', -, hext, -, -, hno⟩ :=
        Rep.loop bd canSave words vs ⟨db, []⟩ [] txn' ids hrep
          (fun hc => by simp only [hc, if_true] at hk; omega) hloop
      rw [hok]
      subst hst
      refine ⟨vs ++ ext, hrep', ?_⟩
      cases canSave with
      | false => simp [hno rfl]; exact hlen
      | true => simp only [List.length_append, if_true]; omega

theorem Rep.assigned_iff {vs : List String} {db : Store} (h : Rep vs db) (t : String) (n : Int) :
    Assigned db t n ↔ t ∈ vs ∧ n = (vs.indexOf t : Int) + 1 := by
  constructor
  · rintro ⟨v, hv, ha⟩
    rw [h.word t] at hv
    by_cases ht : t ∈ vs
    · rw [if_pos ht] at hv
      simp only [Option.some.injEq] at hv
      subst hv
      rw [(h.word_of_mem t ht).2] at ha
      exact ⟨ht, (Option.some.inj ha).symm⟩
    · rw [if_neg ht] at hv
      exact Option.noConfusion hv
  · rintro ⟨ht, rfl⟩
    exact ⟨_, (h.word_of_mem t ht).1, (h.word_of_mem t ht).2⟩

theorem Rep.sequenceLoop {vs : List String} {db : Store} (h : Rep vs db) (bd : Badger)
    (ws : List String) :
    ∀ acc : List String, (∀ w ∈ ws, w ∈ vs) →
      (∀ n ∈ ws.map (fun w => ((vs.indexOf w : Int) + 1)),
        bd.readError (IdKeyPrefix ++ Itoa n) = none) →
      sequenceLoop bd ⟨db, []⟩ (ws.map fun w => ((vs.indexOf w : Int) + 1)) acc =
        .ok (acc ++ ws) := by
  induction ws with
  | nil => intro acc _ _; simp [Saturday.sequenceLoop]
  | cons w rest ih =>
    intro acc hmem hread
    have hw : w ∈ vs := hmem w (List.mem_cons_self _ _)
    have hlt : vs.indexOf w < vs.length := List.indexOf_lt_length.mpr hw
    have hid := h.ident (vs.indexOf w) hlt
    rw [List.getElem_indexOf hlt] at hid
    have hr := hread _ (List.mem_cons_self _ _)
    simp only [List.map_cons, Saturday.sequenceLoop, Txn.get_of_quiet bd _ _ hr, hid]
    rw [ih (acc ++ [w]) (fun x hx => hmem x (List.mem_cons_of_mem _ hx))
      (fun n hn => hread n (List.mem_cons_of_mem _ hn))]
    simp

/-- What a call that may create ids and returns ids leaves behind, on a store
that represents a vocabulary: every term of the batch is assigned the id
returned for it, and the assignments made before are kept. -/
theorem Rep.call {vs : List String} {db : Store} (h : Rep vs db) (bd : Badger)
    (ts : List String) (db' : Store) (ids : List Int) (hb : vs.length + ts.length < 2 ^ 63)
    (hok : TransferOrSaveToSequence bd db ts true = (db', .ok ids)) :
    ∃ ext, Rep (vs ++ ext) db' ∧ (∀ t ∈ ext, t ∈ ts) ∧
      ids = ts.map (fun w => ((vs ++ ext).indexOf w : Int) + 1) ∧ (∀ w ∈ ts, w ∈ vs ++ ext) ∧
      List.Forall₂ (Assigned db') ts ids ∧ ∀ t n, Assigned db t n → Assigned db' t n := by
  obtain ⟨txn', hloop, hst⟩ := transferOrSave_ok_inv bd db ts true db' ids hok
  obtain ⟨ext, ids', hout, hrep', hext, -, -, hsave, -⟩ :=
    Rep.loop bd true ts vs ⟨db, []⟩ [] txn' ids h (fun _ => hb) hloop
  subst hst
  simp only [List.nil_append] at hout
  subst hout
  obtain ⟨hids, hmem⟩ := hsave rfl
  refine ⟨ext, hrep', hext, hids, hmem, ?_, ?_⟩
  · rw [hids, List.forall₂_map_right_iff, List.forall₂_same]
    intro t ht
    exact (hrep'.assigned_iff t _).mpr ⟨hmem t ht, rfl⟩
  · intro t n ha
    obtain ⟨ht, hn⟩ := (h.assigned_iff t n).mp ha
    exact (hrep'.assigned_iff t n).mpr
      ⟨List.mem_append_left _ ht, by rw [List.indexOf_append_of_mem ht]; exact hn⟩

theorem byteLen_word_replicate (n : Nat) :
    byteLen (WordKeyPrefix ++ String.mk (List.replicate n 'a')) = 5 + n := by
  have h1 : Char.utf8Size 'a' = 1 := by decide
  have h2 : (List.map Char.utf8Size WordKeyPrefix.data).sum = 5 := by decide
  unfold byteLen
  rw [String.data_append, List.map_append, List.sum_append, List.map_replicate,
    List.sum_replicate, h1, h2]
  simp only [smul_eq_mul, mul_one]

theorem byteLen_long_term :
    maxKeySize < byteLen (WordKeyPrefix ++ String.mk (List.replicate 70000 'a')) := by
  rw [byteLen_word_replicate]
  decide

/-- C2 (as stated, refuted): on the empty store, interning the single term made
of 70000 letters `a` returns no ids: its key `word:<term>` is longer than the
65000 bytes badger accepts, `txn.Set` fails and the call returns that error, so
there is nothing for `SequenceToWords` to map back. -/
theorem vocabulary_roundtrip_key_size :
    TransferOrSaveToSequence quietBadger [] [String.mk (List.replicate 70000 'a')] true =
      ([], .error (.keySize (WordKeyPrefix ++ String.mk (List.replicate 70000 'a')))) := by
  cases hl : transferLoop quietBadger true ⟨[], []⟩ [String.mk (List.replicate 70000 'a')] [] with
  | ok r =>
    exfalso
    have hbig := byteLen_long_term
    rcases transferLoop_cons_ok quietBadger true ⟨[], []⟩ _ [] [] r.1 r.2 hl with
      ⟨v, id, hg, -, -⟩ | ⟨-, hc, -⟩ | ⟨-, -, m, txn3, -, hsz, -, -⟩
    · simp [Store.get] at hg
    · exact absurd hc (by decide)
    · omega
  | error e =>
    rw [transferOrSave_of_loop_error quietBadger [] _ true e hl]
    rcases transferLoop_error quietBadger true _ ⟨[], []⟩ [] e VocabParses_empty hl with
      ⟨w, hw, -, he⟩ | ⟨m, -, hrep⟩
    · simp only [List.mem_singleton] at hw
      subst hw
      rw [he]
    · exact absurd hrep (quietBadger_reports m)

/-- C2 (amended): on a store reached from the empty store by any calls,
interning a list `ts` with `canSave` either is refused by the engine (the key
`word:<term>` of a term of `ts` is longer than 65000 bytes, or the engine
reports an error for a read, a write or the commit), and then the call returns
that error and leaves the store as it was; or it returns ids that
`SequenceToWords` maps back to `ts` (repeated terms included) when the reads
report no error, every term of `ts` is assigned in the resulting store the id
returned for it, the assignments made before the call are kept, and no two
different terms of the resulting store share an id. The bound on the number of
terms passed to creating calls states that the ids fit Go's 64-bit `int`. -/
theorem vocabulary_bijection (bd : Badger) (k : Nat) (db : Store) (ts : List String)
    (hr : Reaches bd k db) (hk : k + ts.length < 2 ^ 63) :
    (∃ e, TransferOrSaveToSequence bd db ts true = (db, .error e) ∧
        ((∃ t ∈ ts, maxKeySize < byteLen (WordKeyPrefix ++ t) ∧
            e = .keySize (WordKeyPrefix ++ t)) ∨
          ∃ msg, e = .badger msg ∧ bd.Reports msg)) ∨
      ∃ db' ids, TransferOrSaveToSequence bd db ts true = (db', .ok ids) ∧
        ((∀ n ∈ ids, bd.readError (IdKeyPrefix ++ Itoa n) = none) →
          SequenceToWords bd db' ids = .ok ts) ∧
        List.Forall₂ (Assigned db') ts ids ∧
        (∀ t n, Assigned db t n → Assigned db' t n) ∧
        ∀ t1 t2 n, Assigned db' t1 n → Assigned db' t2 n → t1 = t2 := by
  obtain ⟨vs, hrep, hlen⟩ := hr.rep (by omega)
  rcases transferOrSave_cases bd db ts true with ⟨e, he⟩ | ⟨db', ids, hok⟩
  · exact Or.inl ⟨e, he, transferOrSave_error_cause bd db ts true e hrep.parses he⟩
  · obtain ⟨ext, hrep', -, hids, hmem, hall, hkeep⟩ := hrep.call bd ts db' ids (by omega) hok
    refine Or.inr ⟨db', ids, hok, fun hread => ?_, hall, hkeep, ?_⟩
    · rw [hids] at hread ⊢
      simpa [SequenceToWords, View] using hrep'.sequenceLoop bd ts [] hmem hread
    · intro t1 t2 n h1 h2
      obtain ⟨hm1, hn1⟩ := (hrep'.assigned_iff t1 n).mp h1
      obtain ⟨hm2, hn2⟩ := (hrep'.assigned_iff t2 n).mp h2
      have hidx : (vs ++ ext).indexOf t1 = (vs ++ ext).indexOf t2 := by omega
      have e1 := List.getElem_indexOf (List.indexOf_lt_length.mpr hm1)
      have e2 := List.getElem_indexOf (List.indexOf_lt_length.mpr hm2)
      rw [← e1, ← e2]
      simp only [hidx]

/-- C2 (amended) at the store left by interning `a, b`: interning `b, c, b`
returns the ids 2, 3, 2, which `SequenceToWords` maps back to `b, c, b`. -/
theorem vocabulary_bijection_witness :
    Reaches quietBadger (0 + if true then ["a", "b"].length else 0)
        (TransferOrSaveToSequence quietBadger [] ["a", "b"] true).1 ∧
      (0 + if true then ["a", "b"].length else 0) + ["b", "c", "b"].length < 2 ^ 63 ∧
      (TransferOrSaveToSequence quietBadger
          (TransferOrSaveToSequence quietBadger [] ["a", "b"] true).1
          ["b", "c", "b"] true).2 = .ok [2, 3, 2] ∧
      ((∃ e, TransferOrSaveToSequence quietBadger
            (TransferOrSaveToSequence quietBadger [] ["a", "b"] true).1 ["b", "c", "b"] true =
            ((TransferOrSaveToSequence quietBadger [] ["a", "b"] true).1, .error e) ∧
          ((∃ t ∈ ["b", "c", "b"], maxKeySize < byteLen (WordKeyPrefix ++ t) ∧
              e = .keySize (WordKeyPrefix ++ t)) ∨
            ∃ msg, e = .badger msg ∧ quietBadger.Reports msg)) ∨
        ∃ db' ids,
          TransferOrSaveToSequence quietBadger
            (TransferOrSaveToSequence quietBadger [] ["a", "b"] true).1
            ["b", "c", "b"] true = (db', .ok ids) ∧
          ((∀ n ∈ ids, quietBadger.readError (IdKeyPrefix ++ Itoa n) = none) →
            SequenceToWords quietBadger db' ids = .ok ["b", "c", "b"]) ∧
          List.Forall₂ (Assigned db') ["b", "c", "b"] ids ∧
          (∀ t n, Assigned (TransferOrSaveToSequence quietBadger [] ["a", "b"] true).1 t n →
            Assigned db' t n) ∧
          ∀ t1 t2 n, Assigned db' t1 n → Assigned db' t2 n → t1 = t2) :=
  ⟨Reaches.call ["a", "b"] true Reaches.empty, by norm_num, by decide,
    vocabulary_bijection quietBadger (0 + if true then ["a", "b"].length else 0) _
      ["b", "c", "b"] (Reaches.call ["a", "b"] true Reaches.empty) (by norm_num)⟩

theorem transferLoop_append (bd : Badger) (canSave : Bool) (a b : List String) :
    ∀ (txn : Txn) (acc : List Int),
      transferLoop bd canSave txn (a ++ b) acc =
        match transferLoop bd canSave txn a acc with
        | .ok r => transferLoop bd canSave r.1 b r.2
        | .error e => .error e := by
  induction a with
  | nil => intro txn acc; simp [transferLoop]
  | cons w rest ih =>
    intro txn acc
    simp only [List.cons_append, transferLoop]
    repeat' (first | rfl | exact ih _ _ | split)

theorem idPrefix_of_id (x : String) :
    IdKeyPrefix.data.isPrefixOf (IdKeyPrefix ++ x).data = true := by
  rw [List.isPrefixOf_iff_prefix, String.data_append]
  exact List.prefix_append _ _

theorem idPrefix_of_word (w : String) :
    IdKeyPrefix.data.isPrefixOf (WordKeyPrefix ++ w).data = false := by
  simp [String.data_append, IdKeyPrefix, WordKeyPrefix, List.isPrefixOf]

theorem trim_id (x : String) :
    String.mk ((IdKeyPrefix ++ x).data.drop IdKeyPrefix.length) = x := by
  have : IdKeyPrefix.length = IdKeyPrefix.data.length := rfl
  rw [String.data_append, this, List.drop_left]

theorem vocabLoop_ok (bd : Badger) (hread : ∀ key, bd.readError key = none)
    (es : List (String × String)) :
    ∀ acc : Vocab,
      (∀ kv ∈ es, ∃ n : Int, -2 ^ 63 ≤ n ∧ n < 2 ^ 63 ∧ kv.1 = IdKeyPrefix ++ Itoa n) →
      ∃ vocab, vocabLoop bd es acc = .ok vocab ∧
        ∀ n t, (n, t) ∈ vocab ↔
          (n, t) ∈ acc ∨ (-2 ^ 63 ≤ n ∧ n < 2 ^ 63 ∧ (IdKeyPrefix ++ Itoa n, t) ∈ es) := by
  induction es with
  | nil => intro acc _; exact ⟨acc, rfl, by simp⟩
  | cons e rest ih =>
    intro acc hes
    obtain ⟨key, word⟩ := e
    obtain ⟨m, hm1, hm2, hkey⟩ := hes (key, word) (List.mem_cons_self _ _)
    simp only at hkey
    subst hkey
    obtain ⟨vocab, hv, hiff⟩ := ih ((m, word) :: acc)
      fun kv hkv => hes kv (List.mem_cons_of_mem _ hkv)
    refine ⟨vocab, ?_, ?_⟩
    · simp only [vocabLoop, hread, trim_id, Atoi_Itoa m hm1 hm2]
      exact hv
    · intro n t
      rw [hiff n t]
      constructor
      · rintro (h | h)
        · rcases List.mem_cons.mp h with h | h
          · simp only [Prod.mk.injEq] at h
            obtain ⟨rfl, rfl⟩ := h
            exact Or.inr ⟨hm1, hm2, List.mem_cons_self _ _⟩
          · exact Or.inl h
        · exact Or.inr ⟨h.1, h.2.1, List.mem_cons_of_mem _ h.2.2⟩
      · rintro (h | ⟨h1, h2, h⟩)
        · exact Or.inl (List.mem_cons_of_mem _ h)
        · rcases List.mem_cons.mp h with h | h
          · simp only [Prod.mk.injEq] at h
            obtain ⟨hk, rfl⟩ := h
            have := Itoa_injective _ _ h1 h2 hm1 hm2 (key_append_cancel _ _ _ hk)
            subst this
            exact Or.inl (List.mem_cons_self _ _)
          · exact Or.inr ⟨h1, h2, h⟩

theorem vocabGet_eq_some_iff (vocab : Vocab)
    (hf : ∀ n t1 t2, (n, t1) ∈ vocab → (n, t2) ∈ vocab → t1 = t2) (n : Int) (t : String) :
    vocabGet vocab n = some t ↔ (n, t) ∈ vocab := by
  induction vocab with
  | nil => simp [vocabGet]
  | cons p rest ih =>
    obtain ⟨k, w⟩ := p
    simp only [vocabGet]
    split_ifs with hk
    · subst hk
      constructor
      · intro h
        simp only [Option.some.injEq] at h
        subst h
        exact List.mem_cons_self _ _
      · intro h
        rw [hf k w t (List.mem_cons_self _ _) h]
    · rw [ih fun n t1 t2 h1 h2 => hf n t1 t2 (List.mem_cons_of_mem _ h1) (List.mem_cons_of_mem _ h2)]
      constructor
      · exact fun h => List.mem_cons_of_mem _ h
      · intro h
        rcases List.mem_cons.mp h with h | h
        · simp only [Prod.mk.injEq] at h
          exact absurd h.1.symm hk
        · exact h

theorem Rep.ident_iff {vs : List String} {db : Store} (h : Rep vs db) (n : Int) (t : String)
    (h1 : -2 ^ 63 ≤ n) (h2 : n < 2 ^ 63) :
    db.get (IdKeyPrefix ++ Itoa n) = some t ↔ Assigned db t n := by
  have hb := h.bound
  constructor
  · intro hg
    rcases h.shape _ (Store.mem_of_get db _ _ hg) with hk | ⟨w, hk⟩ | ⟨i, hi, hk⟩
    · exact absurd hk (id_ne_max _)
    · exact absurd hk.symm (word_ne_id _ _)
    · simp only at hk
      have hn := Itoa_injective _ _ h1 h2 (by omega) (by omega) (key_append_cancel _ _ _ hk)
      subst hn
      rw [h.ident i hi] at hg
      simp only [Option.some.injEq] at hg
      subst hg
      rw [h.assigned_iff]
      exact ⟨List.getElem_mem _, by rw [List.indexOf_getElem h.nodup]⟩
  · intro ha
    obtain ⟨ht, rfl⟩ := (h.assigned_iff t n).mp ha
    have hlt : vs.indexOf t < vs.length := List.indexOf_lt_length.mpr ht
    rw [h.ident _ hlt, List.getElem_indexOf hlt]

theorem Rep.currentVocab {vs : List String} {db : Store} (h : Rep vs db) (bd : Badger)
    (hread : ∀ key, bd.readError key = none) :
    ∃ vocab, GetCurrentVocab bd db = .ok vocab ∧
      ∀ n t, vocabGet vocab n = some t ↔ Assigned db t n := by
  have hb := h.bound
  have hes : ∀ kv ∈ db.filter (fun kv => IdKeyPrefix.data.isPrefixOf kv.1.data),
      ∃ n : Int, -2 ^ 63 ≤ n ∧ n < 2 ^ 63 ∧ kv.1 = IdKeyPrefix ++ Itoa n := by
    intro kv hkv
    obtain ⟨hmem, hpre⟩ := List.mem_filter.mp hkv
    rcases h.shape kv hmem with hk | ⟨w, hk⟩ | ⟨i, hi, hk⟩
    · rw [hk] at hpre
      exact absurd hpre (by decide)
    · rw [hk, idPrefix_of_word] at hpre
      exact absurd hpre (by decide)
    · exact ⟨(i : Int) + 1, by omega, by omega, hk⟩
  obtain ⟨vocab, hv, hiff⟩ := vocabLoop_ok bd hread _ [] hes
  have hmem : ∀ n t, (n, t) ∈ vocab ↔ Assigned db t n := by
    intro n t
    rw [hiff n t]
    constructor
    · rintro (hx | ⟨h1, h2, hx⟩)
      · simp at hx
      · rw [← h.ident_iff n t h1 h2]
        exact Store.get_of_mem db h.sorted _ _ (List.mem_filter.mp hx).1
    · intro ha
      obtain ⟨v, -, hr⟩ := id ha
      have hrange := Atoi_range _ _ hr
      have hg := (h.ident_iff n t hrange.1 hrange.2).mpr ha
      exact Or.inr ⟨hrange.1, hrange.2,
        List.mem_filter.mpr ⟨Store.mem_of_get db _ _ hg, idPrefix_of_id _⟩⟩
  refine ⟨vocab, by simpa [GetCurrentVocab, View] using hv, fun n t => ?_⟩
  rw [vocabGet_eq_some_iff vocab ?_ n t, hmem]
  intro n t1 t2 h1 h2
  obtain ⟨v, -, hr⟩ := (hmem n t1).mp h1
  have hrange := Atoi_range _ _ hr
  have g1 := (h.ident_iff n t1 hrange.1 hrange.2).mpr ((hmem n t1).mp h1)
  have g2 := (h.ident_iff n t2 hrange.1 hrange.2).mpr ((hmem n t2).mp h2)
  rw [g1] at g2
  exact Option.some.inj g2

theorem Rep.lastId {vs : List String} {db : Store} (h : Rep vs db) (bd : Badger)
    (hread : ∀ key, bd.readError key = none) :
    GetLastId bd db = .ok (vs.length : Int) := by
  have hb := h.bound
  simp only [GetLastId, View, Txn.get_of_quiet bd _ _ (hread _), h.maxId]
  by_cases hvs : vs = []
  · simp [hvs]
  · have := Atoi_Itoa (vs.length : Int) (by omega) (by exact_mod_cast hb)
    simp [hvs, this]

/-- A term that is new to the store and to the part of the batch before it
gets, in a call that returns ids, an id above the ids the store held and above
the ids returned before it in the batch; the store then holds it. -/
theorem Rep.fresh_term {vs : List String} {db : Store} (h : Rep vs db) (bd : Badger)
    (pre post : List String) (t : String) (db' : Store) (ids : List Int)
    (hb : vs.length + (pre ++ t :: post).length < 2 ^ 63) (ht : t ∉ vs) (hpre : t ∉ pre)
    (hok : TransferOrSaveToSequence bd db (pre ++ t :: post) true = (db', .ok ids)) :
    ∃ idsPre n idsPost, ids = idsPre ++ n :: idsPost ∧
      idsPre.length = pre.length ∧ (∀ j ∈ idsPre, j < n) ∧ (vs.length : Int) < n ∧
      Assigned db' t n := by
  simp only [List.length_append, List.length_cons] at hb
  obtain ⟨txn', hloop, hst⟩ := transferOrSave_ok_inv bd db _ true db' ids hok
  subst hst
  rw [transferLoop_append] at hloop
  cases hl1 : transferLoop bd true ⟨db, []⟩ pre [] with
  | error e => simp [hl1] at hloop
  | ok r =>
    obtain ⟨txn1, ids1⟩ := r
    simp only [hl1] at hloop
    obtain ⟨ext1, ids1', hout1, hrep1, hext1, hlen1, hids1, hsave1, -⟩ :=
      Rep.loop bd true pre vs ⟨db, []⟩ [] txn1 ids1 h (fun _ => by omega) hl1
    simp only [List.nil_append] at hout1
    subst hout1
    obtain ⟨ext2, ids2, hout2, hrep2, -, -, -, hsave2, -⟩ :=
      Rep.loop bd true (t :: post) (vs ++ ext1) txn1 ids1 txn' ids hrep1
        (fun _ => by simp only [List.length_append, List.length_cons]; omega) hloop
    have hnot : t ∉ vs ++ ext1 := by
      intro hm
      rcases List.mem_append.mp hm with hm | hm
      · exact ht hm
      · exact hpre (hext1 t hm)
    obtain ⟨hids2, hmem2⟩ := hsave2 rfl
    have hlenpre : ids1.length = pre.length := by rw [(hsave1 rfl).1]; simp
    have hidx : List.indexOf t (vs ++ ext1 ++ ext2) =
        (vs ++ ext1).length + List.indexOf t ext2 := List.indexOf_append_of_not_mem hnot
    refine ⟨ids1, ((List.indexOf t (vs ++ ext1 ++ ext2) : Nat) : Int) + 1,
      post.map (fun w => ((List.indexOf w (vs ++ ext1 ++ ext2) : Nat) : Int) + 1),
      ?_, hlenpre, ?_, ?_, ?_⟩
    · rw [hout2, hids2]
      simp
    · intro j hj
      have := hids1 j hj
      rw [hidx]
      push_cast
      omega
    · rw [hidx]
      simp only [List.length_append]
      push_cast
      omega
    · exact (hrep2.assigned_iff t _).mpr ⟨hmem2 t (List.mem_cons_self _ _), rfl⟩

/-- C8: on every store reached from the empty store (the bound on the number
of terms passed to creating calls states that the ids fit Go's 64-bit `int`;
reads report no error), `GetLastId` returns a number `m` such that the assigned
ids are exactly `1, ..., m` (so `m` is the highest id assigned, 0 when none, and
no term has id 0), and `GetCurrentVocab` returns exactly the map from each
assigned id to its term. A later call that may create ids and returns ids leaves
every term of its batch assigned the id returned for it, keeps the assignments
made before, and leaves `GetLastId` at or above `m` and every returned id; a
term created by the call, at its first occurrence in the batch, receives an id
above `m`, above every id assigned before the call and above every id returned
earlier in the batch. -/
theorem vocabulary_invariant (bd : Badger) (k : Nat) (db : Store) (hr : Reaches bd k db)
    (hk : k < 2 ^ 63) (hread : ∀ key, bd.readError key = none) :
    ∃ m : Nat, GetLastId bd db = .ok (m : Int) ∧
      (∀ t n, Assigned db t n → 1 ≤ n ∧ n ≤ (m : Int)) ∧
      (∀ n : Int, 1 ≤ n → n ≤ (m : Int) → ∃ t, Assigned db t n) ∧
      (∃ vocab, GetCurrentVocab bd db = .ok vocab ∧
        ∀ n t, vocabGet vocab n = some t ↔ Assigned db t n) ∧
      (∀ (words : List String) (db' : Store) (ids : List Int),
        k + words.length < 2 ^ 63 →
        TransferOrSaveToSequence bd db words true = (db', .ok ids) →
        List.Forall₂ (Assigned db') words ids ∧
        (∀ t n, Assigned db t n → Assigned db' t n) ∧
        (∃ m' : Nat, GetLastId bd db' = .ok (m' : Int) ∧ m ≤ m' ∧ ∀ n ∈ ids, n ≤ (m' : Int)) ∧
        ∀ (pre post : List String) (t : String), words = pre ++ t :: post →
          (∀ n, ¬ Assigned db t n) → t ∉ pre →
          ∃ idsPre n idsPost, ids = idsPre ++ n :: idsPost ∧
            idsPre.length = pre.length ∧ (∀ j ∈ idsPre, j < n) ∧ (m : Int) < n ∧
            (∀ t0 n0, Assigned db t0 n0 → n0 < n) ∧ Assigned db' t n) := by
  obtain ⟨vs, hrep, hlen⟩ := hr.rep hk
  have hassigned : ∀ t n, Assigned db t n → 1 ≤ n ∧ n ≤ (vs.length : Int) := by
    intro t n ha
    obtain ⟨ht, rfl⟩ := (hrep.assigned_iff t n).mp ha
    have := List.indexOf_lt_length.mpr ht
    omega
  refine ⟨vs.length, hrep.lastId bd hread, hassigned, ?_, hrep.currentVocab bd hread, ?_⟩
  · intro n h1 h2
    have hi : n.toNat - 1 < vs.length := by omega
    refine ⟨vs[n.toNat - 1], (hrep.assigned_iff _ n).mpr ⟨List.getElem_mem _, ?_⟩⟩
    rw [List.indexOf_getElem hrep.nodup]
    omega
  · intro words db' ids hb hok
    obtain ⟨ext, hrep', -, hids, hmem, hall, hkeep⟩ :=
      hrep.call bd words db' ids (by omega) hok
    refine ⟨hall, hkeep, ⟨(vs ++ ext).length, hrep'.lastId bd hread, by simp, ?_⟩, ?_⟩
    · intro n hn
      rw [hids] at hn
      obtain ⟨w, hw, rfl⟩ := List.mem_map.mp hn
      have := List.indexOf_lt_length.mpr (hmem w hw)
      omega
    · intro pre post t hwords hnew hpre
      subst hwords
      have ht : t ∉ vs := fun hm => hnew _ ((hrep.assigned_iff t _).mpr ⟨hm, rfl⟩)
      obtain ⟨idsPre, n, idsPost, hsplit, hl, hlt, hm, ha⟩ :=
        hrep.fresh_term bd pre post t db' ids (by omega) ht hpre hok
      exact ⟨idsPre, n, idsPost, hsplit, hl, hlt, hm,
        fun t0 n0 h0 => lt_of_le_of_lt (hassigned t0 n0 h0).2 hm, ha⟩

/-- C8 at the store left by interning `a, b, a`, and for the later call that
interns `b, c`: `GetLastId` is 2 before it, and the call returns the ids 2 and
3, which the store then holds for `b` and `c`. -/
theorem vocabulary_invariant_witness :
    Reaches quietBadger (0 + if true then ["a", "b", "a"].length else 0)
        (TransferOrSaveToSequence quietBadger [] ["a", "b", "a"] true).1 ∧
      (0 + if true then ["a", "b", "a"].length else 0) < 2 ^ 63 ∧
      (∀ key, quietBadger.readError key = none) ∧
      TransferOrSaveToSequence quietBadger
          (TransferOrSaveToSequence quietBadger [] ["a", "b", "a"] true).1 ["b", "c"] true =
        ([("id:1", "a"), ("id:2", "b"), ("id:3", "c"), ("max_id", "3"), ("word:a", "1"),
          ("word:b", "2"), ("word:c", "3")], .ok [2, 3]) ∧
      ∃ m : Nat,
        GetLastId quietBadger (TransferOrSaveToSequence quietBadger [] ["a", "b", "a"] true).1 =
          .ok (m : Int) ∧
        List.Forall₂
          (Assigned [("id:1", "a"), ("id:2", "b"), ("id:3", "c"), ("max_id", "3"),
            ("word:a", "1"), ("word:b", "2"), ("word:c", "3")]) ["b", "c"] [2, 3] :=
  ⟨Reaches.call ["a", "b", "a"] true Reaches.empty, by norm_num, fun _ => rfl, by decide,
    (vocabulary_invariant quietBadger _ _ (Reaches.call ["a", "b", "a"] true Reaches.empty)
      (by norm_num) (fun _ => rfl)).imp fun _ h =>
        ⟨h.1, (h.2.2.2.2 ["b", "c"] _ [2, 3] (by norm_num) (by decide)).1⟩⟩

/-! ## C3: the tokenizer -/

theorem tokenizeLoop_alnum (env : TextEnv) (r : Char) (rest : List Char) (tokens : List String)
    (cur : List Char) (hr : (env.isLetter r || env.isNumber r) = true) :
    tokenizeLoop env (r :: rest) tokens cur = tokenizeLoop env rest tokens (cur ++ [r]) := by
  rw [tokenizeLoop, if_pos hr]

theorem tokenizeLoop_sep_nil (env : TextEnv) (r : Char) (rest : List Char) (tokens : List String)
    (hr : ¬ (env.isLetter r || env.isNumber r) = true) :
    tokenizeLoop env (r :: rest) tokens [] = tokenizeLoop env rest tokens [] := by
  rw [tokenizeLoop, if_neg hr]
  simp

theorem tokenizeLoop_sep_cons (env : TextEnv) (r : Char) (rest : List Char) (tokens : List String)
    (c : Char) (cur : List Char) (hr : ¬ (env.isLetter r || env.isNumber r) = true) :
    tokenizeLoop env (r :: rest) tokens (c :: cur) =
      tokenizeLoop env rest (flushToken env tokens (c :: cur)) [] := by
  rw [tokenizeLoop, if_neg hr]
  by_cases hs : env.IsStopWord (String.mk (c :: cur)) = true
  · simp [flushToken, hs]
  · simp [flushToken, hs]

theorem flushToken_nil (env : TextEnv) (tokens : List String) : flushToken env tokens [] = tokens := by
  simp [flushToken]

theorem flushToken_cons (env : TextEnv) (tokens : List String) (c : Char) (cur : List Char) :
    flushToken env tokens (c :: cur) =
      tokens ++ (([String.mk (c :: cur)]).filter fun token => !env.IsStopWord token).map env.Stem := by
  by_cases hs : env.IsStopWord (String.mk (c :: cur)) = true
  · simp [flushToken, hs]
  · simp [flushToken, hs]

theorem alnumRuns_of_alnum (env : TextEnv) (cur : List Char)
    (hcur : ∀ c ∈ cur, (env.isLetter c || env.isNumber c) = true) :
    alnumRuns env cur = if cur = [] then [] else [cur] := by
  have hsingle : cur.splitOnP (fun c => !(env.isLetter c || env.isNumber c)) = [cur] :=
    List.splitOnP_eq_single _ _ fun x hx => by simp [hcur x hx]
  unfold alnumRuns
  rw [hsingle]
  by_cases h : cur = []
  · simp [h]
  · simp [h]

theorem alnumRuns_sep (env : TextEnv) (cur : List Char) (r : Char) (rest : List Char)
    (hcur : ∀ c ∈ cur, (env.isLetter c || env.isNumber c) = true)
    (hr : ¬ (env.isLetter r || env.isNumber r) = true) :
    alnumRuns env (cur ++ r :: rest) =
      (if cur = [] then [] else [cur]) ++ alnumRuns env rest := by
  have hsplit : (cur ++ r :: rest).splitOnP (fun c => !(env.isLetter c || env.isNumber c)) =
      cur :: rest.splitOnP (fun c => !(env.isLetter c || env.isNumber c)) :=
    List.splitOnP_first _ _ (fun x hx => by simp [hcur x hx]) r (by simpa using hr) rest
  unfold alnumRuns
  rw [hsplit]
  by_cases h : cur = []
  · simp [h]
  · simp [h]

theorem tokenizeLoop_spec (env : TextEnv) (cs : List Char) :
    ∀ (tokens : List String) (cur : List Char),
      (∀ c ∈ cur, (env.isLetter c || env.isNumber c) = true) →
      flushToken env (tokenizeLoop env cs tokens cur).1 (tokenizeLoop env cs tokens cur).2 =
        tokens ++ (((alnumRuns env (cur ++ cs)).map String.mk).filter
          fun token => !env.IsStopWord token).map env.Stem := by
  induction cs with
  | nil =>
    intro tokens cur hcur
    rw [List.append_nil, alnumRuns_of_alnum env cur hcur]
    cases cur with
    | nil => simp [tokenizeLoop, flushToken_nil]
    | cons c cur' => simp [tokenizeLoop, flushToken_cons]
  | cons r rest ih =>
    intro tokens cur hcur
    by_cases hr : (env.isLetter r || env.isNumber r) = true
    · have := ih tokens (cur ++ [r]) (by
        intro c hc
        rcases List.mem_append.mp hc with hc | hc
        · exact hcur c hc
        · simp only [List.mem_singleton] at hc; subst hc; exact hr)
      simp only [List.append_assoc, List.singleton_append] at this
      rw [tokenizeLoop_alnum env r rest tokens cur hr]
      exact this
    · rw [alnumRuns_sep env cur r rest hcur hr]
      cases cur with
      | nil =>
        rw [tokenizeLoop_sep_nil env r rest tokens hr]
        simpa using ih tokens [] (by simp)
      | cons c cur' =>
        rw [tokenizeLoop_sep_cons env r rest tokens c cur' hr, flushToken_cons]
        have := ih (tokens ++ (([String.mk (c :: cur')]).filter
          fun token => !env.IsStopWord token).map env.Stem) [] (by simp)
        rw [this]
        simp only [if_neg (List.cons_ne_nil c cur'), List.map_append, List.filter_append,
          List.append_assoc, List.nil_append, List.map_cons, List.map_nil]

/-- C3: `TokenizeAndStem` equals the reference tokenizer: lowercase the text,
take its maximal runs of letters or numbers in order of appearance, drop the
runs for which `IsStopWord` holds, apply `Stem` to the others. -/
theorem tokenizeAndStem_eq_reference (env : TextEnv) (text : String) :
    TokenizeAndStem env text = tokenizeReference env text := by
  have h := tokenizeLoop_spec env (ToLower env text).data [] [] (by simp)
  simp only [List.nil_append] at h
  unfold TokenizeAndStem tokenizeReference
  exact h

/-! ## The loops of `Search` -/

theorem RankMap.mem_keys_add (rank : RankMap) (docID id : UUID) :
    id ∈ (rank.add docID).keys ↔ id ∈ rank.keys ∨ id = docID := by
  unfold RankMap.add
  split_ifs with h
  · constructor
    · exact Or.inl
    · rintro (h1 | h1)
      · exact h1
      · exact h1 ▸ h
  · simp

theorem RankMap.mem_keys_foldl_add (mp : Posting) :
    ∀ (rank : RankMap) (id : UUID),
      id ∈ (mp.foldl (fun rank p => rank.add p.1) rank).keys ↔
        id ∈ rank.keys ∨ id ∈ mp.map Prod.fst := by
  induction mp with
  | nil => intro rank id; simp
  | cons p rest ih =>
    intro rank id
    simp only [List.foldl_cons, List.map_cons, List.mem_cons]
    rw [ih, RankMap.mem_keys_add]
    tauto

theorem candidateLoop_spec (env : SearchEnv) (words : List String) :
    ∀ (index : Index) (rank : RankMap),
      match candidateLoop env words (index, rank) with
      | .ok (index', rank') =>
        (∀ w ∈ words, env.GetDocumentsByWord w = .ok (index' w)) ∧
        (∀ w, w ∉ words → index' w = index w) ∧
        ∀ id, id ∈ rank'.keys ↔
          id ∈ rank.keys ∨ ∃ w ∈ words, id ∈ (index' w).map Prod.fst
      | .error _ => ∃ w ∈ words, ∃ e, env.GetDocumentsByWord w = .error e := by
  induction words with
  | nil => intro index rank; simp [candidateLoop]
  | cons word rest ih =>
    intro index rank
    rw [candidateLoop]
    cases hg : env.GetDocumentsByWord word with
    | error e => exact ⟨word, List.mem_cons_self _ _, e, hg⟩
    | ok mp =>
      simp only
      have := ih (fun w => if w = word then mp else index w)
        (mp.foldl (fun rank p => rank.add p.1) rank)
      revert this
      cases candidateLoop env rest (fun w => if w = word then mp else index w,
          mp.foldl (fun rank p => rank.add p.1) rank) with
      | error e =>
        rintro ⟨w, hw, e', he'⟩
        exact ⟨w, List.mem_cons_of_mem _ hw, e', he'⟩
      | ok r =>
        obtain ⟨index', rank'⟩ := r
        rintro ⟨h1, h2, h3⟩
        have hword : index' word = mp := by
          by_cases hmem : word ∈ rest
          · have := h1 word hmem
            rw [hg] at this
            exact (Except.ok.inj this).symm
          · rw [h2 word hmem]; simp
        refine ⟨?_, ?_, ?_⟩
        · intro w hw
          rcases List.mem_cons.mp hw with hw | hw
          · subst hw; rw [hword]; exact hg
          · exact h1 w hw
        · intro w hw
          have hne : w ≠ word := fun h => hw (h ▸ List.mem_cons_self _ _)
          rw [h2 w fun h => hw (List.mem_cons_of_mem _ h)]
          simp [hne]
        · intro id
          rw [h3 id, RankMap.mem_keys_foldl_add]
          constructor
          · rintro ((h | h) | ⟨w, hw, h⟩)
            · exact Or.inl h
            · exact Or.inr ⟨word, List.mem_cons_self _ _, by rw [hword]; exact h⟩
            · exact Or.inr ⟨w, List.mem_cons_of_mem _ hw, h⟩
          · rintro (h | ⟨w, hw, h⟩)
            · exact Or.inl (Or.inl h)
            · rcases List.mem_cons.mp hw with hw | hw
              · subst hw
                rw [hword] at h
                exact Or.inl (Or.inr h)
              · exact Or.inr ⟨w, hw, h⟩

theorem fetchDocuments_keys (words : List String) (index : Index) :
    ∀ rank : RankMap, (fetchDocuments words rank index).keys = rank.keys := by
  have inner : ∀ (mp : Posting) (rank : RankMap),
      (mp.foldl (fun rank p =>
        rank.modify p.1 fun r => { r with includesWords := r.includesWords + 1 }) rank).keys =
        rank.keys := by
    intro mp
    induction mp with
    | nil => intro rank; rfl
    | cons p rest ih => intro rank; simp only [List.foldl_cons]; rw [ih]; rfl
  unfold fetchDocuments
  induction words with
  | nil => intro rank; rfl
  | cons w rest ih => intro rank; simp only [List.foldl_cons]; rw [ih, inner]

/-- The invariant of the scoring loop: `result` holds the loaded document of
every id in `alreadyIncluded`, in the same order, each id once. -/
theorem scoreDoc_spec (env : SearchEnv) (AvgLen idf : Float64) (state : ScoreState) (p : UUID × Int)
    (hnd : state.alreadyIncluded.Nodup)
    (hres : state.result = state.alreadyIncluded.filterMap (GetDocumentByID env))
    (hload : ∀ id ∈ state.alreadyIncluded, (GetDocumentByID env id).isSome = true) :
    (scoreDoc env AvgLen idf state p).alreadyIncluded.Nodup ∧
      (scoreDoc env AvgLen idf state p).result =
        (scoreDoc env AvgLen idf state p).alreadyIncluded.filterMap (GetDocumentByID env) ∧
      (∀ id ∈ (scoreDoc env AvgLen idf state p).alreadyIncluded,
        (GetDocumentByID env id).isSome = true) ∧
      ∀ id, id ∈ (scoreDoc env AvgLen idf state p).alreadyIncluded ↔
        id ∈ state.alreadyIncluded ∨ (id = p.1 ∧ (GetDocumentByID env id).isSome = true) := by
  unfold scoreDoc
  cases hdoc : GetDocumentByID env p.1 with
  | none =>
    refine ⟨hnd, hres, hload, fun id => ⟨Or.inl, ?_⟩⟩
    rintro (h | ⟨rfl, h⟩)
    · exact h
    · rw [hdoc] at h; exact absurd h (by simp)
  | some doc =>
    simp only
    split_ifs with hin
    · refine ⟨hnd, hres, hload, fun id => ⟨Or.inl, ?_⟩⟩
      rintro (h | ⟨rfl, -⟩)
      · exact h
      · exact hin
    · refine ⟨?_, ?_, ?_, ?_⟩
      · rw [List.nodup_append]
        refine ⟨hnd, List.nodup_singleton _, ?_⟩
        intro a ha hb
        simp only [List.mem_singleton] at hb
        exact hin (hb ▸ ha)
      · simp only [List.filterMap_append, hres, List.filterMap_cons, hdoc, List.filterMap_nil]
      · intro id hid
        rcases List.mem_append.mp hid with h | h
        · exact hload id h
        · simp only [List.mem_singleton] at h
          subst h
          simp [hdoc]
      · intro id
        simp only [List.mem_append, List.mem_singleton]
        constructor
        · rintro (h | rfl)
          · exact Or.inl h
          · exact Or.inr ⟨rfl, by simp [hdoc]⟩
        · rintro (h | ⟨rfl, -⟩)
          · exact Or.inl h
          · exact Or.inr rfl

theorem scoreDoc_foldl_spec (env : SearchEnv) (AvgLen idf : Float64) (mp : Posting) :
    ∀ state : ScoreState, state.alreadyIncluded.Nodup →
      state.result = state.alreadyIncluded.filterMap (GetDocumentByID env) →
      (∀ id ∈ state.alreadyIncluded, (GetDocumentByID env id).isSome = true) →
      (mp.foldl (scoreDoc env AvgLen idf) state).alreadyIncluded.Nodup ∧
        (mp.foldl (scoreDoc env AvgLen idf) state).result =
          (mp.foldl (scoreDoc env AvgLen idf) state).alreadyIncluded.filterMap
            (GetDocumentByID env) ∧
        (∀ id ∈ (mp.foldl (scoreDoc env AvgLen idf) state).alreadyIncluded,
          (GetDocumentByID env id).isSome = true) ∧
        ∀ id, id ∈ (mp.foldl (scoreDoc env AvgLen idf) state).alreadyIncluded ↔
          id ∈ state.alreadyIncluded ∨
            (id ∈ mp.map Prod.fst ∧ (GetDocumentByID env id).isSome = true) := by
  induction mp with
  | nil => intro state h1 h2 h3; exact ⟨h1, h2, h3, by simp⟩
  | cons p rest ih =>
    intro state h1 h2 h3
    obtain ⟨g1, g2, g3, g4⟩ := scoreDoc_spec env AvgLen idf state p h1 h2 h3
    obtain ⟨k1, k2, k3, k4⟩ := ih _ g1 g2 g3
    refine ⟨k1, k2, k3, fun id => ?_⟩
    simp only [List.foldl_cons, List.map_cons, List.mem_cons]
    rw [k4 id, g4 id]
    tauto

theorem scoreLoop_spec (env : SearchEnv) (AvgLen : Float64) (index : Index) (words : List String) :
    ∀ state : ScoreState, state.alreadyIncluded.Nodup →
      state.result = state.alreadyIncluded.filterMap (GetDocumentByID env) →
      (∀ id ∈ state.alreadyIncluded, (GetDocumentByID env id).isSome = true) →
      ∃ state', scoreLoop env AvgLen index words state = some state' ∧
        state'.alreadyIncluded.Nodup ∧
        state'.result = state'.alreadyIncluded.filterMap (GetDocumentByID env) ∧
        (∀ id ∈ state'.alreadyIncluded, (GetDocumentByID env id).isSome = true) ∧
        ∀ id, id ∈ state'.alreadyIncluded ↔
          id ∈ state.alreadyIncluded ∨
            ∃ w ∈ words, id ∈ (index w).map Prod.fst ∧ (GetDocumentByID env id).isSome = true := by
  induction words with
  | nil => intro state h1 h2 h3; exact ⟨state, rfl, h1, h2, h3, by simp⟩
  | cons word rest ih =>
    intro state h1 h2 h3
    obtain ⟨n, hn⟩ : ∃ n, GetDocumentsCount env = .ok n := ⟨_, rfl⟩
    simp only [scoreLoop, hn]
    obtain ⟨g1, g2, g3, g4⟩ := scoreDoc_foldl_spec env AvgLen
      (env.log (Float64.num (n : ℚ) / Float64.num ((index word).length : ℚ)) + 1.0)
      (index word) state h1 h2 h3
    obtain ⟨state', hs, k1, k2, k3, k4⟩ := ih _ g1 g2 g3
    refine ⟨state', hs, k1, k2, k3, fun id => ?_⟩
    rw [k4 id, g4 id]
    simp only [List.mem_cons, exists_eq_or_imp]
    tauto

theorem scoreDoc_keys (env : SearchEnv) (AvgLen idf : Float64) (state : ScoreState)
    (p : UUID × Int) : (scoreDoc env AvgLen idf state p).rank.keys = state.rank.keys := by
  unfold scoreDoc
  cases GetDocumentByID env p.1 with
  | none => rfl
  | some doc =>
    simp only
    split_ifs <;> rfl

theorem scoreDoc_foldl_keys (env : SearchEnv) (AvgLen idf : Float64) (mp : Posting) :
    ∀ state : ScoreState,
      (mp.foldl (scoreDoc env AvgLen idf) state).rank.keys = state.rank.keys := by
  induction mp with
  | nil => intro state; rfl
  | cons p rest ih =>
    intro state
    simp only [List.foldl_cons]
    rw [ih, scoreDoc_keys]

theorem scoreLoop_keys (env : SearchEnv) (AvgLen : Float64) (index : Index)
    (words : List String) :
    ∀ state state' : ScoreState, scoreLoop env AvgLen index words state = some state' →
      state'.rank.keys = state.rank.keys := by
  induction words with
  | nil =>
    intro state state' h
    simp only [scoreLoop, Option.some.injEq] at h
    rw [← h]
  | cons word rest ih =>
    intro state state' h
    obtain ⟨n, hn⟩ : ∃ n, GetDocumentsCount env = .ok n := ⟨_, rfl⟩
    simp only [scoreLoop, hn] at h
    rw [ih _ _ h, scoreDoc_foldl_keys]

theorem mem_candidateIds (env : SearchEnv) (query : String) (id : UUID) :
    id ∈ candidateIds env query ↔
      ∃ w ∈ TokenizeAndStem env.text query, ∃ mp,
        env.GetDocumentsByWord w = .ok mp ∧ id ∈ mp.map Prod.fst := by
  unfold candidateIds
  rw [List.mem_dedup, List.mem_flatMap]
  constructor
  · rintro ⟨w, hw, h⟩
    cases hg : env.GetDocumentsByWord w with
    | error e => rw [hg] at h; simp at h
    | ok mp => rw [hg] at h; exact ⟨w, hw, mp, hg, h⟩
  · rintro ⟨w, hw, mp, hg, h⟩
    exact ⟨w, hw, by rw [hg]; exact h⟩

theorem length_filterMap_of_isSome {α β : Type} (f : α → Option β) (l : List α)
    (h : ∀ a ∈ l, (f a).isSome = true) : (l.filterMap f).length = l.length := by
  induction l with
  | nil => rfl
  | cons a rest ih =>
    obtain ⟨b, hb⟩ := Option.isSome_iff_exists.mp (h a (List.mem_cons_self _ _))
    simp only [List.filterMap_cons, hb, List.length_cons]
    rw [ih fun x hx => h x (List.mem_cons_of_mem _ hx)]

/-- What `gatherResult` returns: `none` when a posting read fails or no
document is a candidate; otherwise the loadable candidates, each once, with
their documents in `result`. -/
theorem gatherResult_spec (env : SearchEnv) (AvgLen : Float64) (query : String) :
    match gatherResult env AvgLen (TokenizeAndStem env.text query) with
    | none =>
      (∃ w ∈ TokenizeAndStem env.text query, ∃ e, env.GetDocumentsByWord w = .error e) ∨
        ((∀ w ∈ TokenizeAndStem env.text query, ∃ mp, env.GetDocumentsByWord w = .ok mp) ∧
          candidateIds env query = [])
    | some state =>
      (∀ w ∈ TokenizeAndStem env.text query, ∃ mp, env.GetDocumentsByWord w = .ok mp) ∧
        state.alreadyIncluded.Nodup ∧
        (∀ id, id ∈ state.alreadyIncluded ↔
          id ∈ candidateIds env query ∧ (GetDocumentByID env id).isSome = true) ∧
        state.result = state.alreadyIncluded.filterMap (GetDocumentByID env) ∧
        state.result.length = state.alreadyIncluded.length ∧
        ∀ id, id ∈ state.rank.keys ↔ id ∈ candidateIds env query := by
  have hspec := candidateLoop_spec env (TokenizeAndStem env.text query) (fun _ => [])
    RankMap.empty
  unfold gatherResult
  cases hcl : candidateLoop env (TokenizeAndStem env.text query) (fun _ => [], RankMap.empty) with
  | error e =>
    rw [hcl] at hspec
    exact Or.inl hspec
  | ok r =>
    obtain ⟨index, rank⟩ := r
    rw [hcl] at hspec
    obtain ⟨h1, -, h3⟩ := hspec
    have hall : ∀ w ∈ TokenizeAndStem env.text query, ∃ mp, env.GetDocumentsByWord w = .ok mp :=
      fun w hw => ⟨index w, h1 w hw⟩
    have hkeys : ∀ id, id ∈ rank.keys ↔ id ∈ candidateIds env query := by
      intro id
      rw [h3 id, mem_candidateIds]
      constructor
      · rintro (h | ⟨w, hw, h⟩)
        · simp [RankMap.empty] at h
        · exact ⟨w, hw, index w, h1 w hw, h⟩
      · rintro ⟨w, hw, mp, hg, h⟩
        rw [h1 w hw] at hg
        exact Or.inr ⟨w, hw, by rw [Except.ok.inj hg]; exact h⟩
    simp only [fetchDocuments_keys]
    by_cases hk : rank.keys.length = 0
    · simp only [hk, if_true]
      refine Or.inr ⟨hall, List.eq_nil_iff_forall_not_mem.mpr fun id hid => ?_⟩
      have := (hkeys id).mpr hid
      rw [List.length_eq_zero.mp hk] at this
      simp at this
    · obtain ⟨state', hs, k1, k2, k3, k4⟩ :=
        scoreLoop_spec env AvgLen index (TokenizeAndStem env.text query)
          ⟨fetchDocuments (TokenizeAndStem env.text query) rank index, [], []⟩
          List.nodup_nil rfl (by simp)
      have hkeys' := scoreLoop_keys env AvgLen index _ _ _ hs
      simp only [fetchDocuments_keys] at hkeys'
      simp only [hk, if_false, hs]
      refine ⟨hall, k1, ?_, k2, ?_, fun id => by rw [hkeys', hkeys id]⟩
      · intro id
        rw [k4 id, mem_candidateIds]
        constructor
        · rintro (h | ⟨w, hw, h, hl⟩)
          · simp at h
          · exact ⟨⟨w, hw, index w, h1 w hw, h⟩, hl⟩
        · rintro ⟨⟨w, hw, mp, hg, h⟩, hl⟩
          rw [h1 w hw] at hg
          exact Or.inr ⟨w, hw, by rw [Except.ok.inj hg]; exact h, hl⟩
      · rw [k2]
        exact length_filterMap_of_isSome (GetDocumentByID env) state'.alreadyIncluded k3

/-- The number of loaded candidates is the number `n` of the claim. -/
theorem gatherResult_length (env : SearchEnv) (AvgLen : Float64) (query : String) (state : ScoreState)
    (h : gatherResult env AvgLen (TokenizeAndStem env.text query) = some state) :
    state.result.length = loadableCandidates env query := by
  have hspec := gatherResult_spec env AvgLen query
  rw [h] at hspec
  obtain ⟨-, hnd, hmem, -, hlen, -⟩ := hspec
  rw [hlen]
  unfold loadableCandidates
  apply List.Perm.length_eq
  have hnd2 : (List.filter (fun docID => (GetDocumentByID env docID).isSome)
      (candidateIds env query)).Nodup := (List.nodup_dedup _).filter _
  rw [List.perm_ext_iff_of_nodup hnd hnd2]
  intro id
  rw [hmem id, List.mem_filter]

/-! ## The order of `float64` values -/

theorem Float64.gt_trans (a b c : Float64) (h1 : a.gt b = true) (h2 : b.gt c = true) :
    a.gt c = true := by
  cases a <;> cases b <;> cases c <;> simp_all [Float64.gt]
  linarith

theorem Float64.gt_of_eq_of_gt (a b c : Float64) (h1 : a.eq b = true) (h2 : b.gt c = true) :
    a.gt c = true := by
  cases a <;> cases b <;> cases c <;> simp_all [Float64.gt, Float64.eq]

theorem Float64.gt_of_gt_of_eq (a b c : Float64) (h1 : a.gt b = true) (h2 : b.eq c = true) :
    a.gt c = true := by
  cases a <;> cases b <;> cases c <;> simp_all [Float64.gt, Float64.eq]

theorem Float64.eq_trans (a b c : Float64) (h1 : a.eq b = true) (h2 : b.eq c = true) :
    a.eq c = true := by
  cases a <;> cases b <;> cases c <;> simp_all [Float64.eq]

theorem Float64.eq_symm (a b : Float64) (h : a.eq b = true) : b.eq a = true := by
  cases a <;> cases b <;> simp_all [Float64.eq]

theorem Float64.gt_asymm (a b : Float64) (h1 : a.gt b = true) (h2 : b.gt a = true) : False := by
  cases a <;> cases b <;> simp_all [Float64.gt]
  linarith

theorem Float64.not_gt_of_eq (a b : Float64) (h1 : a.eq b = true) (h2 : a.gt b = true) :
    False := by
  cases a <;> cases b <;> simp_all [Float64.gt, Float64.eq]

/-- Two values of which neither is NaN are equal or one is greater. -/
theorem Float64.trichotomy (a b : Float64) (ha : a ≠ .nan) (hb : b ≠ .nan) :
    a.gt b = true ∨ a.eq b = true ∨ b.gt a = true := by
  cases a <;> cases b <;> simp_all [Float64.gt, Float64.eq]
  rename_i x y
  rcases lt_trichotomy x y with h | h | h
  · exact Or.inr (Or.inr h)
  · exact Or.inr (Or.inl h)
  · exact Or.inl h

/-! ## C4: the comparator -/

/-- C4 (as stated, refuted): with two query words in document 1 and one in
document 2, and the higher `relation` on document 2, the `less` of `Search`
puts each of the two before the other, so it is not asymmetric, and it puts
document 2 first although the lexicographic order does not; and of two
documents with equal accumulators it puts neither first, although the
lexicographic order puts the one with the smaller id first. -/
theorem searchLess_not_lexicographic :
    searchLess ⟨[1, 2], fun id => if id = 1 then ⟨2, 0, 0, 0⟩ else ⟨1, 1, 0, 0⟩⟩
        (exampleDocument 1) (exampleDocument 2) = true ∧
      searchLess ⟨[1, 2], fun id => if id = 1 then ⟨2, 0, 0, 0⟩ else ⟨1, 1, 0, 0⟩⟩
        (exampleDocument 2) (exampleDocument 1) = true ∧
      ¬ lexBefore ⟨1, 1, 0, 0⟩ ⟨2, 0, 0, 0⟩ ((2 : UUID) < 1) ∧
      searchLess ⟨[1, 2], fun _ => ⟨1, 0, 0, 0⟩⟩ (exampleDocument 1) (exampleDocument 2) =
        false ∧
      lexBefore ⟨1, 0, 0, 0⟩ ⟨1, 0, 0, 0⟩ ((1 : UUID) < 2) := by
  refine ⟨by decide!, by decide!, ?_, by decide!, ?_⟩
  · unfold lexBefore
    decide!
  · unfold lexBefore
    decide!

theorem rankingLess_iff (a b : requestRanking) :
    rankingLess a b = true ↔
      a.includesWords > b.includesWords ∨ a.relation.gt b.relation = true ∨
        (a.relation.eq b.relation = true ∧ a.includesWords = b.includesWords ∧
          (a.bm25.gt b.bm25 = true ∨ a.tf_idf.gt b.tf_idf = true)) := by
  simp only [rankingLess, Bool.or_eq_true, Bool.and_eq_true, decide_eq_true_eq]
  tauto

/-- Whenever the lexicographic order decides, the comparator decides the same. -/
theorem rankingLess_of_lex (a b : requestRanking) (h : lexBefore a b False) :
    rankingLess a b = true := by
  rw [rankingLess_iff]
  unfold lexBefore at h
  tauto

/-- The comparator departs from the lexicographic order only on a pair whose
signals conflict. -/
theorem lex_or_conflict_of_rankingLess (a b : requestRanking) (ha : a.bm25 ≠ .nan)
    (hb : b.bm25 ≠ .nan) (h : rankingLess a b = true) :
    lexBefore a b False ∨ signalsConflict a b := by
  rw [rankingLess_iff] at h
  have hi := lt_trichotomy a.includesWords b.includesWords
  have hbm := Float64.trichotomy a.bm25 b.bm25 ha hb
  unfold lexBefore signalsConflict
  have hgt : a.includesWords > b.includesWords ↔ b.includesWords < a.includesWords := Iff.rfl
  rw [hgt] at h ⊢
  tauto

theorem rankingLess_iff_lex (a b : requestRanking) (ha : a.bm25 ≠ .nan) (hb : b.bm25 ≠ .nan)
    (h : ¬ signalsConflict a b) : rankingLess a b = true ↔ lexBefore a b False :=
  ⟨fun hl => (lex_or_conflict_of_rankingLess a b ha hb hl).resolve_right h,
    rankingLess_of_lex a b⟩

theorem lexBefore_asymm (a b : requestRanking) (h1 : lexBefore a b False)
    (h2 : lexBefore b a False) : False := by
  unfold lexBefore at h1 h2
  rcases h1 with g | ⟨g1, g | ⟨g2, g | ⟨g3, g | ⟨-, g⟩⟩⟩⟩ <;>
    rcases h2 with k | ⟨k1, k | ⟨k2, k | ⟨k3, k | ⟨-, k⟩⟩⟩⟩
  all_goals first
    | omega
    | exact g.elim
    | exact k.elim
    | exact Float64.gt_asymm _ _ g k
    | exact Float64.not_gt_of_eq _ _ (Float64.eq_symm _ _ k2) g
    | exact Float64.not_gt_of_eq _ _ (Float64.eq_symm _ _ g2) k
    | exact Float64.not_gt_of_eq _ _ (Float64.eq_symm _ _ k3) g
    | exact Float64.not_gt_of_eq _ _ (Float64.eq_symm _ _ g3) k

theorem lexBefore_trans (a b c : requestRanking) (h1 : lexBefore a b False)
    (h2 : lexBefore b c False) : lexBefore a c False := by
  unfold lexBefore at h1 h2 ⊢
  rcases h1 with g | ⟨g1, g | ⟨g2, g | ⟨g3, g | ⟨-, g⟩⟩⟩⟩ <;>
    rcases h2 with k | ⟨k1, k | ⟨k2, k | ⟨k3, k | ⟨-, k⟩⟩⟩⟩
  all_goals first
    | exact g.elim
    | exact k.elim
    | exact Or.inl (by omega)
    | exact Or.inr ⟨by omega, Or.inl (Float64.gt_trans _ _ _ g k)⟩
    | exact Or.inr ⟨by omega, Or.inl (Float64.gt_of_gt_of_eq _ _ _ g k2)⟩
    | exact Or.inr ⟨by omega, Or.inl (Float64.gt_of_eq_of_gt _ _ _ g2 k)⟩
    | exact Or.inr ⟨by omega, Or.inr ⟨Float64.eq_trans _ _ _ g2 k2,
        Or.inl (Float64.gt_trans _ _ _ g k)⟩⟩
    | exact Or.inr ⟨by omega, Or.inr ⟨Float64.eq_trans _ _ _ g2 k2,
        Or.inl (Float64.gt_of_gt_of_eq _ _ _ g k3)⟩⟩
    | exact Or.inr ⟨by omega, Or.inr ⟨Float64.eq_trans _ _ _ g2 k2,
        Or.inl (Float64.gt_of_eq_of_gt _ _ _ g3 k)⟩⟩
    | exact Or.inr ⟨by omega, Or.inr ⟨Float64.eq_trans _ _ _ g2 k2,
        Or.inr ⟨Float64.eq_trans _ _ _ g3 k3, Or.inl (Float64.gt_trans _ _ _ g k)⟩⟩⟩

theorem rankingLess_lex_on (a b c : requestRanking)
    (hnum : ∀ x ∈ [a, b, c], x.bm25 ≠ .nan)
    (h : ∀ x ∈ [a, b, c], ∀ y ∈ [a, b, c], ¬ signalsConflict x y) :
    (rankingLess a b = true ↔ lexBefore a b False) ∧
      ¬ (rankingLess a b = true ∧ rankingLess b a = true) ∧
      (rankingLess a b = true → rankingLess b c = true → rankingLess a c = true) := by
  have na := hnum a (by simp)
  have nb := hnum b (by simp)
  have nc := hnum c (by simp)
  have hab := h a (by simp) b (by simp)
  have hba := h b (by simp) a (by simp)
  have hbc := h b (by simp) c (by simp)
  have hac := h a (by simp) c (by simp)
  refine ⟨rankingLess_iff_lex a b na nb hab, ?_, ?_⟩
  · rintro ⟨h1, h2⟩
    exact lexBefore_asymm a b ((rankingLess_iff_lex a b na nb hab).mp h1)
      ((rankingLess_iff_lex b a nb na hba).mp h2)
  · intro h1 h2
    exact (rankingLess_iff_lex a c na nc hac).mpr
      (lexBefore_trans a b c ((rankingLess_iff_lex a b na nb hab).mp h1)
        ((rankingLess_iff_lex b c nb nc hbc).mp h2))

theorem rankingLess_of_tie (a b : requestRanking) (e1 : a.includesWords = b.includesWords)
    (e2 : a.relation.eq b.relation = true) (e3 : a.bm25.eq b.bm25 = true)
    (e4 : a.tf_idf.eq b.tf_idf = true) :
    rankingLess a b = false := by
  rw [Bool.eq_false_iff]
  intro hl
  rw [rankingLess_iff] at hl
  rcases hl with g | g | ⟨-, -, g | g⟩
  · omega
  · exact Float64.not_gt_of_eq _ _ e2 g
  · exact Float64.not_gt_of_eq _ _ e3 g
  · exact Float64.not_gt_of_eq _ _ e4 g

theorem searchLess_of_keys (rank : RankMap) (a b : Document) (ha : a.Id ∈ rank.keys)
    (hb : b.Id ∈ rank.keys) :
    searchLess rank a b = rankingLess (rank.val a.Id) (rank.val b.Id) := by
  simp only [searchLess, RankMap.deref, ha, hb, if_true]

/-- C4 (amended): for documents that have an accumulator, the `less` that
`Search` passes to the sort puts `a` before `b` whenever the lexicographic order
by descending `includes_words`, `relation`, `bm25`, `tf_idf` does; it has no
document id tie-break, so of two documents equal in all four accumulators
neither comes before the other; when no `bm25` is NaN it departs from the
lexicographic order only on a pair whose signals conflict, and on documents
whose signals do not conflict it is that order, asymmetric and transitive. -/
theorem searchLess_lexicographic (rank : RankMap) (a b c : Document)
    (ha : a.Id ∈ rank.keys) (hb : b.Id ∈ rank.keys) (hc : c.Id ∈ rank.keys) :
    (lexBefore (rank.val a.Id) (rank.val b.Id) False → searchLess rank a b = true) ∧
      ((rank.val a.Id).includesWords = (rank.val b.Id).includesWords →
        (rank.val a.Id).relation.eq (rank.val b.Id).relation = true →
        (rank.val a.Id).bm25.eq (rank.val b.Id).bm25 = true →
        (rank.val a.Id).tf_idf.eq (rank.val b.Id).tf_idf = true →
        searchLess rank a b = false ∧ searchLess rank b a = false) ∧
      ((∀ x ∈ [rank.val a.Id, rank.val b.Id, rank.val c.Id], x.bm25 ≠ .nan) →
        (searchLess rank a b = true →
          lexBefore (rank.val a.Id) (rank.val b.Id) False ∨
            signalsConflict (rank.val a.Id) (rank.val b.Id)) ∧
        ((∀ x ∈ [rank.val a.Id, rank.val b.Id, rank.val c.Id],
            ∀ y ∈ [rank.val a.Id, rank.val b.Id, rank.val c.Id], ¬ signalsConflict x y) →
          (searchLess rank a b = true ↔ lexBefore (rank.val a.Id) (rank.val b.Id) False) ∧
          ¬ (searchLess rank a b = true ∧ searchLess rank b a = true) ∧
          (searchLess rank a b = true → searchLess rank b c = true →
            searchLess rank a c = true))) := by
  rw [searchLess_of_keys rank a b ha hb, searchLess_of_keys rank b a hb ha,
    searchLess_of_keys rank b c hb hc, searchLess_of_keys rank a c ha hc]
  refine ⟨rankingLess_of_lex _ _, fun e1 e2 e3 e4 => ⟨rankingLess_of_tie _ _ e1 e2 e3 e4,
    rankingLess_of_tie _ _ e1.symm (Float64.eq_symm _ _ e2) (Float64.eq_symm _ _ e3)
      (Float64.eq_symm _ _ e4)⟩, fun hnum => ⟨?_, fun h => rankingLess_lex_on _ _ _ hnum h⟩⟩
  exact lex_or_conflict_of_rankingLess _ _ (hnum _ (by simp)) (hnum _ (by simp))

/-- C4 (amended) at three documents ordered by `includes_words`, by `bm25` and
by `tf_idf`: document 1 comes before document 2, which comes before document 3,
and so document 1 comes before document 3. -/
theorem searchLess_lexicographic_witness :
    (1 : UUID) ∈ [1, 2, 3] ∧ (2 : UUID) ∈ [1, 2, 3] ∧ (3 : UUID) ∈ [1, 2, 3] ∧
      searchLess
        ⟨[1, 2, 3], fun id =>
          if id = 1 then ⟨2, 0, 1, 1⟩ else if id = 2 then ⟨1, 0, 1, 2⟩ else ⟨1, 0, 1, 1⟩⟩
        (exampleDocument 1) (exampleDocument 2) = true :=
  ⟨by decide, by decide, by decide,
    (searchLess_lexicographic
      ⟨[1, 2, 3], fun id =>
        if id = 1 then ⟨2, 0, 1, 1⟩ else if id = 2 then ⟨1, 0, 1, 2⟩ else ⟨1, 0, 1, 1⟩⟩
      (exampleDocument 1) (exampleDocument 2) (exampleDocument 3)
      (by decide) (by decide) (by decide)).1 (Or.inl (by decide))⟩

/-! ## C10: BM25 -/

theorem culcBM25_denominator_pos {K : Type} [LinearOrderedField K] (tf size avgLen : K)
    (htf : 0 < tf) (hsize : 0 ≤ size) (havg : 0 < avgLen) :
    0 < tf + 1.2 * (1 - 0.75 + 0.75 * size / avgLen) := by
  have h1 : (0 : K) ≤ 0.75 * size / avgLen :=
    div_nonneg (mul_nonneg (by norm_num) hsize) havg.le
  have h2 : (0 : K) < 1 - 0.75 := by norm_num
  have h3 : (0 : K) < 1.2 := by norm_num
  have := mul_pos h3 (add_pos_of_pos_of_nonneg h2 h1)
  linarith

/-- C10: over any ordered field (the reals among them), for `idf > 0`,
`avgLen > 0`, `tf > 0` and a full size `≥ 0`, `culcBM25` strictly decreases
when the full size of the document increases at fixed `tf`, and does not
decrease when `tf` increases at fixed full size. -/
theorem culcBM25_monotone {K : Type} [LinearOrderedField K] (GetFullSize : Document → K)
    (idf tf tf' avgLen : K) (doc doc' : Document)
    (hidf : 0 < idf) (havg : 0 < avgLen) (htf : 0 < tf) (hsize : 0 ≤ GetFullSize doc) :
    (GetFullSize doc < GetFullSize doc' →
        culcBM25 GetFullSize idf tf doc' avgLen < culcBM25 GetFullSize idf tf doc avgLen) ∧
      (tf ≤ tf' →
        culcBM25 GetFullSize idf tf doc avgLen ≤ culcBM25 GetFullSize idf tf' doc avgLen) := by
  have hk : (0 : K) < 1.2 := by norm_num
  have hb : (0 : K) < 0.75 := by norm_num
  have hk1 : (0 : K) < 1.2 + 1 := by norm_num
  have hD := culcBM25_denominator_pos tf (GetFullSize doc) avgLen htf hsize havg
  constructor
  · intro hlt
    have hD' := culcBM25_denominator_pos tf (GetFullSize doc') avgLen htf (hsize.trans hlt.le) havg
    have hnum : 0 < idf * (tf * (1.2 + 1)) := mul_pos hidf (mul_pos htf hk1)
    have hden : tf + 1.2 * (1 - 0.75 + 0.75 * GetFullSize doc / avgLen) <
        tf + 1.2 * (1 - 0.75 + 0.75 * GetFullSize doc' / avgLen) := by
      have h1 : 0.75 * GetFullSize doc / avgLen < 0.75 * GetFullSize doc' / avgLen :=
        div_lt_div_of_pos_right (mul_lt_mul_of_pos_left hlt hb) havg
      have := mul_lt_mul_of_pos_left (add_lt_add_left h1 (1 - 0.75)) hk
      linarith
    unfold culcBM25
    exact div_lt_div_of_pos_left hnum hD hden
  · intro hle
    have htf' : 0 < tf' := lt_of_lt_of_le htf hle
    have hD' := culcBM25_denominator_pos tf' (GetFullSize doc) avgLen htf' hsize havg
    have hc : 0 < 1.2 * (1 - 0.75 + 0.75 * GetFullSize doc / avgLen) := by
      have h1 : (0 : K) ≤ 0.75 * GetFullSize doc / avgLen :=
        div_nonneg (mul_nonneg hb.le hsize) havg.le
      have h2 : (0 : K) < 1 - 0.75 := by norm_num
      exact mul_pos hk (add_pos_of_pos_of_nonneg h2 h1)
    unfold culcBM25
    simp only
    rw [div_le_div_iff₀ hD hD']
    have hprod : 0 ≤ idf * (1.2 + 1) * (1.2 * (1 - 0.75 + 0.75 * GetFullSize doc / avgLen)) *
        (tf' - tf) :=
      mul_nonneg (mul_nonneg (mul_nonneg hidf.le hk1.le) hc.le) (sub_nonneg.mpr hle)
    nlinarith [hprod]

/-- C10 at `idf = 1`, `tf = 1`, `avgLen = 10`, a document of full size 10 and
the same document with 20 words. -/
theorem culcBM25_monotone_witness :
    (0 : ℚ) < 1 ∧ (0 : ℚ) < 10 ∧
      culcBM25 (fun doc => (doc.WordCount : ℚ) * doc.PartOfFullSize) 1 1
          { exampleDocument 1 with WordCount := 20 } 10 <
        culcBM25 (fun doc => (doc.WordCount : ℚ) * doc.PartOfFullSize) 1 1
          (exampleDocument 1) 10 :=
  ⟨by norm_num, by norm_num,
    (culcBM25_monotone (fun doc => (doc.WordCount : ℚ) * doc.PartOfFullSize) 1 1 1 10
      (exampleDocument 1) { exampleDocument 1 with WordCount := 20 }
      (by norm_num) (by norm_num) (by norm_num) (by norm_num [exampleDocument])).1
      (by norm_num [exampleDocument])⟩

/-! ## C5, C6, C9: the result of `Search` -/

theorem insertBackwards_perm {α : Type} (less : α → α → Bool) (x : α) (l : List α) :
    (insertBackwards less x l).Perm (x :: l) := by
  induction l with
  | nil => exact List.Perm.refl _
  | cons y ys ih =>
    simp only [insertBackwards]
    split_ifs
    · exact ((List.Perm.cons y ih).trans (List.Perm.swap x y ys))
    · exact List.Perm.refl _

theorem insertionSortLessFunc_perm {α : Type} (less : α → α → Bool) (data : List α) :
    (insertionSortLessFunc less data).Perm data := by
  have key : ∀ (l acc : List α),
      (l.foldl (fun sortedRev x => insertBackwards less x sortedRev) acc).Perm (l ++ acc) := by
    intro l
    induction l with
    | nil => intro acc; exact List.Perm.refl _
    | cons x rest ih =>
      intro acc
      simp only [List.foldl_cons, List.cons_append]
      refine (ih _).trans ?_
      exact (List.Perm.append_left rest (insertBackwards_perm less x acc)).trans
        List.perm_middle
  unfold insertionSortLessFunc
  exact (List.reverse_perm _).trans (by simpa using key data [])

/-! ### The accumulators after the scorer -/

theorem RankMap.update_keys (rank rank' : RankMap) (id : UUID)
    (f : requestRanking → requestRanking) (h : rank.update id f = some rank') :
    rank'.keys = rank.keys := by
  unfold RankMap.update at h
  split_ifs at h
  simp only [Option.some.injEq] at h
  rw [← h]
  rfl

theorem applyScores_keys (result : List Document) (predicted : List (Fin result.length × ℚ)) :
    ∀ rank rank' : RankMap, applyScores rank result predicted = some rank' →
      rank'.keys = rank.keys := by
  induction predicted with
  | nil =>
    intro rank rank' h
    simp only [applyScores, Option.some.injEq] at h
    rw [← h]
  | cons rel rest ih =>
    intro rank rank' h
    rw [applyScores] at h
    split at h
    · exact Option.noConfusion h
    · rename_i rank1 hu
      rw [ih rank1 rank' h, RankMap.update_keys rank rank1 _ _ hu]

/-- The scores are written without a panic when every document of `result`
has an accumulator. -/
theorem applyScores_some (result : List Document) (predicted : List (Fin result.length × ℚ)) :
    ∀ rank : RankMap, (∀ d ∈ result, d.Id ∈ rank.keys) →
      ∃ rank', applyScores rank result predicted = some rank' := by
  induction predicted with
  | nil => intro rank _; exact ⟨rank, by rw [applyScores]⟩
  | cons rel rest ih =>
    intro rank h
    have hmem : (result.get rel.1).Id ∈ rank.keys := h _ (List.get_mem _ _ _)
    rw [applyScores]
    simp only [RankMap.update, hmem, if_true]
    exact ih _ h

/-- A panic while the scores are written means that some document of `result`
has no accumulator. -/
theorem applyScores_none (result : List Document) (predicted : List (Fin result.length × ℚ))
    (rank : RankMap) (h : applyScores rank result predicted = none) :
    ∃ d ∈ result, d.Id ∉ rank.keys := by
  by_contra hno
  push_neg at hno
  obtain ⟨rank', h'⟩ := applyScores_some result predicted rank hno
  rw [h] at h'
  exact Option.noConfusion h'

theorem applyScores_cons_bad (result : List Document) (rel : Fin result.length × ℚ)
    (rest : List (Fin result.length × ℚ)) (rank : RankMap)
    (h : (result.get rel.1).Id ∉ rank.keys) :
    applyScores rank result (rel :: rest) = none := by
  rw [applyScores]
  simp only [RankMap.update, h, if_false]

theorem lessPanics_iff (rank : RankMap) (result : List Document) :
    lessPanics rank result = true ↔
      2 ≤ result.length ∧ ∃ d ∈ result, d.Id ∉ rank.keys := by
  simp only [lessPanics, Bool.and_eq_true, decide_eq_true_eq, List.any_eq_true,
    RankMap.deref]
  constructor
  · rintro ⟨h2, d, hd, hnone⟩
    refine ⟨h2, d, hd, fun hmem => ?_⟩
    simp [hmem] at hnone
  · rintro ⟨h2, d, hd, hnot⟩
    exact ⟨h2, d, hd, by simp [hnot]⟩

/-! ### The cases of `Search` -/

theorem Search_of_gather_none (env : SearchEnv) (AvgLen : Float64) (query : String)
    (h : gatherResult env (refreshAvgLen env AvgLen) (TokenizeAndStem env.text query) = none) :
    Search env AvgLen query = some [] := by
  simp only [Search, h]

theorem Search_of_result_nil (env : SearchEnv) (AvgLen : Float64) (query : String)
    (state : ScoreState)
    (h : gatherResult env (refreshAvgLen env AvgLen) (TokenizeAndStem env.text query) =
      some state)
    (h0 : state.result = []) :
    Search env AvgLen query = some [] := by
  simp [Search, h, h0]

theorem Search_of_scorer_error (env : SearchEnv) (AvgLen : Float64) (query : String)
    (state : ScoreState) (e : Err)
    (h : gatherResult env (refreshAvgLen env AvgLen) (TokenizeAndStem env.text query) =
      some state)
    (hs : env.handleBinaryScore (TokenizeAndStem env.text query) state.result = .error e) :
    Search env AvgLen query = some [] := by
  simp only [Search, h, hs]
  split_ifs <;> rfl

theorem Search_of_scorer_ok (env : SearchEnv) (AvgLen : Float64) (query : String)
    (state : ScoreState) (predicted : List (Fin state.result.length × ℚ))
    (h : gatherResult env (refreshAvgLen env AvgLen) (TokenizeAndStem env.text query) =
      some state)
    (hs : env.handleBinaryScore (TokenizeAndStem env.text query) state.result = .ok predicted)
    (h0 : state.result ≠ []) :
    Search env AvgLen query =
      match applyScores state.rank state.result predicted with
      | none => none
      | some rank =>
        if lessPanics rank state.result then none
        else some ((env.sortSlice (searchLess rank) state.result).take
          (min state.result.length 50)) := by
  have h0' : ¬ state.result.length = 0 := fun hl => h0 (List.length_eq_zero.mp hl)
  simp only [Search, h, hs, h0', if_false]

/-- No panic when every loaded document has an accumulator: `Search` returns
the sorted slice, cut at 50. -/
theorem Search_of_accumulators (env : SearchEnv) (AvgLen : Float64) (query : String)
    (state : ScoreState) (predicted : List (Fin state.result.length × ℚ))
    (h : gatherResult env (refreshAvgLen env AvgLen) (TokenizeAndStem env.text query) =
      some state)
    (hs : env.handleBinaryScore (TokenizeAndStem env.text query) state.result = .ok predicted)
    (hkeys : ∀ d ∈ state.result, d.Id ∈ state.rank.keys) :
    ∃ rank, Search env AvgLen query =
      some ((env.sortSlice (searchLess rank) state.result).take
        (min state.result.length 50)) := by
  obtain ⟨rank, hr⟩ := applyScores_some state.result predicted state.rank hkeys
  have hk := applyScores_keys state.result predicted state.rank rank hr
  by_cases h0 : state.result = []
  · refine ⟨rank, ?_⟩
    rw [Search_of_result_nil env AvgLen query state h h0]
    simp [h0]
  · refine ⟨rank, ?_⟩
    rw [Search_of_scorer_ok env AvgLen query state predicted h hs h0]
    simp only [hr]
    have hnp : lessPanics rank state.result = false := by
      rw [Bool.eq_false_iff, Ne, lessPanics_iff]
      rintro ⟨-, d, hd, hnot⟩
      rw [hk] at hnot
      exact hnot (hkeys d hd)
    simp [hnp]

/-- With two or more loaded documents of which one has no accumulator,
`Search` panics. -/
theorem Search_of_missing_accumulator (env : SearchEnv) (AvgLen : Float64) (query : String)
    (state : ScoreState) (predicted : List (Fin state.result.length × ℚ))
    (h : gatherResult env (refreshAvgLen env AvgLen) (TokenizeAndStem env.text query) =
      some state)
    (hs : env.handleBinaryScore (TokenizeAndStem env.text query) state.result = .ok predicted)
    (h2 : 2 ≤ state.result.length) (hbad : ∃ d ∈ state.result, d.Id ∉ state.rank.keys) :
    Search env AvgLen query = none := by
  have h0 : state.result ≠ [] := by
    intro hnil
    rw [hnil] at h2
    simp at h2
  rw [Search_of_scorer_ok env AvgLen query state predicted h hs h0]
  cases hr : applyScores state.rank state.result predicted with
  | none => rfl
  | some rank =>
    have hk := applyScores_keys state.result predicted state.rank rank hr
    have hp : lessPanics rank state.result = true := by
      rw [lessPanics_iff, hk]
      exact ⟨h2, hbad⟩
    simp [hp]

/-- What `Search` returns when it returns. -/
theorem Search_some (env : SearchEnv) (AvgLen : Float64) (query : String)
    (docs : List Document) (h : Search env AvgLen query = some docs) :
    docs = [] ∨ ∃ state rank,
      gatherResult env (refreshAvgLen env AvgLen) (TokenizeAndStem env.text query) =
        some state ∧
      (∃ predicted,
        env.handleBinaryScore (TokenizeAndStem env.text query) state.result = .ok predicted) ∧
      docs = (env.sortSlice (searchLess rank) state.result).take
        (min state.result.length 50) := by
  cases hg : gatherResult env (refreshAvgLen env AvgLen) (TokenizeAndStem env.text query) with
  | none =>
    rw [Search_of_gather_none env AvgLen query hg] at h
    exact Or.inl (Option.some.inj h).symm
  | some state =>
    by_cases h0 : state.result = []
    · rw [Search_of_result_nil env AvgLen query state hg h0] at h
      exact Or.inl (Option.some.inj h).symm
    · cases hs : env.handleBinaryScore (TokenizeAndStem env.text query) state.result with
      | error e =>
        rw [Search_of_scorer_error env AvgLen query state e hg hs] at h
        exact Or.inl (Option.some.inj h).symm
      | ok predicted =>
        rw [Search_of_scorer_ok env AvgLen query state predicted hg hs h0] at h
        cases hr : applyScores state.rank state.result predicted with
        | none => simp [hr] at h
        | some rank =>
          simp only [hr] at h
          split_ifs at h
          exact Or.inr ⟨state, rank, rfl, ⟨predicted, hs⟩, (Option.some.inj h).symm⟩

/-- Every loaded document has an accumulator when every loaded candidate
record carries the id of a candidate. -/
theorem gatherResult_accumulators (env : SearchEnv) (AvgLen : Float64) (query : String)
    (state : ScoreState)
    (h : gatherResult env AvgLen (TokenizeAndStem env.text query) = some state)
    (hids : ∀ id ∈ candidateIds env query, ∀ doc, GetDocumentByID env id = some doc →
      doc.Id ∈ candidateIds env query) :
    ∀ d ∈ state.result, d.Id ∈ state.rank.keys := by
  have hspec := gatherResult_spec env AvgLen query
  rw [h] at hspec
  obtain ⟨-, -, hmem, hres, -, hkeys⟩ := hspec
  intro d hd
  rw [hres, List.mem_filterMap] at hd
  obtain ⟨id, hid, hdoc⟩ := hd
  rw [hkeys]
  exact hids id ((hmem id).mp hid).1 d hdoc

/-- C5 (as stated, refuted): two candidate documents can be loaded, the scorer
fails, and `Search` returns no document instead of `min(2, 50)`. -/
theorem search_length_scorer_failure :
    loadableCandidates (exampleEnv [(1, 1), (3, 1)] true) "t" = 2 ∧
      Search (exampleEnv [(1, 1), (3, 1)] true) 0 "t" = some [] := by
  decide!

/-- C5 (amended): whenever `Search` returns, it returns at most 50 documents,
and `min(n, 50)` documents, `n` the number of distinct candidate documents that
can be loaded, when every posting read and the scorer call succeed; it returns
no document when a posting read or the scorer call fails; and it does return
(it does not panic on a nil accumulator) when every candidate record that can
be loaded carries the id of a candidate, as it does when every record carries
the id of its key. The hypothesis says that `sort.Slice` reorders the slice it
is given. -/
theorem search_length (env : SearchEnv) (AvgLen : Float64) (query : String)
    (hsort : ∀ less l, (env.sortSlice less l).Perm l) :
    (∀ docs, Search env AvgLen query = some docs →
      docs.length ≤ 50 ∧
        ((∀ w ∈ TokenizeAndStem env.text query, ∃ mp, env.GetDocumentsByWord w = .ok mp) →
          (∀ state,
            gatherResult env (refreshAvgLen env AvgLen) (TokenizeAndStem env.text query) =
              some state →
            ∃ predicted,
              env.handleBinaryScore (TokenizeAndStem env.text query) state.result =
                .ok predicted) →
          docs.length = min (loadableCandidates env query) 50)) ∧
      ((∃ w ∈ TokenizeAndStem env.text query, ∃ e, env.GetDocumentsByWord w = .error e) →
        Search env AvgLen query = some []) ∧
      ((∃ state e,
          gatherResult env (refreshAvgLen env AvgLen) (TokenizeAndStem env.text query) =
            some state ∧
          env.handleBinaryScore (TokenizeAndStem env.text query) state.result = .error e) →
        Search env AvgLen query = some []) ∧
      ((∀ id ∈ candidateIds env query, ∀ doc, GetDocumentByID env id = some doc →
          doc.Id ∈ candidateIds env query) →
        ∃ docs, Search env AvgLen query = some docs) ∧
      ((∀ id doc, GetDocumentByID env id = some doc → doc.Id = id) →
        ∃ docs, Search env AvgLen query = some docs) := by
  have hspec := gatherResult_spec env (refreshAvgLen env AvgLen) query
  have hreturns : (∀ id ∈ candidateIds env query, ∀ doc, GetDocumentByID env id = some doc →
      doc.Id ∈ candidateIds env query) → ∃ docs, Search env AvgLen query = some docs := by
    intro hids
    cases hg : gatherResult env (refreshAvgLen env AvgLen) (TokenizeAndStem env.text query) with
    | none => exact ⟨[], Search_of_gather_none env AvgLen query hg⟩
    | some state =>
      cases hs : env.handleBinaryScore (TokenizeAndStem env.text query) state.result with
      | error e => exact ⟨[], Search_of_scorer_error env AvgLen query state e hg hs⟩
      | ok predicted =>
        obtain ⟨rank, hr⟩ := Search_of_accumulators env AvgLen query state predicted hg hs
          (gatherResult_accumulators env _ query state hg hids)
        exact ⟨_, hr⟩
  refine ⟨?_, ?_, ?_, hreturns, fun hkey => hreturns fun id hid doc hdoc => ?_⟩
  · intro docs hdocs
    rcases Search_some env AvgLen query docs hdocs with hnil | ⟨state, rank, hg, -, hd⟩
    · subst hnil
      refine ⟨by simp, fun hall hscore => ?_⟩
      cases hg : gatherResult env (refreshAvgLen env AvgLen)
          (TokenizeAndStem env.text query) with
      | none =>
        rw [hg] at hspec
        rcases hspec with ⟨w, hw, e, he⟩ | ⟨-, hnil⟩
        · obtain ⟨mp, hmp⟩ := hall w hw
          rw [hmp] at he
          exact Except.noConfusion he
        · simp [loadableCandidates, hnil]
      | some state =>
        obtain ⟨predicted, hs⟩ := hscore state hg
        by_cases h0 : state.result = []
        · rw [← gatherResult_length env _ query state hg, h0]
          rfl
        · exfalso
          rw [Search_of_scorer_ok env AvgLen query state predicted hg hs h0] at hdocs
          cases hr : applyScores state.rank state.result predicted with
          | none => simp [hr] at hdocs
          | some rank =>
            simp only [hr] at hdocs
            split_ifs at hdocs
            have hlen := congrArg List.length (Option.some.inj hdocs)
            rw [List.length_take, (hsort _ _).length_eq] at hlen
            have hpos : 0 < state.result.length := List.length_pos.mpr h0
            simp only [List.length_nil] at hlen
            omega
    · subst hd
      refine ⟨by rw [List.length_take]; omega, fun _ _ => ?_⟩
      rw [List.length_take, (hsort _ _).length_eq, gatherResult_length env _ query state hg]
      omega
  · rintro ⟨w, hw, e, he⟩
    cases hg : gatherResult env (refreshAvgLen env AvgLen) (TokenizeAndStem env.text query) with
    | none => exact Search_of_gather_none env AvgLen query hg
    | some state =>
      rw [hg] at hspec
      obtain ⟨mp, hmp⟩ := hspec.1 w hw
      rw [hmp] at he
      exact Except.noConfusion he
  · rintro ⟨state, e, hg, hs⟩
    exact Search_of_scorer_error env AvgLen query state e hg hs
  · rw [hkey id doc hdoc]
    exact hid

/-- C5 (amended) on the example corpus with a working scorer: `Search` returns
both candidates. -/
theorem search_length_witness :
    (∀ less l, ((exampleEnv [(1, 1), (3, 1)] false).sortSlice less l).Perm l) ∧
      Search (exampleEnv [(1, 1), (3, 1)] false) 0 "t" =
        some [exampleDocument 1, exampleDocument 3] ∧
      [exampleDocument 1, exampleDocument 3].length =
        min (loadableCandidates (exampleEnv [(1, 1), (3, 1)] false) "t") 50 :=
  ⟨fun less l => insertionSortLessFunc_perm less l, by decide!,
    ((search_length (exampleEnv [(1, 1), (3, 1)] false) 0 "t"
      (fun less l => insertionSortLessFunc_perm less l)).1 _ (by decide!)).2
      (fun w _ => by
        by_cases hw : w = "t"
        · exact ⟨[(1, 1), (3, 1)], by simp [exampleEnv, hw]⟩
        · exact ⟨[], by simp [exampleEnv, hw]⟩)
      (fun _ _ => ⟨_, rfl⟩)⟩

/-- C6 (as stated, refuted): with two loadable candidates and a failing scorer
`Search` returns the empty result, not the candidates. -/
theorem search_scorer_failure_empty :
    loadableCandidates (exampleEnv [(1, 1), (2, 5)] true) "t" = 2 ∧
      Search (exampleEnv [(1, 1), (2, 5)] true) 0 "t" = some [] := by
  decide!

/-- C6 (amended): when the scorer call fails, `Search` returns the empty
result, whatever the candidates are. -/
theorem search_empty_of_scorer_failure (env : SearchEnv) (AvgLen : Float64) (query : String)
    (h : ∀ state,
      gatherResult env (refreshAvgLen env AvgLen) (TokenizeAndStem env.text query) =
        some state →
      ∃ e, env.handleBinaryScore (TokenizeAndStem env.text query) state.result = .error e) :
    Search env AvgLen query = some [] := by
  cases hg : gatherResult env (refreshAvgLen env AvgLen) (TokenizeAndStem env.text query) with
  | none => exact Search_of_gather_none env AvgLen query hg
  | some state =>
    obtain ⟨e, hs⟩ := h state hg
    exact Search_of_scorer_error env AvgLen query state e hg hs

/-- C6 (amended) on the example corpus with a failing scorer. -/
theorem search_empty_of_scorer_failure_witness :
    Search (exampleEnv [(1, 1), (2, 5), (3, 1)] true) 0 "t" = some [] :=
  search_empty_of_scorer_failure (exampleEnv [(1, 1), (2, 5), (3, 1)] true) 0 "t"
    fun _ _ => ⟨.service "unavailable", rfl⟩

/-- C9 (as stated, refuted): the documents 1 and 3 have equal accumulators;
when the posting map is enumerated as 1, 3 `Search` returns them in that order,
when it is enumerated as 3, 1 in the other. -/
theorem search_order_depends_on_enumeration :
    (Search (exampleEnv [(1, 1), (3, 1)] false) 0 "t").map (List.map fun doc => doc.Id) =
        some [1, 3] ∧
      (Search (exampleEnv [(3, 1), (1, 1)] false) 0 "t").map (List.map fun doc => doc.Id) =
        some [3, 1] := by
  decide!

theorem sameMap_error_iff (r r' : Except Err Posting) (h : sameMap r r') :
    (∃ e, r = .error e) ↔ ∃ e', r' = .error e' := by
  cases r <;> cases r' <;> simp [sameMap] at h ⊢

theorem mem_candidateIds_of_sameMap (env env' : SearchEnv) (query : String)
    (htext : env'.text = env.text)
    (hmap : ∀ w, sameMap (env.GetDocumentsByWord w) (env'.GetDocumentsByWord w)) (id : UUID) :
    id ∈ candidateIds env' query ↔ id ∈ candidateIds env query := by
  rw [mem_candidateIds, mem_candidateIds, htext]
  constructor
  · rintro ⟨w, hw, mp', hg, h⟩
    have hs := hmap w
    rw [hg] at hs
    cases hr : env.GetDocumentsByWord w with
    | error e => rw [hr] at hs; simp [sameMap] at hs
    | ok mp =>
      rw [hr] at hs
      simp only [sameMap] at hs
      exact ⟨w, hw, mp, hr, (hs.map Prod.fst).mem_iff.mpr h⟩
  · rintro ⟨w, hw, mp, hg, h⟩
    have hs := hmap w
    rw [hg] at hs
    cases hr : env'.GetDocumentsByWord w with
    | error e => rw [hr] at hs; simp [sameMap] at hs
    | ok mp' =>
      rw [hr] at hs
      simp only [sameMap] at hs
      exact ⟨w, hw, mp', hr, (hs.map Prod.fst).mem_iff.mp h⟩

theorem sameDocuments_refl (r : Option (List Document)) : sameDocuments r r := by
  cases r with
  | none => trivial
  | some docs => exact List.Perm.refl docs

theorem perm_eq_of_length_le_one {α : Type} (l l' : List α) (h : l.Perm l')
    (hlen : l.length ≤ 1) : l = l' := by
  match l, hlen with
  | [], _ => exact h.symm.eq_nil.symm
  | [a], _ => exact (List.perm_singleton.mp h.symm).symm

/-- The result of `Search` in terms of a list `inc` of the loadable candidate
ids and the list `R` of their documents: empty when a read or the scorer fails
or nothing can be loaded; otherwise (at most 50 candidates) a reordering of `R`
when every document of `R` carries the id of a candidate, and a panic when one
does not, unless `R` is that single document and the scorer names none. -/
theorem Search_outcome (env : SearchEnv) (AvgLen : Float64) (query : String)
    (hsort : ∀ less l, (env.sortSlice less l).Perm l)
    (hn : loadableCandidates env query ≤ 50) :
    ∃ (inc : List UUID) (R : List Document), inc.Nodup ∧
      (∀ id, id ∈ inc ↔
        id ∈ candidateIds env query ∧ (GetDocumentByID env id).isSome = true) ∧
      R = inc.filterMap (GetDocumentByID env) ∧
      (((∃ w ∈ TokenizeAndStem env.text query, ∃ e, env.GetDocumentsByWord w = .error e) ∨
          inc = [] ∨
          ∃ e, env.handleBinaryScore (TokenizeAndStem env.text query) R = .error e) →
        Search env AvgLen query = some []) ∧
      (¬ ((∃ w ∈ TokenizeAndStem env.text query, ∃ e, env.GetDocumentsByWord w = .error e) ∨
          inc = [] ∨
          ∃ e, env.handleBinaryScore (TokenizeAndStem env.text query) R = .error e) →
        ((∀ d ∈ R, d.Id ∈ candidateIds env query) →
          ∃ docs, Search env AvgLen query = some docs ∧ docs.Perm R) ∧
        ((∃ d ∈ R, d.Id ∉ candidateIds env query) → 2 ≤ R.length →
          Search env AvgLen query = none) ∧
        ((∃ d ∈ R, d.Id ∉ candidateIds env query) → R.length ≤ 1 →
          ∀ predicted,
            env.handleBinaryScore (TokenizeAndStem env.text query) R = .ok predicted →
            Search env AvgLen query = if predicted.isEmpty then some R else none)) := by
  have hspec := gatherResult_spec env (refreshAvgLen env AvgLen) query
  cases hg : gatherResult env (refreshAvgLen env AvgLen) (TokenizeAndStem env.text query) with
  | none =>
    rw [hg] at hspec
    refine ⟨(candidateIds env query).filter fun id => (GetDocumentByID env id).isSome, _,
      (List.nodup_dedup _).filter _, fun id => by rw [List.mem_filter], rfl,
      fun _ => Search_of_gather_none env AvgLen query hg, fun hnot => ?_⟩
    exfalso
    rcases hspec with herr | ⟨-, hnil⟩
    · exact hnot (Or.inl herr)
    · exact hnot (Or.inr (Or.inl (by rw [hnil]; rfl)))
  | some state =>
    rw [hg] at hspec
    obtain ⟨hall, hnd, hmem, hres, hlen, hkeys⟩ := hspec
    have hcount := gatherResult_length env _ query state hg
    refine ⟨state.alreadyIncluded, state.result, hnd, hmem, hres, ?_, ?_⟩
    · rintro (⟨w, hw, e, he⟩ | hnil | ⟨e, he⟩)
      · obtain ⟨mp, hmp⟩ := hall w hw
        rw [hmp] at he
        exact Except.noConfusion he
      · have h0 : state.result = [] := by
          apply List.length_eq_zero.mp
          rw [hlen, hnil]
          rfl
        exact Search_of_result_nil env AvgLen query state hg h0
      · exact Search_of_scorer_error env AvgLen query state e hg he
    · intro hnot
      push_neg at hnot
      obtain ⟨-, hne, hok⟩ := hnot
      have h0 : state.result ≠ [] := by
        intro h0
        apply hne
        apply List.length_eq_zero.mp
        rw [← hlen, h0]
        rfl
      refine ⟨fun hgood => ?_, fun hbad h2 => ?_, fun hbad h1 predicted hs => ?_⟩
      · cases hs : env.handleBinaryScore (TokenizeAndStem env.text query) state.result with
        | error e => exact absurd hs (hok e)
        | ok predicted =>
          obtain ⟨rank, hr⟩ := Search_of_accumulators env AvgLen query state predicted hg hs
            (fun d hd => (hkeys d.Id).mpr (hgood d hd))
          refine ⟨_, hr, ?_⟩
          rw [List.take_of_length_le (by rw [(hsort _ _).length_eq]; omega)]
          exact hsort _ _
      · cases hs : env.handleBinaryScore (TokenizeAndStem env.text query) state.result with
        | error e => exact absurd hs (hok e)
        | ok predicted =>
          obtain ⟨d, hd, hnot⟩ := hbad
          exact Search_of_missing_accumulator env AvgLen query state predicted hg hs h2
            ⟨d, hd, fun hk => hnot ((hkeys d.Id).mp hk)⟩
      · obtain ⟨d, hd, hnot⟩ := hbad
        have hall' : ∀ x ∈ state.result, x.Id ∉ state.rank.keys := by
          intro x hx hk
          have hxd : x = d := by
            match hres' : state.result, h1, hx, hd with
            | [y], _, hx, hd =>
              rw [List.mem_singleton] at hx hd
              rw [hx, hd]
          rw [hxd] at hk
          exact hnot ((hkeys d.Id).mp hk)
        rw [Search_of_scorer_ok env AvgLen query state predicted hg hs h0]
        cases predicted with
        | nil =>
          have hnp : lessPanics state.rank state.result = false := by
            rw [Bool.eq_false_iff, Ne, lessPanics_iff]
            rintro ⟨h2, -⟩
            omega
          have hsorted : env.sortSlice (searchLess state.rank) state.result = state.result :=
            (perm_eq_of_length_le_one _ _ (hsort _ _).symm h1).symm
          rw [applyScores]
          simp only [hnp, hsorted, List.isEmpty_nil, if_true]
          rw [List.take_of_length_le (by omega)]
          simp
        | cons rel rest =>
          rw [applyScores_cons_bad state.result rel rest state.rank
            (hall' _ (List.get_mem _ _ _))]
          simp

/-- C9 (amended): for a fixed store, query and scorer verdict and at most 50
loadable candidates, `Search` returns the same documents for every order in
which the posting maps are enumerated and for every behaviour of the sort;
only their order in the returned list may differ. -/
theorem search_documents_independent_of_enumeration (env : SearchEnv)
    (byWord : String → Except Err Posting)
    (srt : (Document → Document → Bool) → List Document → List Document)
    (AvgLen : Float64) (query : String)
    (hmap : ∀ w, sameMap (env.GetDocumentsByWord w) (byWord w))
    (hsort : ∀ less l, (env.sortSlice less l).Perm l)
    (hsrt : ∀ less l, (srt less l).Perm l)
    (hscore : ∀ docs docs' : List Document, docs.Perm docs' →
      ((∃ e, env.handleBinaryScore (TokenizeAndStem env.text query) docs = .error e) ↔
        ∃ e, env.handleBinaryScore (TokenizeAndStem env.text query) docs' = .error e))
    (hn : loadableCandidates env query ≤ 50) :
    sameDocuments (Search env AvgLen query)
      (Search { env with GetDocumentsByWord := byWord, sortSlice := srt } AvgLen query) := by
  have hcand := mem_candidateIds_of_sameMap env
    { env with GetDocumentsByWord := byWord, sortSlice := srt } query rfl hmap
  have hdoc : GetDocumentByID { env with GetDocumentsByWord := byWord, sortSlice := srt } =
      GetDocumentByID env := rfl
  have hn' : loadableCandidates { env with GetDocumentsByWord := byWord, sortSlice := srt }
      query ≤ 50 := by
    refine le_trans (le_of_eq ?_) hn
    unfold loadableCandidates
    apply List.Perm.length_eq
    have hnd1 : (List.filter (fun docID => (GetDocumentByID
        { env with GetDocumentsByWord := byWord, sortSlice := srt } docID).isSome)
        (candidateIds { env with GetDocumentsByWord := byWord, sortSlice := srt } query)).Nodup :=
      (List.nodup_dedup _).filter _
    have hnd2 : (List.filter (fun docID => (GetDocumentByID env docID).isSome)
        (candidateIds env query)).Nodup := (List.nodup_dedup _).filter _
    rw [List.perm_ext_iff_of_nodup hnd1 hnd2]
    intro id
    rw [List.mem_filter, List.mem_filter, hcand id, hdoc]
  obtain ⟨inc, R, hnd, hmem, hR, hnil, hrest⟩ := Search_outcome env AvgLen query hsort hn
  obtain ⟨inc', R', hnd', hmem', hR', hnil', hrest'⟩ :=
    Search_outcome { env with GetDocumentsByWord := byWord, sortSlice := srt } AvgLen query
      hsrt hn'
  rw [hdoc] at hR'
  have hinc : inc.Perm inc' := by
    rw [List.perm_ext_iff_of_nodup hnd hnd']
    intro id
    rw [hmem id, hmem' id, hcand id, hdoc]
  have hdocs : R.Perm R' := by
    rw [hR, hR']
    exact hinc.filterMap _
  have hfail :
      ((∃ w ∈ TokenizeAndStem env.text query, ∃ e, env.GetDocumentsByWord w = .error e) ∨
        inc = [] ∨
        ∃ e, env.handleBinaryScore (TokenizeAndStem env.text query) R = .error e) ↔
      ((∃ w ∈ TokenizeAndStem env.text query, ∃ e, byWord w = .error e) ∨
        inc' = [] ∨
        ∃ e, env.handleBinaryScore (TokenizeAndStem env.text query) R' = .error e) := by
    refine or_congr ?_ (or_congr ?_ (hscore _ _ hdocs))
    · constructor
      · rintro ⟨w, hw, he⟩
        exact ⟨w, hw, (sameMap_error_iff _ _ (hmap w)).mp he⟩
      · rintro ⟨w, hw, he⟩
        exact ⟨w, hw, (sameMap_error_iff _ _ (hmap w)).mpr he⟩
    · constructor
      · intro h; rw [h] at hinc; exact hinc.symm.eq_nil
      · intro h; rw [h] at hinc; exact hinc.eq_nil
  by_cases hf : (∃ w ∈ TokenizeAndStem env.text query, ∃ e,
      env.GetDocumentsByWord w = .error e) ∨ inc = [] ∨
      ∃ e, env.handleBinaryScore (TokenizeAndStem env.text query) R = .error e
  · rw [hnil hf, hnil' (hfail.mp hf)]
    exact List.Perm.refl _
  · obtain ⟨hgood, hbad2, hbad1⟩ := hrest hf
    obtain ⟨hgood', hbad2', hbad1'⟩ := hrest' fun h => hf (hfail.mpr h)
    by_cases hb : ∃ d ∈ R, d.Id ∉ candidateIds env query
    · have hb' : ∃ d ∈ R', d.Id ∉
          candidateIds { env with GetDocumentsByWord := byWord, sortSlice := srt } query := by
        obtain ⟨d, hd, hnot⟩ := hb
        exact ⟨d, hdocs.mem_iff.mp hd, fun h => hnot ((hcand d.Id).mp h)⟩
      by_cases h2 : 2 ≤ R.length
      · rw [hbad2 hb h2, hbad2' hb' (by rw [← hdocs.length_eq]; exact h2)]
        trivial
      · have h1 : R.length ≤ 1 := by omega
        have heq : R = R' := perm_eq_of_length_le_one R R' hdocs h1
        subst heq
        cases hs : env.handleBinaryScore (TokenizeAndStem env.text query) R with
        | error e => exact absurd (Or.inr (Or.inr ⟨e, hs⟩)) hf
        | ok predicted =>
          rw [hbad1 hb h1 predicted hs, hbad1' hb' h1 predicted hs]
          exact sameDocuments_refl _
    · push_neg at hb
      obtain ⟨docs, hdo, hp⟩ := hgood hb
      obtain ⟨docs', hdo', hp'⟩ := hgood' fun d hd =>
        (hcand d.Id).mpr (hb d (hdocs.mem_iff.mpr hd))
      rw [hdo, hdo']
      exact hp.trans (hdocs.trans hp'.symm)

/-- C9 (amended) on the example corpus: the two enumerations of the posting
of `t` give the same two documents. -/
theorem search_documents_independent_of_enumeration_witness :
    (∀ w, sameMap ((exampleEnv [(1, 1), (3, 1)] false).GetDocumentsByWord w)
        ((exampleEnv [(3, 1), (1, 1)] false).GetDocumentsByWord w)) ∧
      loadableCandidates (exampleEnv [(1, 1), (3, 1)] false) "t" ≤ 50 ∧
      sameDocuments (Search (exampleEnv [(1, 1), (3, 1)] false) 0 "t")
        (Search (exampleEnv [(3, 1), (1, 1)] false) 0 "t") :=
  ⟨fun w => by
      by_cases hw : w = "t"
      · simp only [exampleEnv, hw, if_true, sameMap]
        exact List.Perm.swap _ _ _
      · simp [exampleEnv, hw, sameMap],
    by decide!,
    search_documents_independent_of_enumeration (exampleEnv [(1, 1), (3, 1)] false)
      (exampleEnv [(3, 1), (1, 1)] false).GetDocumentsByWord insertionSortLessFunc 0 "t"
      (fun w => by
        by_cases hw : w = "t"
        · simp only [exampleEnv, hw, if_true, sameMap]
          exact List.Perm.swap _ _ _
        · simp [exampleEnv, hw, sameMap])
      (fun less l => insertionSortLessFunc_perm less l)
      (fun less l => insertionSortLessFunc_perm less l)
      (fun _ _ _ => by simp [exampleEnv])
      (by decide!)⟩

/-! ## C11: the tokenizer on its own output -/

/-- C11 (as stated, refuted): with a stemmer that strips one final `s` the text
`glass` gives the token `glas`, and the joined output `glas` gives the token
`gla`. -/
theorem tokenize_join_not_idempotent :
    TokenizeAndStem pluralText "glass" = ["glas"] ∧
      TokenizeAndStem pluralText (tokenizeJoin (TokenizeAndStem pluralText "glass")) = ["gla"] := by
  decide

theorem TokenizeAndStem_eq_runs (env : TextEnv) (text : String) :
    TokenizeAndStem env text =
      (((alnumRuns env (ToLower env text).data).map String.mk).filter
        fun token => !env.IsStopWord token).map env.Stem := by
  have h := tokenizeLoop_spec env (ToLower env text).data [] [] (by simp)
  simp only [List.nil_append] at h
  unfold TokenizeAndStem
  exact h

theorem alnumRuns_append_sep (env : TextEnv) (sep : Char) (b : List Char)
    (hsep : ¬ (env.isLetter sep || env.isNumber sep) = true) (a : List Char) :
    ∀ cur : List Char, (∀ c ∈ cur, (env.isLetter c || env.isNumber c) = true) →
      alnumRuns env (cur ++ a ++ sep :: b) = alnumRuns env (cur ++ a) ++ alnumRuns env b := by
  induction a with
  | nil =>
    intro cur hcur
    rw [List.append_nil, alnumRuns_sep env cur sep b hcur hsep, alnumRuns_of_alnum env cur hcur]
  | cons x rest ih =>
    intro cur hcur
    by_cases hx : (env.isLetter x || env.isNumber x) = true
    · have := ih (cur ++ [x]) (by
        intro c hc
        rcases List.mem_append.mp hc with hc | hc
        · exact hcur c hc
        · simp only [List.mem_singleton] at hc; subst hc; exact hx)
      simpa only [List.append_assoc, List.singleton_append] using this
    · have h0 := ih [] (by simp)
      simp only [List.nil_append] at h0
      rw [List.append_assoc, List.cons_append, alnumRuns_sep env cur x _ hcur hx, h0,
        alnumRuns_sep env cur x rest hcur hx, List.append_assoc]

theorem TokenizeAndStem_append_space (env : TextEnv) (s r : String)
    (hspace : (env.isLetter (env.toLower ' ') || env.isNumber (env.toLower ' ')) = false) :
    TokenizeAndStem env (s ++ " " ++ r) = TokenizeAndStem env s ++ TokenizeAndStem env r := by
  have hdata : (ToLower env (s ++ " " ++ r)).data =
      [] ++ (ToLower env s).data ++ env.toLower ' ' :: (ToLower env r).data := by
    simp [ToLower, String.data_append]
  rw [TokenizeAndStem_eq_runs, TokenizeAndStem_eq_runs, TokenizeAndStem_eq_runs, hdata,
    alnumRuns_append_sep env _ _ (by simp [hspace]) _ [] (by simp)]
  simp only [List.nil_append, List.map_append, List.filter_append]

theorem TokenizeAndStem_empty (env : TextEnv) : TokenizeAndStem env "" = [] := by
  simp [TokenizeAndStem, ToLower, tokenizeLoop, flushToken]

/-- Tokenizing space-joined strings tokenizes each of them. -/
theorem TokenizeAndStem_tokenizeJoin (env : TextEnv)
    (hspace : (env.isLetter (env.toLower ' ') || env.isNumber (env.toLower ' ')) = false)
    (tokens : List String) :
    TokenizeAndStem env (tokenizeJoin tokens) = tokens.flatMap (TokenizeAndStem env) := by
  induction tokens with
  | nil => simp [tokenizeJoin, TokenizeAndStem_empty]
  | cons token rest ih =>
    cases rest with
    | nil => simp [tokenizeJoin]
    | cons next rest =>
      rw [tokenizeJoin, TokenizeAndStem_append_space env _ _ hspace, ih]
      simp

/-- A token of lowercase letters and numbers that is no stop word and is its
own stem is tokenized to itself. -/
theorem TokenizeAndStem_of_stable (env : TextEnv) (token : String) (hne : token.data ≠ [])
    (hchars : ∀ c ∈ token.data,
      env.toLower c = c ∧ (env.isLetter c || env.isNumber c) = true)
    (hstop : env.IsStopWord token = false) (hstem : env.Stem token = token) :
    TokenizeAndStem env token = [token] := by
  have hlower : ToLower env token = token := by
    unfold ToLower
    have : token.data.map env.toLower = token.data := by
      conv_rhs => rw [← List.map_id token.data]
      exact List.map_congr_left fun c hc => (hchars c hc).1
    rw [this]
  rw [TokenizeAndStem_eq_runs, hlower, alnumRuns_of_alnum env _ fun c hc => (hchars c hc).2,
    if_neg hne]
  simp [hstop, hstem]

/-- C11 (amended): if every token that `TokenizeAndStem(text)` returns is
tokenized to itself alone (it is its own stem, made of lowercase letters and
numbers, and no stop word) and the space is a separator, then applying
`TokenizeAndStem` to these tokens joined with single spaces returns them. -/
theorem tokenize_join_idempotent (env : TextEnv) (text : String)
    (hspace : (env.isLetter (env.toLower ' ') || env.isNumber (env.toLower ' ')) = false)
    (hfix : ∀ token ∈ TokenizeAndStem env text, TokenizeAndStem env token = [token]) :
    TokenizeAndStem env (tokenizeJoin (TokenizeAndStem env text)) = TokenizeAndStem env text := by
  rw [TokenizeAndStem_tokenizeJoin env hspace]
  generalize TokenizeAndStem env text = tokens at hfix
  induction tokens with
  | nil => rfl
  | cons token rest ih =>
    rw [List.flatMap_cons, hfix token (List.mem_cons_self _ _),
      ih fun t ht => hfix t (List.mem_cons_of_mem _ ht)]
    rfl

/-- C11 (amended) with the identity stemmer and the stop word `the`. -/
theorem tokenize_join_idempotent_witness :
    TokenizeAndStem exampleText
        (tokenizeJoin (TokenizeAndStem exampleText "The quick  brown-fox 42!")) =
      TokenizeAndStem exampleText "The quick  brown-fox 42!" :=
  tokenize_join_idempotent exampleText "The quick  brown-fox 42!" (by decide) (by decide)

/-! ## C12: the cached average length -/

/-- C12 (code evaluated at the failing inputs): with two stored documents of
full size 3/2 and a cached `AvgLen` of 0, `Search` leaves `AvgLen` at
`(1 + 1) / 2 = 1`, not at the mean 3/2; with no stored document it leaves NaN;
and a cached NaN is not recomputed by a later `Search`, although documents are
stored by then. -/
theorem updateAVGLen_truncates_and_sticks :
    GetAllDocuments (collectionEnv [("doc:1", "1"), ("doc:2", "2")]) =
        .ok [halfDocument 1, halfDocument 2] ∧
      meanFullSize specFullSize [halfDocument 1, halfDocument 2] = 3 / 2 ∧
      avgLenAfterSearch (collectionEnv [("doc:1", "1"), ("doc:2", "2")]) (.num 0) = .num 1 ∧
      avgLenAfterSearch (collectionEnv []) (.num 0) = .nan ∧
      avgLenAfterSearch (collectionEnv [("doc:1", "1"), ("doc:2", "2")]) .nan = .nan := by
  decide!

end Saturday
